import Mathlib

/-!
A verification development for `sjtu::list` (src/list.hpp).

The container is a circular doubly-linked ring of heap nodes around a sentinel.
The embedding keeps the pointer structure of the source:

* node addresses and list-object addresses are natural numbers, `0` is `nullptr`;
* the heap is a record of field maps (`data`, `prev`, `next` of every node address,
  `head` and `_size` of every list-object address) together with the set `live`
  of currently allocated nodes;
* `new node` takes the address handed out by the allocator as an explicit argument; the
  copy constructor and `operator=`, which allocate repeatedly, take the sequence of these
  addresses (`alloc k` for the `k`-th allocation);
* a position handle is the pair of its two pointer fields; its operators return the
  outcome together with the handle after the call;
* a C++ exception is an `Except.error` result paired with the (unchanged) heap;
* `while` loops over the pointer structure take a step budget (`fuel`).

`_size` is a `size_t`.  A ring of `2^64` nodes does not fit in a 64-bit address space, so
`_size++` never wraps and is modelled by `+ 1` on `Nat`; `_size--` wraps at `0` and is
modelled as such by `decr`.
-/

namespace sjtu

/-- Abnormal outcomes: the two exceptions of `exceptions.hpp` that the container throws,
a read through a null `data` pointer (undefined behaviour in the source), and an exhausted
loop budget. -/
inductive Err where
  | invalid_iterator
  | container_is_empty
  | null_deref
  | out_of_fuel
  deriving DecidableEq

/-- The heap: the fields of every node (`data`, `prev`, `next`), the allocation status of
every node address, and the fields of every list object (`head`, `_size`). -/
@[ext]
structure State (α : Type) where
  data : Nat → Option α
  prev : Nat → Nat
  next : Nat → Nat
  live : Nat → Bool
  head : Nat → Nat
  _size : Nat → Nat

/-- A position handle: `node *current; const list<T> *container;`
(the same record serves `iterator` and `const_iterator`, whose fields coincide). -/
structure iterator where
  current : Nat
  container : Nat
  deriving DecidableEq

namespace list

variable {α : Type}

/-- `size_t` decrement: wraps around at zero. -/
def decr (n : Nat) : Nat := if n = 0 then 2 ^ 64 - 1 else n - 1

/-- Assignment `a->next = v`. -/
def setNext (s : State α) (a v : Nat) : State α :=
  { s with next := fun x => if x = a then v else s.next x }

/-- Assignment `a->prev = v`. -/
def setPrev (s : State α) (a v : Nat) : State α :=
  { s with prev := fun x => if x = a then v else s.prev x }

/-- Assignment `l->_size = v`. -/
def setSize (s : State α) (l v : Nat) : State α :=
  { s with _size := fun x => if x = l then v else s._size x }

/-- Assignment `l->head = v`. -/
def setHead (s : State α) (l v : Nat) : State α :=
  { s with head := fun x => if x = l then v else s.head x }

/-- The expression `new node(value)` when the allocator returns address `a`:
`data(new T(val)), prev(nullptr), next(nullptr)`. -/
def newNode (s : State α) (a : Nat) (value : α) : State α :=
  { s with
    data := fun x => if x = a then some value else s.data x
    prev := fun x => if x = a then 0 else s.prev x
    next := fun x => if x = a then 0 else s.next x
    live := fun x => if x = a then true else s.live x }

/-- The expression `new node()` when the allocator returns address `a`:
`data(nullptr), prev(nullptr), next(nullptr)`. -/
def newSentinel (s : State α) (a : Nat) : State α :=
  { s with
    data := fun x => if x = a then none else s.data x
    prev := fun x => if x = a then 0 else s.prev x
    next := fun x => if x = a then 0 else s.next x
    live := fun x => if x = a then true else s.live x }

/-- The statement `delete a`: the destructor frees the element, the node is deallocated. -/
def deleteNode (s : State α) (a : Nat) : State α :=
  { s with
    data := fun x => if x = a then none else s.data x
    live := fun x => if x = a then false else s.live x }

/-- `list::init`, the allocator returning `a` for the sentinel. -/
def init (this a : Nat) (s : State α) : State α :=
  let s := setHead (newSentinel s a) this a
  let s := setPrev s (s.head this) (s.head this)
  let s := setNext s (s.head this) (s.head this)
  setSize s this 0

/-- The protected `list::insert(node *pos, node *cur)`; it returns `cur`. -/
def insertNode (this pos cur : Nat) (s : State α) : State α :=
  let s := setPrev s cur (s.prev pos)
  let s := setNext s cur pos
  let s := setNext s (s.prev pos) cur
  let s := setPrev s pos cur
  setSize s this (s._size this + 1)

/-- The protected `list::erase(node *pos)`; it returns `pos`. -/
def eraseNode (this pos : Nat) (s : State α) : State α :=
  let s := setNext s (s.prev pos) (s.next pos)
  let s := setPrev s (s.next pos) (s.prev pos)
  setSize s this (decr (s._size this))

/-- `list::empty`. -/
def empty (this : Nat) (s : State α) : Bool := s._size this == 0

/-- `list::size`. -/
def size (this : Nat) (s : State α) : Nat := s._size this

/-- `list::begin` (and `cbegin`). -/
def begin (this : Nat) (s : State α) : iterator := ⟨s.next (s.head this), this⟩

/-- `list::end` (and `cend`). -/
def end_ (this : Nat) (s : State α) : iterator := ⟨s.head this, this⟩

/-- The public `list::insert(iterator pos, const T &value)`, the allocator returning `a`. -/
def insert (this : Nat) (pos : iterator) (value : α) (a : Nat) (s : State α) :
    Except Err iterator × State α :=
  if pos.container ≠ this then (.error .invalid_iterator, s)
  else
    let s := newNode s a value
    let s := insertNode this pos.current a s
    (.ok ⟨a, this⟩, s)

/-- The public `list::erase(iterator pos)`. -/
def erase (this : Nat) (pos : iterator) (s : State α) : Except Err iterator × State α :=
  if empty this s then (.error .container_is_empty, s)
  else if pos.container ≠ this ∨ pos.current = s.head this then (.error .invalid_iterator, s)
  else
    let next_node := s.next pos.current
    let s := eraseNode this pos.current s
    let s := deleteNode s pos.current
    (.ok ⟨next_node, this⟩, s)

/-- `list::push_back`. -/
def push_back (this : Nat) (value : α) (a : Nat) (s : State α) : Except Err Unit × State α :=
  let r := insert this (end_ this s) value a s
  (r.1.map fun _ => (), r.2)

/-- `list::pop_back`. -/
def pop_back (this : Nat) (s : State α) : Except Err Unit × State α :=
  if empty this s then (.error .container_is_empty, s)
  else
    let r := erase this ⟨s.prev (s.head this), this⟩ s
    (r.1.map fun _ => (), r.2)

/-- `list::push_front`. -/
def push_front (this : Nat) (value : α) (a : Nat) (s : State α) : Except Err Unit × State α :=
  let r := insert this (begin this s) value a s
  (r.1.map fun _ => (), r.2)

/-- `list::pop_front`. -/
def pop_front (this : Nat) (s : State α) : Except Err Unit × State α :=
  if empty this s then (.error .container_is_empty, s)
  else
    let r := erase this (begin this s) s
    (r.1.map fun _ => (), r.2)

/-! ### Position handles -/

/-- The read-only handle `const_iterator`: it has the fields of `iterator`, its operators
have the same bodies, and the converting constructor copies both fields. -/
abbrev const_iterator := iterator

/-- The default constructor `iterator()` (and `const_iterator()`): both fields null. -/
def defaultIterator : iterator := ⟨0, 0⟩

/-- The prefix `operator++` of `iterator` and of `const_iterator`: the outcome and the
handle after the call. -/
def increment (it : iterator) (s : State α) : Except Err Unit × iterator :=
  if it.current = 0 ∨ it.container = 0 ∨ it.current = s.head it.container then
    (.error .invalid_iterator, it)
  else (.ok (), ⟨s.next it.current, it.container⟩)

/-- The prefix `operator--` of `iterator` and of `const_iterator`: the outcome and the
handle after the call. -/
def decrement (it : iterator) (s : State α) : Except Err Unit × iterator :=
  if it.current = 0 ∨ it.container = 0 ∨ s.prev it.current = s.head it.container then
    (.error .invalid_iterator, it)
  else (.ok (), ⟨s.prev it.current, it.container⟩)

/-- The postfix `operator++(int)`: it returns the copy `temp` taken before the move. -/
def postIncrement (it : iterator) (s : State α) : Except Err iterator × iterator :=
  let temp := it
  let r := increment it s
  (r.1.map fun _ => temp, r.2)

/-- The postfix `operator--(int)`: it returns the copy `temp` taken before the move. -/
def postDecrement (it : iterator) (s : State α) : Except Err iterator × iterator :=
  let temp := it
  let r := decrement it s
  (r.1.map fun _ => temp, r.2)

/-- The dereference `operator*` of `iterator` and of `const_iterator` (`operator->` has the
same guard and returns the same element by address). -/
def dereference (it : iterator) (s : State α) : Except Err α :=
  if it.current = 0 ∨ it.container = 0 ∨ it.current = s.head it.container then
    .error .invalid_iterator
  else
    match s.data it.current with
    | some v => .ok v
    | none => .error .null_deref

/-- The comparison `operator==` of handles (all four overloads): same referenced node. -/
def iterEq (a b : iterator) : Bool := a.current == b.current

/-- The comparison `operator!=` of handles (all four overloads). -/
def iterNe (a b : iterator) : Bool := a.current != b.current

/-- `list::front`. -/
def front (this : Nat) (s : State α) : Except Err α × State α :=
  if empty this s then (.error .container_is_empty, s)
  else
    match s.data (s.next (s.head this)) with
    | some v => (.ok v, s)
    | none => (.error .null_deref, s)

/-- `list::back`. -/
def back (this : Nat) (s : State α) : Except Err α × State α :=
  if empty this s then (.error .container_is_empty, s)
  else
    match s.data (s.prev (s.head this)) with
    | some v => (.ok v, s)
    | none => (.error .null_deref, s)

/-- The `while (curr != head)` loop of `list::clear`. -/
def clearLoop (this : Nat) : Nat → Nat → State α → Except Err (State α)
  | 0, _, _ => .error .out_of_fuel
  | fuel + 1, curr, s =>
    if curr ≠ s.head this then
      let next := s.next curr
      let s := deleteNode s curr
      clearLoop this fuel next s
    else .ok s

/-- `list::clear`; the loop may take `fuel` steps. -/
def clear (fuel : Nat) (this : Nat) (s : State α) : Except Err (State α) :=
  match clearLoop this fuel (s.next (s.head this)) s with
  | .error e => .error e
  | .ok s =>
    let s := setNext s (s.head this) (s.head this)
    let s := setPrev s (s.head this) (s.head this)
    .ok (setSize s this 0)

/-- The loop `for (auto it = other.cbegin(); it != other.cend(); ++it) push_back(*it);` of
the copy constructor and of `operator=`; `alloc k` is the address the allocator returns for
the `k`-th node allocated by the call, and `k` counts the allocations made so far. -/
def copyLoop (this other : Nat) (alloc : Nat → Nat) :
    Nat → Nat → iterator → State α → Except Err Unit × State α
  | 0, _, _, s => (.error .out_of_fuel, s)
  | fuel + 1, k, it, s =>
    if iterNe it (end_ other s) then
      match dereference it s with
      | .error e => (.error e, s)
      | .ok v =>
        let r := push_back this v (alloc k) s
        match r.1 with
        | .error e => (.error e, r.2)
        | .ok _ =>
          let r2 := increment it r.2
          match r2.1 with
          | .error e => (.error e, r.2)
          | .ok _ => copyLoop this other alloc fuel (k + 1) r2.2 r.2
    else (.ok (), s)

/-- The copy constructor `list(const list &other)`; the loop may take `fuel` steps. -/
def copyConstruct (fuel : Nat) (this other : Nat) (alloc : Nat → Nat) (s : State α) :
    Except Err Unit × State α :=
  let s := init this (alloc 0) s
  copyLoop this other alloc fuel 1 (begin other s) s

/-- The copy assignment `list::operator=`; each loop may take `fuel` steps. -/
def assign (fuel : Nat) (this other : Nat) (alloc : Nat → Nat) (s : State α) :
    Except Err Unit × State α :=
  if this = other then (.ok (), s)
  else
    match clear fuel this s with
    | .error e => (.error e, s)
    | .ok s => copyLoop this other alloc fuel 0 (begin other s) s

/-! ### The structural algorithms -/

/-- Follow the pointer field `f` from `a`, listing the `n` nodes visited: `a, f a, f (f a), …`. -/
def walk (f : Nat → Nat) : Nat → Nat → List Nat
  | 0, _ => []
  | n + 1, a => a :: walk f n (f a)


/-- The comparison lambda of `list::sort`, `*(a->data) < *(b->data)`, on node addresses.
Only element nodes enter the array being sorted; for a node without an element the
comparison is given the value `false`. -/
def cmp [LT α] [DecidableRel (fun a b : α => a < b)] (s : State α) (a b : Nat) : Bool :=
  match s.data a, s.data b with
  | some x, some y => decide (x < y)
  | _, _ => false

/-- The loop `for (i = 0; i < _size - 1; ++i) { nodes[i]->next = nodes[i+1];
nodes[i+1]->prev = nodes[i]; }` of `list::sort`, with `n` iterations left at index `i`. -/
def relinkLoop (nodes : List Nat) : Nat → Nat → State α → State α
  | 0, _, s => s
  | n + 1, i, s =>
    let s := setNext s (nodes.getD i 0) (nodes.getD (i + 1) 0)
    let s := setPrev s (nodes.getD (i + 1) 0) (nodes.getD i 0)
    relinkLoop nodes n (i + 1) s

/-- `list::sort`.  The array `nodes` is a list of node addresses; `sortPrim` stands for
`sjtu::sort<node*>(nodes, nodes + _size, cmp)` of `algorithm.hpp`, mapping the comparator and
the array before the call to the array after it. -/
def sort [LT α] [DecidableRel (fun a b : α => a < b)]
    (sortPrim : (Nat → Nat → Bool) → List Nat → List Nat) (this : Nat) (s : State α) :
    State α :=
  if s._size this ≤ 1 then s
  else
    let nodes := walk s.next (s._size this) (s.next (s.head this))
    let nodes := sortPrim (cmp s) nodes
    let s := setNext s (s.head this) (nodes.getD 0 0)
    let s := setPrev s (nodes.getD 0 0) (s.head this)
    let s := relinkLoop nodes (s._size this - 1) 0 s
    let s := setNext s (nodes.getD (s._size this - 1) 0) (s.head this)
    setPrev s (s.head this) (nodes.getD (s._size this - 1) 0)

/-- The first `while` loop of `list::merge` (`first1 != last1 && first2 != last2`);
it returns the final `first2` with the heap. -/
def mergeLoop1 [LT α] [DecidableRel (fun a b : α => a < b)] (this other last1 last2 : Nat) :
    Nat → Nat → Nat → State α → Except Err (Nat × State α)
  | 0, _, _, _ => .error .out_of_fuel
  | fuel + 1, first1, first2, s =>
    if first1 ≠ last1 ∧ first2 ≠ last2 then
      match s.data first2, s.data first1 with
      | some y, some x =>
        if y < x then
          let next2 := s.next first2
          let s := setPrev s first2 (s.prev first1)
          let s := setNext s first2 first1
          let s := setNext s (s.prev first1) first2
          let s := setPrev s first1 first2
          let s := setSize s this (s._size this + 1)
          let s := setSize s other (decr (s._size other))
          mergeLoop1 this other last1 last2 fuel first1 next2 s
        else
          mergeLoop1 this other last1 last2 fuel (s.next first1) first2 s
      | _, _ => .error .null_deref
    else .ok (first2, s)

/-- The second `while` loop of `list::merge` (`first2 != last2`). -/
def mergeLoop2 (this other last2 : Nat) : Nat → Nat → State α → Except Err (State α)
  | 0, _, _ => .error .out_of_fuel
  | fuel + 1, first2, s =>
    if first2 ≠ last2 then
      let next2 := s.next first2
      let s := setPrev s first2 (s.prev (s.head this))
      let s := setNext s first2 (s.head this)
      let s := setNext s (s.prev (s.head this)) first2
      let s := setPrev s (s.head this) first2
      let s := setSize s this (s._size this + 1)
      let s := setSize s other (decr (s._size other))
      mergeLoop2 this other last2 fuel next2 s
    else .ok s

/-- `list::merge`; each of the two loops may take `fuel` steps. -/
def merge [LT α] [DecidableRel (fun a b : α => a < b)] (fuel : Nat) (this other : Nat)
    (s : State α) : Except Err (State α) :=
  if this = other then .ok s
  else if empty other s then .ok s
  else if empty this s then
    let s := setNext s (s.head this) (s.next (s.head other))
    let s := setPrev s (s.head this) (s.prev (s.head other))
    let s := setPrev s (s.next (s.head this)) (s.head this)
    let s := setNext s (s.prev (s.head this)) (s.head this)
    let s := setSize s this (s._size other)
    let s := setNext s (s.head other) (s.head other)
    let s := setPrev s (s.head other) (s.head other)
    let s := setSize s other 0
    .ok s
  else
    let first1 := s.next (s.head this)
    let last1 := s.head this
    let first2 := s.next (s.head other)
    let last2 := s.head other
    match mergeLoop1 this other last1 last2 fuel first1 first2 s with
    | .error e => .error e
    | .ok (first2, s) =>
      match mergeLoop2 this other last2 fuel first2 s with
      | .error e => .error e
      | .ok s =>
        let s := setNext s (s.head other) (s.head other)
        let s := setPrev s (s.head other) (s.head other)
        .ok s

/-- The `do … while (curr != head)` loop of `list::reverse`. -/
def reverseLoop (this : Nat) : Nat → Nat → State α → Except Err (State α)
  | 0, _, _ => .error .out_of_fuel
  | fuel + 1, curr, s =>
    let temp := s.next curr
    let s := setNext s curr (s.prev curr)
    let s := setPrev s curr temp
    let curr := s.prev curr
    if curr ≠ s.head this then reverseLoop this fuel curr s else .ok s

/-- `list::reverse`; the loop may take `fuel` steps. -/
def reverse (fuel : Nat) (this : Nat) (s : State α) : Except Err (State α) :=
  if s._size this ≤ 1 then .ok s
  else reverseLoop this fuel (s.head this) s

/-- The `while (curr != head && curr->next != head)` loop of `list::unique`. -/
def uniqueLoop [BEq α] (this : Nat) : Nat → Nat → State α → Except Err (State α)
  | 0, _, _ => .error .out_of_fuel
  | fuel + 1, curr, s =>
    if curr ≠ s.head this ∧ s.next curr ≠ s.head this then
      match s.data curr, s.data (s.next curr) with
      | some x, some y =>
        if x == y then
          let duplicate := s.next curr
          let s := eraseNode this duplicate s
          let s := deleteNode s duplicate
          uniqueLoop this fuel curr s
        else
          uniqueLoop this fuel (s.next curr) s
      | _, _ => .error .null_deref
    else .ok s

/-- `list::unique`; the loop may take `fuel` steps. -/
def unique [BEq α] (fuel : Nat) (this : Nat) (s : State α) : Except Err (State α) :=
  if s._size this ≤ 1 then .ok s
  else uniqueLoop this fuel (s.next (s.head this)) s

/-! ### Reference functions on sequences -/

/-- Adjacent deduplication after a kept element `kept`: an element is dropped iff the most
recently kept element `==` it (the kept element is the left operand, as in the source). -/
def refUniqueAux [BEq α] (kept : α) : List α → List α
  | [] => []
  | x :: xs => if kept == x then refUniqueAux kept xs else x :: refUniqueAux x xs

/-- Reference adjacent deduplication: scanning left to right, an element is kept iff it is
the first element or is not `==` to the most recently kept element. -/
def refUnique [BEq α] : List α → List α
  | [] => []
  | x :: xs => x :: refUniqueAux x xs

/-- Inner recursion of `refMerge` for a fixed first element `x` of the left sequence;
`k` merges the rest of the left sequence with what is left of the right one. -/
def refMergeAux {β : Type} (lt : β → β → Bool) (x : β) (k : List β → List β) :
    List β → List β
  | [] => x :: k []
  | y :: ys => if lt y x then y :: refMergeAux lt x k ys else x :: k (y :: ys)

/-- Reference two-pointer merge: `m(xs, []) = xs`, `m([], ys) = ys`,
`m(x :: xs, y :: ys) = y :: m(x :: xs, ys)` if `y < x`, else `x :: m(xs, y :: ys)`. -/
def refMerge {β : Type} (lt : β → β → Bool) : List β → List β → List β
  | [], ys => ys
  | x :: xs, ys => refMergeAux lt x (refMerge lt xs) ys

/-- The heap in which `prev` and `next` are exchanged on exactly the nodes of `P`. -/
def swapOn (P : List Nat) (s : State α) : State α :=
  { s with
    next := fun x => if x ∈ P then s.prev x else s.next x
    prev := fun x => if x ∈ P then s.next x else s.prev x }

/-- Link every entry of a path to its successor: `a->next = b; b->prev = a` for each pair
of consecutive entries `a`, `b`, left to right. -/
def linkPath (s : State α) : List Nat → State α
  | a :: b :: rest => linkPath (setPrev (setNext s a b) b a) (b :: rest)
  | _ => s

/-- Pair every address of `l` that holds an element with that element. -/
def tag (s : State α) (l : List Nat) : List (Nat × α) :=
  l.filterMap fun a => (s.data a).map (Prod.mk a)

/-- The comparison of `list::merge` on nodes paired with their elements. -/
def ltp [LT α] [DecidableRel (fun a b : α => a < b)] (p q : Nat × α) : Bool :=
  decide (p.2 < q.2)

/-- The comparison of `list::merge` on elements. -/
def ltb [LT α] [DecidableRel (fun a b : α => a < b)] (x y : α) : Bool :=
  decide (x < y)

/-! ### Call sequences -/

/-- A call of one of the six basic mutators; `a` is the address the allocator returns. -/
inductive Op (α : Type) where
  | insert (pos : iterator) (value : α) (a : Nat)
  | erase (pos : iterator)
  | push_back (value : α) (a : Nat)
  | push_front (value : α) (a : Nat)
  | pop_back
  | pop_front

/-! ### Observations and the ring invariant -/

/-- The nodes met by `size()` increments of `begin()`. -/
def nodes (this : Nat) (s : State α) : List Nat :=
  walk s.next (s._size this) (s.next (s.head this))

/-- The nodes met by `size()` steps along `prev` from the tail `head->prev`. -/
def nodesBack (this : Nat) (s : State α) : List Nat :=
  walk s.prev (s._size this) (s.prev (s.head this))

/-- The element sequence: `*it` for the `size()` positions from `begin()`. -/
def values (this : Nat) (s : State α) : List (Option α) :=
  (nodes this s).map s.data

/-- Nodes `x`, `y` are neighbours: `x->next == y` and `y->prev == x`. -/
def Link (s : State α) (x y : Nat) : Prop := s.next x = y ∧ s.prev y = x

instance (s : State α) : DecidableRel (Link s) := fun x y => by
  unfold Link; infer_instance

/-- Executable check that consecutive entries of a path are neighbours. -/
def linked (s : State α) : List Nat → Bool
  | x :: y :: l => (s.next x == y && s.prev y == x) && linked s (y :: l)
  | _ => true

/-- The representation invariant of the list object `this`: the sentinel and the element
nodes `nvs` (address and element, in order) form a doubly-linked ring, all these nodes are
distinct, allocated and non-null, every element node holds its element, the sentinel holds
none, and `_size` counts the element nodes. -/
def IsList (s : State α) (this : Nat) (nvs : List (Nat × α)) : Prop :=
  linked s (s.head this :: (nvs.map Prod.fst ++ [s.head this])) = true ∧
  (s.head this :: nvs.map Prod.fst).Nodup ∧
  s._size this = nvs.length ∧
  (∀ p ∈ nvs, s.data p.1 = some p.2) ∧
  s.data (s.head this) = none ∧
  (∀ a ∈ s.head this :: nvs.map Prod.fst, s.live a = true ∧ a ≠ 0)

instance [DecidableEq α] (s : State α) (this : Nat) (nvs : List (Nat × α)) :
    Decidable (IsList s this nvs) := by
  unfold IsList; infer_instance

/-- An address the allocator may return: non-null and not currently allocated. -/
def Fresh (s : State α) (a : Nat) : Prop := a ≠ 0 ∧ s.live a = false

instance (s : State α) (a : Nat) : Decidable (Fresh s a) := by
  unfold Fresh; infer_instance

/-- The heap in which nothing is allocated. -/
def State.blank : State α :=
  ⟨fun _ => none, fun _ => 0, fun _ => 0, fun _ => false, fun _ => 0, fun _ => 0⟩

/-- A handle produced by the list `this` whose node is currently in its ring
(the sentinel or an element node). -/
def Owns (this : Nat) (s : State α) (pos : iterator) : Prop :=
  pos.container = this ∧ pos.current ∈ s.head this :: nodes this s

instance (this : Nat) (s : State α) (pos : iterator) : Decidable (Owns this s pos) := by
  unfold Owns; infer_instance

/-- Keep the heap of a call that returned normally. -/
def okState {β : Type} (r : Except Err β × State α) : Option (State α) :=
  match r.1 with
  | .ok _ => some r.2
  | .error _ => none

/-- One call on the list `this`.  The result is `none` when the call lies outside the
sequences considered: a handle that is not a handle of this list to a node currently in
it, an address the allocator cannot return, or a call that throws. -/
def applyOp (this : Nat) (s : State α) : Op α → Option (State α)
  | .insert pos v a =>
    if Owns this s pos ∧ Fresh s a then okState (insert this pos v a s) else none
  | .erase pos => if Owns this s pos then okState (erase this pos s) else none
  | .push_back v a => if Fresh s a then okState (push_back this v a s) else none
  | .push_front v a => if Fresh s a then okState (push_front this v a s) else none
  | .pop_back => okState (pop_back this s)
  | .pop_front => okState (pop_front this s)

/-- A sequence of calls on the list `this`, left to right. -/
def run (this : Nat) : List (Op α) → State α → Option (State α)
  | [], s => some s
  | op :: ops, s => (applyOp this s op).bind (run this ops)

/-- The ring invariant holds for the list object `this`. -/
def RingInv (s : State α) (this : Nat) : Prop := ∃ nvs : List (Nat × α), IsList s this nvs

/-- The invariant of the loops of `list::merge`: `this` is a well-formed list with element
nodes `mine`; the nodes `rest` of `other` not yet moved are chained by `next` up to the
sentinel of `other` (their `prev` links and the links of that sentinel are stale until
`merge` resets them), hold their elements, are counted by `other._size`, and are separate
from the ring of `this`. -/
def MergeInv (s : State α) (this other : Nat) (mine rest : List (Nat × α)) : Prop :=
  this ≠ other ∧ IsList s this mine ∧
  List.Chain' (fun x y => s.next x = y) (rest.map Prod.fst ++ [s.head other]) ∧
  (s.head other :: rest.map Prod.fst).Nodup ∧
  s._size other = rest.length ∧
  (∀ p ∈ rest, s.data p.1 = some p.2) ∧
  s.data (s.head other) = none ∧
  (∀ a ∈ s.head other :: rest.map Prod.fst,
    (s.live a = true ∧ a ≠ 0) ∧ a ∉ s.head this :: mine.map Prod.fst)

/-- Two lists of one heap own separate nodes. -/
def Separate (s : State α) (this other : Nat) (mine theirs : List (Nat × α)) : Prop :=
  this ≠ other ∧
  ∀ a ∈ s.head other :: theirs.map Prod.fst, a ∉ s.head this :: mine.map Prod.fst

instance (s : State α) (this other : Nat) (mine theirs : List (Nat × α)) :
    Decidable (Separate s this other mine theirs) := by
  unfold Separate; infer_instance

/-- A call of any mutator of the container: one of the six basic ones, `clear`, `sort`
(with the sort primitive it is linked against), `reverse` or `unique`. -/
inductive Mut (α : Type) where
  | basic (op : Op α)
  | clear
  | sort (sortPrim : (Nat → Nat → Bool) → List Nat → List Nat)
  | reverse
  | unique

/-- One mutator call on the list `this`; the loops get the budget `size() + 1`, which
suffices on a list satisfying the invariant.  The result is `none` when the call lies
outside the sequences considered: as for `applyOp`, or a sort primitive that does not
return a permutation of its array, or a loop that exhausts its budget. -/
def applyMut [LT α] [DecidableRel (fun a b : α => a < b)] [BEq α] (this : Nat)
    (s : State α) : Mut α → Option (State α)
  | .basic op => applyOp this s op
  | .clear => (clear (s._size this + 1) this s).toOption
  | .sort sortPrim =>
    if (sortPrim (cmp s) (nodes this s)).Perm (nodes this s) then some (sort sortPrim this s)
    else none
  | .reverse => (reverse (s._size this + 1) this s).toOption
  | .unique => (unique (s._size this + 1) this s).toOption

/-- A sequence of mutator calls on the list `this`, left to right. -/
def runMut [LT α] [DecidableRel (fun a b : α => a < b)] [BEq α] (this : Nat) :
    List (Mut α) → State α → Option (State α)
  | [], s => some s
  | m :: ms, s => (applyMut this s m).bind (runMut this ms)

/-- The heaps `s` and `t` differ at most in the fields of the nodes `R` and in the fields
of the list object `this`. -/
def FrameOn (R : List Nat) (this : Nat) (s t : State α) : Prop :=
  (∀ l, l ≠ this → t.head l = s.head l ∧ t._size l = s._size l) ∧
  ∀ x, x ∉ R →
    t.next x = s.next x ∧ t.prev x = s.prev x ∧ t.data x = s.data x ∧ t.live x = s.live x

/-- The nodes created by copying the elements of `l`, the `j`-th at address `alloc (k + j)`. -/
def copied (alloc : Nat → Nat) : Nat → List (Nat × α) → List (Nat × α)
  | _, [] => []
  | k, p :: ps => (alloc k, p.2) :: copied alloc (k + 1) ps

/-- The addresses `alloc k, …, alloc (k + n - 1)` can be returned by `n` successive
allocations in the heap `s`: each is non-null and not allocated, and they are distinct. -/
def AllocOK (s : State α) (alloc : Nat → Nat) (k n : Nat) : Prop :=
  (∀ j, j < n → Fresh s (alloc (k + j))) ∧
  ∀ i, i < n → ∀ j, j < n → alloc (k + i) = alloc (k + j) → i = j

instance (s : State α) (alloc : Nat → Nat) (k n : Nat) : Decidable (AllocOK s alloc k n) := by
  unfold AllocOK; infer_instance

/-- Two well-formed lists of one heap that own separate nodes. -/
def Both (s : State α) (this other : Nat) (A B : List (Nat × α)) : Prop :=
  IsList s this A ∧ IsList s other B ∧ Separate s this other A B

instance [DecidableEq α] (s : State α) (this other : Nat) (A B : List (Nat × α)) :
    Decidable (Both s this other A B) := by
  unfold Both; infer_instance

/-! ### Example heaps -/

/-- The list object at address `1`, freshly constructed with its sentinel at `10`. -/
def exEmpty : State Nat := init 1 10 State.blank

/-- Build on `exEmpty`: `push_back` of the given values at the given fresh addresses. -/
def pushAll (this : Nat) : List (Nat × Nat) → State Nat → State Nat
  | [], s => s
  | (a, v) :: rest, s => pushAll this rest (push_back this v a s).2

/-- The list `[7]` at object `1`: sentinel `10`, element node `11`. -/
def ex7 : State Nat := pushAll 1 [(11, 7)] exEmpty

/-- The list `[1, 1, 2, 2, 2, 3, 1]` at object `1`: sentinel `10`, nodes `11 … 17`. -/
def exDup : State Nat :=
  pushAll 1 [(11, 1), (12, 1), (13, 2), (14, 2), (15, 2), (16, 3), (17, 1)] exEmpty

/-- The list `[3, 1, 2]` at object `1`: sentinel `10`, nodes `11, 12, 13`. -/
def ex312 : State Nat := pushAll 1 [(11, 3), (12, 1), (13, 2)] exEmpty

/-- Two lists: `A = [1, 3, 5]` at object `1` (sentinel `10`, nodes `11, 12, 13`) and
`B = [2, 4, 6]` at object `2` (sentinel `20`, nodes `21, 22, 23`). -/
def exAB : State Nat :=
  pushAll 2 [(21, 2), (22, 4), (23, 6)]
    (init 2 20 (pushAll 1 [(11, 1), (12, 3), (13, 5)] exEmpty))

/-- Insertion sort of an array of node addresses under a comparator, standing in for the
sort primitive of `algorithm.hpp` in the examples. -/
def exSort (c : Nat → Nat → Bool) (l : List Nat) : List Nat :=
  l.foldr (fun a acc => (acc.takeWhile fun b => c b a) ++ a :: acc.dropWhile fun b => c b a) []

/-- The heap after `A.merge(B)` on `exAB`: `A = [1, 2, 3, 4, 5, 6]` owns all six element
nodes and `B` is empty. -/
def exMerged : State Nat :=
  match merge 7 1 2 exAB with
  | .ok t => t
  | .error _ => exAB

/-- Two unsorted lists: `A = [3, 1, 2]` at object `1` (sentinel `10`, nodes `11, 12, 13`)
and `B = [2, 0]` at object `2` (sentinel `20`, nodes `21, 22`). -/
def exUnsorted : State Nat := pushAll 2 [(21, 2), (22, 0)] (init 2 20 ex312)

/-- Two ascending lists with a tie: `A = [1, 2]` at object `1` (sentinel `10`, nodes
`11, 12`) and `B = [2, 3]` at object `2` (sentinel `20`, nodes `21, 22`). -/
def exTie : State Nat :=
  pushAll 2 [(21, 2), (22, 3)] (init 2 20 (pushAll 1 [(11, 1), (12, 2)] exEmpty))

/-- The list `this` of the heap `t` is an independent copy of the list `other`, whose
element nodes were `B` in the heap `s` before the copy: `this` is well formed with nodes `C`
holding the elements of `B` in order; `other` is as it was; and whatever sequence of mutator
calls is then made on `this`, `other` keeps its nodes, element sequence and size. -/
def CopyOf [LT α] [DecidableRel (fun a b : α => a < b)] [BEq α] (s t : State α)
    (this other : Nat) (B C : List (Nat × α)) : Prop :=
  IsList t this C ∧ C.map Prod.snd = B.map Prod.snd ∧
  values this t = values other s ∧ size this t = size other s ∧
  IsList t other B ∧ values other t = values other s ∧ size other t = size other s ∧
  ∀ (ms : List (Mut α)) (u : State α), runMut this ms t = some u →
    IsList u other B ∧ values other u = values other s ∧ size other u = size other s

/-- The allocator of the examples: the `k`-th allocation returns address `base + k`. -/
def exAlloc (base : Nat) (k : Nat) : Nat := base + k

/-- The heap after copy-constructing the list object `2` from the list `[3, 1, 2]` at
object `1` of `ex312`: sentinel `20`, element nodes `21, 22, 23`. -/
def exCopy : State Nat := (copyConstruct 4 2 1 (exAlloc 20) ex312).2

/-! ## Theorems -/

/-! ### Paths of linked nodes -/

theorem linked_iff (s : State α) : ∀ l : List Nat, linked s l = true ↔ List.Chain' (Link s) l
  | [] => by simp [linked]
  | [_] => by simp [linked]
  | x :: y :: l => by
    rw [List.chain'_cons, ← linked_iff s (y :: l)]
    simp [linked, Link]

theorem isList_iff {s : State α} {this : Nat} {nvs : List (Nat × α)} :
    IsList s this nvs ↔
      List.Chain' (Link s) (s.head this :: (nvs.map Prod.fst ++ [s.head this])) ∧
      (s.head this :: nvs.map Prod.fst).Nodup ∧
      s._size this = nvs.length ∧
      (∀ p ∈ nvs, s.data p.1 = some p.2) ∧
      s.data (s.head this) = none ∧
      (∀ a ∈ s.head this :: nvs.map Prod.fst, s.live a = true ∧ a ≠ 0) := by
  unfold IsList; rw [linked_iff]

theorem path_frame {s t : State α} {l : List Nat} (h : List.Chain' (Link s) l)
    (hn : ∀ x ∈ l.dropLast, t.next x = s.next x)
    (hp : ∀ y ∈ l.tail, t.prev y = s.prev y) : List.Chain' (Link t) l := by
  induction l with
  | nil => exact List.chain'_nil
  | cons x l ih =>
    cases l with
    | nil => exact List.chain'_singleton x
    | cons y l =>
      rw [List.chain'_cons] at h ⊢
      refine ⟨?_, ih h.2 ?_ ?_⟩
      · have h1 := hn x (by simp [List.dropLast])
        have h2 := hp y (by simp)
        unfold Link at h ⊢
        rw [h1, h2]; exact h.1
      · intro z hz
        exact hn z (by simp [List.dropLast]; right; exact hz)
      · intro z hz
        exact hp z (by simp at hz ⊢; right; exact hz)

theorem insertNode_next (this : Nat) (s : State α) {pp pos cur : Nat}
    (hpp : s.prev pos = pp) (hcq : pos ≠ cur) (x : Nat) :
    (insertNode this pos cur s).next x =
      if x = pp then cur else if x = cur then pos else s.next x := by
  simp only [insertNode, setNext, setPrev, setSize, if_neg hcq, hpp]

theorem insertNode_prev (this : Nat) (s : State α) {pp pos : Nat} (cur : Nat)
    (hpp : s.prev pos = pp) (x : Nat) :
    (insertNode this pos cur s).prev x =
      if x = pos then cur else if x = cur then pp else s.prev x := by
  simp only [insertNode, setNext, setPrev, setSize, hpp]

theorem path_insert {s : State α} (this : Nat) {X Y : List Nat} {pp pos cur : Nat}
    (h : List.Chain' (Link s) (X ++ pp :: pos :: Y))
    (h1 : pp ∉ X) (h2 : pos ∉ Y) (h3 : pos ∉ (X ++ [pp]).tail)
    (h4 : pp ∉ (pos :: Y).dropLast)
    (hcX : cur ∉ X) (hcY : cur ∉ Y) (hcp : cur ≠ pp) (hcq : cur ≠ pos) :
    List.Chain' (Link (insertNode this pos cur s)) (X ++ pp :: cur :: pos :: Y) := by
  rw [List.chain'_split, List.chain'_cons] at h
  obtain ⟨hX, hlink, hY⟩ := h
  have hpp : s.prev pos = pp := hlink.2
  have hn := insertNode_next this s hpp (Ne.symm hcq)
  have hp := insertNode_prev this s cur hpp
  rw [List.chain'_split, List.chain'_cons, List.chain'_cons]
  refine ⟨path_frame hX ?_ ?_, ?_, ?_, path_frame hY ?_ ?_⟩
  · intro x hx
    rw [List.dropLast_concat] at hx
    have e1 : x ≠ pp := by rintro rfl; exact h1 hx
    have e2 : x ≠ cur := by rintro rfl; exact hcX hx
    rw [hn, if_neg e1, if_neg e2]
  · intro y hy
    have hyX : y ∈ X ∨ y = pp := by
      have hmt := List.mem_of_mem_tail hy
      simpa using hmt
    have e1 : y ≠ pos := by rintro rfl; exact h3 hy
    have e2 : y ≠ cur := by
      rintro rfl; exact hyX.elim hcX hcp
    rw [hp, if_neg e1, if_neg e2]
  · constructor
    · rw [hn, if_pos rfl]
    · rw [hp, if_neg hcq, if_pos rfl]
  · constructor
    · rw [hn, if_neg hcp, if_pos rfl]
    · rw [hp, if_pos rfl]
  · intro x hx
    have hxY : x = pos ∨ x ∈ Y := by
      have hmd := List.mem_of_mem_dropLast hx
      simpa using hmd
    have e1 : x ≠ pp := by rintro rfl; exact h4 hx
    have e2 : x ≠ cur := by
      rintro rfl; exact hxY.elim hcq hcY
    rw [hn, if_neg e1, if_neg e2]
  · intro y hy
    have hy2 : y ∈ Y := by simpa using hy
    have e1 : y ≠ pos := by rintro rfl; exact h2 hy2
    have e2 : y ≠ cur := by rintro rfl; exact hcY hy2
    rw [hp, if_neg e1, if_neg e2]

theorem eraseNode_next (this : Nat) (s : State α) (x y : Nat) :
    (eraseNode this x s).next y = if y = s.prev x then s.next x else s.next y := by
  simp only [eraseNode, setNext, setPrev, setSize]

theorem eraseNode_prev (this : Nat) (s : State α) (x y : Nat) :
    (eraseNode this x s).prev y = if y = s.next x then s.prev x else s.prev y := by
  simp only [eraseNode, setNext, setPrev, setSize, ite_self]

theorem path_erase {s : State α} (this : Nat) {X Y : List Nat} {pp x nx : Nat}
    (h : List.Chain' (Link s) (X ++ pp :: x :: nx :: Y))
    (h1 : pp ∉ X) (h2 : nx ∉ Y) (h3 : nx ∉ (X ++ [pp]).tail)
    (h4 : pp ∉ (nx :: Y).dropLast) :
    List.Chain' (Link (eraseNode this x s)) (X ++ pp :: nx :: Y) := by
  rw [List.chain'_split, List.chain'_cons, List.chain'_cons] at h
  obtain ⟨hX, hl1, hl2, hY⟩ := h
  have hpp : s.prev x = pp := hl1.2
  have hnx : s.next x = nx := hl2.1
  have hn := eraseNode_next this s x
  have hp := eraseNode_prev this s x
  rw [hpp, hnx] at hn hp
  rw [List.chain'_split, List.chain'_cons]
  refine ⟨path_frame hX ?_ ?_, ?_, path_frame hY ?_ ?_⟩
  · intro y hy
    rw [List.dropLast_concat] at hy
    have e1 : y ≠ pp := by rintro rfl; exact h1 hy
    rw [hn, if_neg e1]
  · intro y hy
    have e1 : y ≠ nx := by rintro rfl; exact h3 hy
    rw [hp, if_neg e1]
  · constructor
    · rw [hn, if_pos rfl]
    · rw [hp, if_pos rfl]
  · intro y hy
    have e1 : y ≠ pp := by rintro rfl; exact h4 hy
    rw [hn, if_neg e1]
  · intro y hy
    have hy2 : y ∈ Y := by simpa using hy
    have e1 : y ≠ nx := by rintro rfl; exact h2 hy2
    rw [hp, if_neg e1]

/-- A ring `h :: (l1 ++ l2)` cut between `l1` and `l2`: the node before the cut, the node
after it, and the separation facts the splice lemmas need. -/
theorem ring_split {h : Nat} {l1 l2 : List Nat} (hnd : (h :: (l1 ++ l2)).Nodup) :
    ∃ X pp pos Y, h :: l1 = X ++ [pp] ∧ l2 ++ [h] = pos :: Y ∧ pp ∉ X ∧ pos ∉ Y ∧
      pos ∉ (X ++ [pp]).tail ∧ pp ∉ (pos :: Y).dropLast := by
  have hne1 : h :: l1 ≠ [] := by simp
  have hne2 : l2 ++ [h] ≠ [] := by simp
  have e1 := (List.dropLast_append_getLast hne1).symm
  obtain ⟨pos, Y, e2⟩ := List.exists_cons_of_ne_nil hne2
  refine ⟨(h :: l1).dropLast, (h :: l1).getLast hne1, pos, Y, e1, e2, ?_, ?_, ?_, ?_⟩
  · have hn1 : (h :: l1).Nodup := by
      have hn0 := hnd
      rw [← List.cons_append] at hn0
      exact (List.nodup_append.1 hn0).1
    rw [e1] at hn1
    intro hmem
    exact (List.nodup_append.1 hn1).2.2 hmem (List.mem_singleton_self _)
  · have hn2 : (l2 ++ [h]).Nodup := by
      have h2 : (l2 ++ [h]).Perm (h :: l2) := List.perm_append_singleton h l2
      rw [h2.nodup_iff]
      have hn0 := hnd
      simp only [List.nodup_cons, List.mem_append, List.nodup_append, not_or] at hn0 ⊢
      exact ⟨hn0.1.2, hn0.2.2.1⟩
    rw [e2] at hn2
    exact (List.nodup_cons.1 hn2).1
  · rw [← e1]
    simp only [List.tail_cons]
    have hp : pos ∈ l2 ++ [h] := by rw [e2]; simp
    simp only [List.nodup_cons, List.mem_append, List.nodup_append, not_or] at hnd
    intro hm
    rcases List.mem_append.1 hp with hp | hp
    · exact hnd.2.2.2 hm hp
    · simp at hp; subst hp; exact hnd.1.1 hm
  · rw [← e2, List.dropLast_concat]
    have hp : (h :: l1).getLast hne1 ∈ h :: l1 := List.getLast_mem hne1
    simp only [List.nodup_cons, List.mem_append, List.nodup_append, not_or] at hnd
    intro hm
    rcases List.mem_cons.1 hp with hp | hp
    · rw [hp] at hm; exact hnd.1.2 hm
    · exact hnd.2.2.2 hp hm

theorem ring_insert (this : Nat) {s : State α} {h pos cur : Nat} {l1 l2 : List Nat}
    (hpath : List.Chain' (Link s) (h :: (l1 ++ l2 ++ [h])))
    (hnd : (h :: (l1 ++ l2)).Nodup)
    (hpos : (l2 ++ [h]).head? = some pos) (hcur : cur ∉ h :: (l1 ++ l2)) :
    List.Chain' (Link (insertNode this pos cur s)) (h :: (l1 ++ cur :: l2 ++ [h])) := by
  obtain ⟨X, pp, q, Y, e1, e2, h1, h2, h3, h4⟩ := ring_split hnd
  have hq : q = pos := by
    rw [e2] at hpos; simpa using hpos
  subst hq
  have hcur1 : cur ∉ X ++ [pp] := by
    rw [← e1]; intro hm; apply hcur
    rcases List.mem_cons.1 hm with hm | hm
    · exact hm ▸ List.mem_cons_self _ _
    · exact List.mem_cons_of_mem _ (List.mem_append_left _ hm)
  have hcur2 : cur ∉ q :: Y := by
    rw [← e2]; intro hm; apply hcur
    rcases List.mem_append.1 hm with hm | hm
    · exact List.mem_cons_of_mem _ (List.mem_append_right _ hm)
    · simp at hm; exact hm ▸ List.mem_cons_self _ _
  have ep : h :: (l1 ++ l2 ++ [h]) = X ++ pp :: q :: Y := by
    rw [List.append_assoc, ← List.cons_append, e1, e2]; simp
  have eq : h :: (l1 ++ cur :: l2 ++ [h]) = X ++ pp :: cur :: q :: Y := by
    have ea : l1 ++ cur :: l2 ++ [h] = l1 ++ cur :: (l2 ++ [h]) := by simp
    rw [ea, ← List.cons_append, e1, e2]; simp
  rw [ep] at hpath
  rw [eq]
  simp only [List.mem_append, List.mem_singleton, List.mem_cons, not_or] at hcur1 hcur2
  exact path_insert this hpath h1 h2 h3 h4 hcur1.1 hcur2.2 hcur1.2.1 hcur2.1

theorem ring_erase (this : Nat) {s : State α} {h x : Nat} {l1 l2 : List Nat}
    (hpath : List.Chain' (Link s) (h :: (l1 ++ x :: l2 ++ [h])))
    (hnd : (h :: (l1 ++ x :: l2)).Nodup) :
    List.Chain' (Link (eraseNode this x s)) (h :: (l1 ++ l2 ++ [h])) := by
  have hnd2 : (h :: (l1 ++ l2)).Nodup := by
    refine hnd.sublist ?_
    exact (List.Sublist.refl _).cons₂ _ |>.trans
      (List.Sublist.cons₂ _ ((List.Sublist.refl l1).append (List.sublist_cons_self x l2)))
  obtain ⟨X, pp, nx, Y, e1, e2, h1, h2, h3, h4⟩ := ring_split hnd2
  have ep : h :: (l1 ++ x :: l2 ++ [h]) = X ++ pp :: x :: nx :: Y := by
    have ea : l1 ++ x :: l2 ++ [h] = l1 ++ x :: (l2 ++ [h]) := by simp
    rw [ea, ← List.cons_append, e1, e2]; simp
  have eq : h :: (l1 ++ l2 ++ [h]) = X ++ pp :: nx :: Y := by
    rw [List.append_assoc, ← List.cons_append, e1, e2]; simp
  rw [ep] at hpath
  rw [eq]
  exact path_erase this hpath h1 h2 h3 h4

/-! ### The invariant under the node-level mutators -/

@[simp] theorem insertNode_head (this pos cur : Nat) (s : State α) :
    (insertNode this pos cur s).head = s.head := rfl

@[simp] theorem insertNode_data (this pos cur : Nat) (s : State α) :
    (insertNode this pos cur s).data = s.data := rfl

@[simp] theorem insertNode_live (this pos cur : Nat) (s : State α) :
    (insertNode this pos cur s).live = s.live := rfl

theorem insertNode_size (this pos cur : Nat) (s : State α) (l : Nat) :
    (insertNode this pos cur s)._size l = if l = this then s._size this + 1 else s._size l := by
  simp only [insertNode, setNext, setPrev, setSize]

@[simp] theorem eraseNode_head (this x : Nat) (s : State α) :
    (eraseNode this x s).head = s.head := rfl

@[simp] theorem eraseNode_data (this x : Nat) (s : State α) :
    (eraseNode this x s).data = s.data := rfl

@[simp] theorem eraseNode_live (this x : Nat) (s : State α) :
    (eraseNode this x s).live = s.live := rfl

theorem eraseNode_size (this x : Nat) (s : State α) (l : Nat) :
    (eraseNode this x s)._size l = if l = this then decr (s._size this) else s._size l := by
  simp only [eraseNode, setNext, setPrev, setSize]

theorem IsList.frame {s t : State α} {this : Nat} {nvs : List (Nat × α)}
    (hl : IsList s this nvs)
    (hh : t.head this = s.head this) (hs : t._size this = s._size this)
    (hf : ∀ a ∈ s.head this :: nvs.map Prod.fst,
      t.next a = s.next a ∧ t.prev a = s.prev a ∧ t.data a = s.data a ∧ t.live a = s.live a) :
    IsList t this nvs := by
  obtain ⟨hpath, hnd, hsz, hdata, hsent, hlive⟩ := isList_iff.1 hl
  refine isList_iff.2 ⟨?_, ?_, ?_, ?_, ?_, ?_⟩
  · rw [hh]
    refine path_frame hpath ?_ ?_
    · intro x hx
      have hx1 := List.mem_of_mem_dropLast hx
      have hx2 : x ∈ s.head this :: List.map Prod.fst nvs := by
        simp only [List.mem_cons, List.mem_append, List.mem_singleton] at hx1 ⊢
        tauto
      exact (hf x hx2).1
    · intro x hx
      have hx2 : x ∈ s.head this :: List.map Prod.fst nvs := by
        simp only [List.tail_cons, List.mem_cons, List.mem_append, List.mem_singleton,
          List.not_mem_nil, or_false] at hx ⊢
        tauto
      exact (hf x hx2).2.1
  · rw [hh]; exact hnd
  · rw [hs]; exact hsz
  · intro p hp
    have hx2 : p.1 ∈ s.head this :: List.map Prod.fst nvs :=
      List.mem_cons_of_mem _ (List.mem_map_of_mem _ hp)
    rw [(hf _ hx2).2.2.1]; exact hdata p hp
  · rw [hh, (hf _ (List.mem_cons_self _ _)).2.2.1]; exact hsent
  · rw [hh]; intro a ha
    rw [(hf a ha).2.2.2]; exact hlive a ha

theorem IsList.insertNode {s : State α} {this pos cur : Nat} {v : α} {l1 l2 : List (Nat × α)}
    (hl : IsList s this (l1 ++ l2))
    (hpos : (l2.map Prod.fst ++ [s.head this]).head? = some pos)
    (hcur : cur ∉ s.head this :: (l1 ++ l2).map Prod.fst)
    (hd : s.data cur = some v) (hlive : s.live cur = true) (h0 : cur ≠ 0) :
    IsList (insertNode this pos cur s) this (l1 ++ (cur, v) :: l2) := by
  obtain ⟨hpath, hnd, hsz, hdata, hsent, hlv⟩ := isList_iff.1 hl
  simp only [List.map_append] at hpath hnd hcur
  refine isList_iff.2 ⟨?_, ?_, ?_, ?_, ?_, ?_⟩
  · simp only [insertNode_head, List.map_append, List.map_cons]
    exact ring_insert this hpath hnd hpos hcur
  · simp only [insertNode_head, List.map_append, List.map_cons]
    have hpm : (s.head this :: (List.map Prod.fst l1 ++ cur :: List.map Prod.fst l2)).Perm
        (cur :: s.head this :: (List.map Prod.fst l1 ++ List.map Prod.fst l2)) := by
      refine (List.Perm.cons _ List.perm_middle).trans (List.Perm.swap _ _ _)
    rw [hpm.nodup_iff]
    exact List.nodup_cons.2 ⟨hcur, hnd⟩
  · rw [insertNode_size, if_pos rfl, hsz]; simp only [List.length_append, List.length_cons]
    omega
  · intro p hp
    simp only [insertNode_data]
    simp only [List.mem_append, List.mem_cons] at hp
    rcases hp with hp | hp | hp
    · exact hdata p (List.mem_append_left _ hp)
    · subst hp; exact hd
    · exact hdata p (List.mem_append_right _ hp)
  · simpa using hsent
  · intro a ha
    simp only [insertNode_head, insertNode_live, List.map_append, List.map_cons,
      List.mem_cons, List.mem_append] at ha ⊢
    rcases ha with ha | ha | ha | ha
    · exact hlv a (by simp [ha])
    · exact hlv a (by simp [ha])
    · subst ha; exact ⟨hlive, h0⟩
    · exact hlv a (by simp [ha])

theorem IsList.eraseNode {s : State α} {this x : Nat} {v : α} {l1 l2 : List (Nat × α)}
    (hl : IsList s this (l1 ++ (x, v) :: l2)) :
    IsList (eraseNode this x s) this (l1 ++ l2) := by
  obtain ⟨hpath, hnd, hsz, hdata, hsent, hlv⟩ := isList_iff.1 hl
  simp only [List.map_append, List.map_cons] at hpath hnd
  refine isList_iff.2 ⟨?_, ?_, ?_, ?_, ?_, ?_⟩
  · simp only [eraseNode_head, List.map_append]
    exact ring_erase this hpath hnd
  · simp only [eraseNode_head, List.map_append]
    refine hnd.sublist ?_
    exact List.Sublist.cons₂ _ ((List.Sublist.refl _).append (List.sublist_cons_self x _))
  · rw [eraseNode_size, if_pos rfl, hsz]; simp [decr]
  · intro p hp
    simp only [eraseNode_data]
    rcases List.mem_append.1 hp with hp | hp
    · exact hdata p (List.mem_append_left _ hp)
    · exact hdata p (List.mem_append_right _ (List.mem_cons_of_mem _ hp))
  · simpa using hsent
  · intro a ha
    simp only [eraseNode_head, eraseNode_live, List.map_append,
      List.mem_cons, List.mem_append] at ha ⊢
    rcases ha with ha | ha | ha
    · exact hlv a (by simp [ha])
    · exact hlv a (by simp [ha])
    · exact hlv a (by simp [ha])

/-! ### What a traversal observes of a list satisfying the invariant -/

theorem walk_chain (f : Nat → Nat) :
    ∀ (l : List Nat) (p : Nat), List.Chain (fun x y => f x = y) p l →
      walk f l.length (f p) = l := by
  intro l
  induction l with
  | nil => intro p _; rfl
  | cons a l ih =>
    intro p hc
    rw [List.chain_cons] at hc
    simp only [List.length_cons, walk]
    rw [hc.1, ih a hc.2]

theorem IsList.walk_next {s : State α} {this : Nat} {nvs : List (Nat × α)}
    (hl : IsList s this nvs) :
    walk s.next (nvs.length + 1) (s.next (s.head this)) =
      nvs.map Prod.fst ++ [s.head this] := by
  have hc : List.Chain (fun x y => s.next x = y) (s.head this)
      (nvs.map Prod.fst ++ [s.head this]) :=
    List.Chain.imp (fun _ _ h => h.1) (isList_iff.1 hl).1
  have hw := walk_chain s.next _ _ hc
  simpa using hw

theorem IsList.walk_prev {s : State α} {this : Nat} {nvs : List (Nat × α)}
    (hl : IsList s this nvs) :
    walk s.prev (nvs.length + 1) (s.prev (s.head this)) =
      (nvs.map Prod.fst).reverse ++ [s.head this] := by
  have h1 : List.Chain' (Link s)
      (List.reverse (s.head this :: ((nvs.map Prod.fst).reverse ++ [s.head this]))) := by
    have e : List.reverse (s.head this :: ((nvs.map Prod.fst).reverse ++ [s.head this])) =
        s.head this :: (nvs.map Prod.fst ++ [s.head this]) := by simp
    rw [e]; exact (isList_iff.1 hl).1
  rw [List.chain'_reverse] at h1
  have hc : List.Chain (fun x y => s.prev x = y) (s.head this)
      ((nvs.map Prod.fst).reverse ++ [s.head this]) :=
    List.Chain.imp (fun _ _ h => h.2) h1
  have hw := walk_chain s.prev _ _ hc
  simpa using hw

theorem walk_succ_eq (f : Nat → Nat) :
    ∀ (n a : Nat) (l : List Nat) (b : Nat), l.length = n →
      walk f (n + 1) a = l ++ [b] → walk f n a = l := by
  intro n
  induction n with
  | zero =>
    intro a l b hlen _
    rw [List.length_eq_zero] at hlen
    subst hlen; rfl
  | succ n ih =>
    intro a l b hlen hw
    cases l with
    | nil => simp at hlen
    | cons c l =>
      simp only [walk, List.cons_append, List.cons.injEq] at hw ⊢
      simp only [List.length_cons, Nat.add_right_cancel_iff] at hlen
      exact ⟨hw.1, ih (f a) l b hlen (by simpa [walk] using hw.2)⟩

theorem IsList.nodes_eq {s : State α} {this : Nat} {nvs : List (Nat × α)}
    (hl : IsList s this nvs) : nodes this s = nvs.map Prod.fst := by
  unfold nodes
  rw [hl.2.2.1]
  exact walk_succ_eq s.next _ _ _ (s.head this) (by simp) hl.walk_next

theorem IsList.nodesBack_eq {s : State α} {this : Nat} {nvs : List (Nat × α)}
    (hl : IsList s this nvs) : nodesBack this s = (nvs.map Prod.fst).reverse := by
  unfold nodesBack
  rw [hl.2.2.1]
  exact walk_succ_eq s.prev _ _ _ (s.head this) (by simp) hl.walk_prev

theorem IsList.values_eq {s : State α} {this : Nat} {nvs : List (Nat × α)}
    (hl : IsList s this nvs) : values this s = (nvs.map Prod.snd).map some := by
  unfold values
  rw [hl.nodes_eq, List.map_map, List.map_map]
  apply List.map_congr_left
  intro p hp
  exact hl.2.2.2.1 p hp

/-! ### The public mutators on a list satisfying the invariant -/

theorem IsList.not_mem_of_fresh {s : State α} {this a : Nat} {nvs : List (Nat × α)}
    (hl : IsList s this nvs) (ha : Fresh s a) : a ∉ s.head this :: nvs.map Prod.fst := by
  intro hm
  have h1 := (hl.2.2.2.2.2 a hm).1
  rw [ha.2] at h1
  exact Bool.noConfusion h1

theorem IsList.newNode {s : State α} {this a : Nat} {nvs : List (Nat × α)} (v : α)
    (hl : IsList s this nvs) (ha : Fresh s a) : IsList (newNode s a v) this nvs := by
  have hn := hl.not_mem_of_fresh ha
  refine hl.frame rfl rfl ?_
  intro x hx
  have hne : x ≠ a := by rintro rfl; exact hn hx
  simp only [list.newNode, if_neg hne, and_self]

theorem IsList.deleteNode {s : State α} {this x : Nat} {nvs : List (Nat × α)}
    (hl : IsList s this nvs) (hx : x ∉ s.head this :: nvs.map Prod.fst) :
    IsList (deleteNode s x) this nvs := by
  refine hl.frame rfl rfl ?_
  intro y hy
  have hne : y ≠ x := by rintro rfl; exact hx hy
  simp only [list.deleteNode, if_neg hne, and_self]

theorem index_split {β : Type} (l : List β) (t : β) (i : Nat) (x : β)
    (hp : (l ++ [t])[i]? = some x) :
    i ≤ l.length ∧ (l.drop i ++ [t]).head? = some x := by
  have hi : i < (l ++ [t]).length := (List.getElem?_eq_some.1 hp).1
  have hi2 : i ≤ l.length := by
    simp only [List.length_append, List.length_singleton] at hi; omega
  refine ⟨hi2, ?_⟩
  rw [← List.drop_append_of_le_length hi2, List.head?_drop]
  exact hp

theorem insert_isList {s : State α} {this : Nat} {nvs : List (Nat × α)} (i : Nat)
    {pos : iterator} (v : α) {a : Nat}
    (hl : IsList s this nvs) (hc : pos.container = this)
    (hp : (nvs.map Prod.fst ++ [s.head this])[i]? = some pos.current)
    (ha : Fresh s a) :
    insert this pos v a s =
      (.ok ⟨a, this⟩, insertNode this pos.current a (newNode s a v)) ∧
    IsList (insertNode this pos.current a (newNode s a v)) this
      (nvs.take i ++ (a, v) :: nvs.drop i) := by
  constructor
  · simp only [insert, hc, ne_eq, not_true_eq_false, if_false]
  · have hl2 := hl.newNode v ha
    have hsp := index_split _ _ _ _ hp
    rw [← List.take_append_drop i nvs] at hl2
    refine hl2.insertNode ?_ ?_ ?_ ?_ ha.1
    · rw [List.map_drop]; exact hsp.2
    · rw [List.take_append_drop]; exact hl.not_mem_of_fresh ha
    · simp [list.newNode]
    · simp [list.newNode]

theorem erase_isList {s : State α} {this : Nat} {nvs : List (Nat × α)} (i : Nat)
    {pos : iterator}
    (hl : IsList s this nvs) (hc : pos.container = this)
    (hp : (nvs.map Prod.fst)[i]? = some pos.current) :
    erase this pos s =
      (.ok ⟨s.next pos.current, this⟩, deleteNode (eraseNode this pos.current s) pos.current) ∧
    IsList (deleteNode (eraseNode this pos.current s) pos.current) this (nvs.eraseIdx i) ∧
    (nvs.map Prod.fst ++ [s.head this])[i + 1]? = some (s.next pos.current) := by
  obtain ⟨hi, hget⟩ := List.getElem?_eq_some.1 hp
  have hi2 : i < nvs.length := by simpa using hi
  have hsplit : nvs = nvs.take i ++ (pos.current, (nvs[i]).2) :: nvs.drop (i + 1) := by
    have e : (pos.current, (nvs[i]).2) = nvs[i] := by
      rw [List.getElem_map] at hget
      rw [← hget]
    rw [e, List.getElem_cons_drop, List.take_append_drop]
  have hmem : pos.current ∈ nvs.map Prod.fst := by
    rw [← hget]; exact List.getElem_mem _
  have hne : pos.current ≠ s.head this := by
    intro e
    have hnd := hl.2.1
    rw [e] at hmem
    exact (List.nodup_cons.1 hnd).1 hmem
  have hsz : s._size this ≠ 0 := by
    rw [hl.2.2.1]; omega
  have hl2 := hl
  rw [hsplit] at hl2
  have hl3 := hl2.eraseNode
  refine ⟨?_, ?_, ?_⟩
  · simp [erase, empty, hsz, hc, hne]
  · rw [List.eraseIdx_eq_take_drop_succ]
    refine hl3.deleteNode ?_
    have hnd := hl2.2.1
    simp only [eraseNode_head, List.map_append, List.map_cons, List.nodup_cons,
      List.mem_append, List.mem_cons, List.nodup_append, not_or] at hnd ⊢
    refine ⟨hne, ?_, ?_⟩
    · intro hm
      exact hnd.2.2.2 hm (List.mem_cons_self _ _)
    · exact hnd.2.2.1.1
  · have hpath := (isList_iff.1 hl2).1
    simp only [List.map_append, List.map_cons] at hpath
    have e : s.head this :: (List.map Prod.fst (List.take i nvs) ++
        pos.current :: List.map Prod.fst (List.drop (i + 1) nvs) ++ [s.head this]) =
        (s.head this :: List.map Prod.fst (List.take i nvs)) ++
        pos.current :: (List.map Prod.fst (List.drop (i + 1) nvs) ++ [s.head this]) := by
      simp
    rw [e] at hpath
    have hc2 := hpath.right_of_append
    have hlen : i + 1 < (nvs.map Prod.fst ++ [s.head this]).length := by
      simp only [List.length_append, List.length_map, List.length_singleton]; omega
    have hsome : (nvs.map Prod.fst ++ [s.head this])[i + 1]? =
        some ((nvs.map Prod.fst ++ [s.head this])[i + 1]) := List.getElem?_eq_getElem hlen
    have hhead : (List.map Prod.fst (List.drop (i + 1) nvs) ++ [s.head this]).head? =
        some ((nvs.map Prod.fst ++ [s.head this])[i + 1]) := by
      rw [← hsome, List.map_drop, ← List.drop_append_of_le_length (by simpa using hi2),
        List.head?_drop]
    have hlk := hc2.rel_head? hhead
    rw [hsome, hlk.1]

theorem init_isList {s : State α} (this : Nat) {a : Nat} (ha : a ≠ 0) :
    IsList (init this a s) this [] := by
  refine isList_iff.2 ⟨?_, ?_, ?_, ?_, ?_, ?_⟩
  · simp [init, setHead, setNext, setPrev, setSize, newSentinel, Link]
  · simp
  · simp [init, setHead, setNext, setPrev, setSize, newSentinel]
  · simp
  · simp [init, setHead, setNext, setPrev, setSize, newSentinel]
  · simp [init, setHead, setNext, setPrev, setSize, newSentinel, ha]

theorem IsList.next_head {s : State α} {this : Nat} {nvs : List (Nat × α)}
    (hl : IsList s this nvs) :
    (nvs.map Prod.fst ++ [s.head this])[0]? = some (s.next (s.head this)) := by
  have hw := hl.walk_next
  simp only [walk] at hw
  rw [← hw]; simp

theorem IsList.prev_head {s : State α} {this : Nat} {nvs : List (Nat × α)}
    (hl : IsList s this nvs) (hne : nvs ≠ []) :
    (nvs.map Prod.fst)[nvs.length - 1]? = some (s.prev (s.head this)) := by
  have hw := hl.walk_prev
  simp only [walk] at hw
  have hpos : 0 < nvs.length := List.length_pos.2 hne
  have h1 : ((nvs.map Prod.fst).reverse ++ [s.head this])[0]? =
      some (s.prev (s.head this)) := by
    rw [← hw]; simp
  rw [List.getElem?_append_left (by simpa using hpos), List.getElem?_reverse (by simpa using hpos)] at h1
  simpa using h1

theorem IsList.observe {s : State α} {this : Nat} {nvs : List (Nat × α)}
    (hl : IsList s this nvs) :
    nodes this s = nvs.map Prod.fst ∧
    (nodes this s).Nodup ∧
    s.head this ∉ nodes this s ∧
    walk s.next (size this s + 1) (s.next (s.head this)) = nodes this s ++ [s.head this] ∧
    nodesBack this s = (nodes this s).reverse ∧
    walk s.prev (size this s + 1) (s.prev (s.head this)) =
      (nodes this s).reverse ++ [s.head this] ∧
    size this s = (nodes this s).length ∧
    (∀ a ∈ nodes this s, s.live a = true ∧ (s.data a).isSome = true) := by
  have hn := hl.nodes_eq
  have hnd := hl.2.1
  rw [hn]
  refine ⟨rfl, (List.nodup_cons.1 hnd).2, (List.nodup_cons.1 hnd).1, ?_, hl.nodesBack_eq, ?_,
    ?_, ?_⟩
  · simp only [size]; rw [hl.2.2.1]; exact hl.walk_next
  · simp only [size]; rw [hl.2.2.1]; exact hl.walk_prev
  · simp only [size]; rw [hl.2.2.1]; simp
  · intro a ha
    refine ⟨(hl.2.2.2.2.2 a (List.mem_cons_of_mem _ ha)).1, ?_⟩
    obtain ⟨p, hp, rfl⟩ := List.mem_map.1 ha
    rw [hl.2.2.2.1 p hp]; rfl

theorem okState_eq_some {β : Type} {r : Except Err β × State α} {t : State α}
    (h : okState r = some t) : (∃ b, r.1 = .ok b) ∧ r.2 = t := by
  unfold okState at h
  split at h
  · next b hb => exact ⟨⟨b, hb⟩, Option.some.inj h⟩
  · exact Option.noConfusion h

theorem erase_ok {s : State α} {this : Nat} {pos : iterator} {b : iterator}
    (h : (erase this pos s).1 = .ok b) :
    s._size this ≠ 0 ∧ pos.container = this ∧ pos.current ≠ s.head this := by
  unfold erase empty at h
  by_cases h0 : s._size this = 0
  · simp [h0] at h
  · by_cases h1 : pos.container ≠ this ∨ pos.current = s.head this
    · simp [h0, h1] at h
    · refine ⟨h0, ?_, ?_⟩
      · by_contra hc; exact h1 (Or.inl hc)
      · intro hc; exact h1 (Or.inr hc)

theorem mem_index {l : List Nat} {x : Nat} (h : x ∈ l) : ∃ i : Nat, l[i]? = some x :=
  List.getElem?_of_mem h

theorem insert_step {s t : State α} {this : Nat} {nvs : List (Nat × α)}
    {pos : iterator} {v : α} {a : Nat}
    (hl : IsList s this nvs) (hown : Owns this s pos) (hfresh : Fresh s a)
    (h : okState (insert this pos v a s) = some t) :
    ∃ nvs2 : List (Nat × α), IsList t this nvs2 := by
  obtain ⟨hc, hmem⟩ := hown
  obtain ⟨_, ht⟩ := okState_eq_some h
  rw [hl.nodes_eq] at hmem
  have hmem2 : pos.current ∈ nvs.map Prod.fst ++ [s.head this] := by
    simp only [List.mem_cons, List.mem_append, List.mem_singleton] at hmem ⊢
    tauto
  obtain ⟨i, hi⟩ := mem_index hmem2
  obtain ⟨hr, hl2⟩ := insert_isList i v hl hc hi hfresh
  rw [hr] at ht
  simp only at ht
  subst ht
  exact ⟨_, hl2⟩

theorem erase_step {s t : State α} {this : Nat} {nvs : List (Nat × α)} {pos : iterator}
    (hl : IsList s this nvs) (hown : Owns this s pos)
    (h : okState (erase this pos s) = some t) :
    ∃ nvs2 : List (Nat × α), IsList t this nvs2 := by
  obtain ⟨hc, hmem⟩ := hown
  obtain ⟨⟨b, hb⟩, ht⟩ := okState_eq_some h
  rw [hl.nodes_eq] at hmem
  have hne := (erase_ok hb).2.2
  have hmem2 : pos.current ∈ nvs.map Prod.fst := by
    rcases List.mem_cons.1 hmem with e | e
    · exact absurd e hne
    · exact e
  obtain ⟨i, hi⟩ := mem_index hmem2
  obtain ⟨hr, hl2, _⟩ := erase_isList i hl hc hi
  rw [hr] at ht
  simp only at ht
  subst ht
  exact ⟨_, hl2⟩

theorem IsList.owns_end {s : State α} {this : Nat} {nvs : List (Nat × α)}
    (_hl : IsList s this nvs) : Owns this s (end_ this s) :=
  ⟨rfl, List.mem_cons_self _ _⟩

theorem IsList.owns_begin {s : State α} {this : Nat} {nvs : List (Nat × α)}
    (hl : IsList s this nvs) : Owns this s (begin this s) := by
  refine ⟨rfl, ?_⟩
  rw [hl.nodes_eq]
  have h0 := hl.next_head
  have hm := List.getElem?_mem h0
  simp only [begin, List.mem_cons, List.mem_append, List.mem_singleton] at hm ⊢
  tauto

theorem IsList.owns_tail {s : State α} {this : Nat} {nvs : List (Nat × α)}
    (hl : IsList s this nvs) : Owns this s ⟨s.prev (s.head this), this⟩ := by
  refine ⟨rfl, ?_⟩
  rw [hl.nodes_eq]
  by_cases hne : nvs = []
  · subst hne
    have hp := (isList_iff.1 hl).1
    simp only [List.map_nil, List.nil_append, List.chain'_cons, Link] at hp
    simp [hp.1.2]
  · have h0 := hl.prev_head hne
    exact List.mem_cons_of_mem _ (List.getElem?_mem h0)

theorem okState_map {β γ : Type} (r : Except Err β × State α) (f : β → γ) :
    okState (r.1.map f, r.2) = okState r := by
  unfold okState
  cases r.1 <;> rfl

theorem applyOp_isList {s t : State α} {this : Nat} {nvs : List (Nat × α)} (op : Op α)
    (hl : IsList s this nvs) (h : applyOp this s op = some t) :
    ∃ nvs2 : List (Nat × α), IsList t this nvs2 := by
  cases op with
  | insert pos v a =>
    simp only [applyOp] at h
    split at h
    · next hc => exact insert_step hl hc.1 hc.2 h
    · exact Option.noConfusion h
  | erase pos =>
    simp only [applyOp] at h
    split at h
    · next hc => exact erase_step hl hc h
    · exact Option.noConfusion h
  | push_back v a =>
    simp only [applyOp] at h
    split at h
    · next hc =>
      simp only [push_back, okState_map] at h
      exact insert_step hl hl.owns_end hc h
    · exact Option.noConfusion h
  | push_front v a =>
    simp only [applyOp] at h
    split at h
    · next hc =>
      simp only [push_front, okState_map] at h
      exact insert_step hl hl.owns_begin hc h
    · exact Option.noConfusion h
  | pop_back =>
    simp only [applyOp, pop_back] at h
    split at h
    · exact Option.noConfusion h
    · simp only [okState_map] at h
      exact erase_step hl hl.owns_tail h
  | pop_front =>
    simp only [applyOp, pop_front] at h
    split at h
    · exact Option.noConfusion h
    · simp only [okState_map] at h
      exact erase_step hl hl.owns_begin h

theorem run_isList {this : Nat} (ops : List (Op α)) :
    ∀ {s t : State α} {nvs : List (Nat × α)}, IsList s this nvs → run this ops s = some t →
      ∃ nvs2 : List (Nat × α), IsList t this nvs2 := by
  induction ops with
  | nil =>
    intro s t nvs hl h
    simp only [run, Option.some.injEq] at h
    subst h
    exact ⟨nvs, hl⟩
  | cons op ops ih =>
    intro s t nvs hl h
    simp only [run] at h
    cases hop : applyOp this s op with
    | none => rw [hop] at h; exact Option.noConfusion h
    | some u =>
      rw [hop] at h
      obtain ⟨nvs2, hl2⟩ := applyOp_isList op hl hop
      exact ih hl2 h

/-- C1: starting from a freshly constructed list, after every finite sequence of
successful `insert` / `erase` / `push_back` / `push_front` / `pop_back` / `pop_front` calls
made with handles to nodes currently in the list, the ring invariant holds: `size()` steps
along `next` from the sentinel visit distinct allocated element nodes, none of them the
sentinel, and one more step returns to the sentinel; the steps along `prev` visit the same
nodes in the opposite order and return to the sentinel; `size()` is the number of these
element nodes. -/
theorem ring_invariant (this : Nat) (s0 : State α) (h : Nat) (ops : List (Op α))
    (s : State α) (hh : Fresh s0 h) (hrun : run this ops (init this h s0) = some s) :
    RingInv s this ∧
    (nodes this s).Nodup ∧
    s.head this ∉ nodes this s ∧
    walk s.next (size this s + 1) (s.next (s.head this)) = nodes this s ++ [s.head this] ∧
    nodesBack this s = (nodes this s).reverse ∧
    walk s.prev (size this s + 1) (s.prev (s.head this)) =
      (nodes this s).reverse ++ [s.head this] ∧
    size this s = (nodes this s).length ∧
    (∀ a ∈ nodes this s, s.live a = true ∧ (s.data a).isSome = true) := by
  obtain ⟨nvs, hl⟩ := run_isList ops (init_isList this hh.1) hrun
  exact ⟨⟨nvs, hl⟩, hl.observe.2⟩

/-- C1 at a concrete input: a sequence using all six mutators on a fresh list. -/
theorem ring_invariant_witness :
    Fresh (State.blank : State Nat) 10 ∧
    (∃ s, run 1 [Op.push_back 3 11, Op.push_front 4 12, Op.insert ⟨11, 1⟩ 5 13,
        Op.pop_front, Op.erase ⟨13, 1⟩, Op.push_back 6 14, Op.pop_back]
        (init 1 10 State.blank) = some s ∧ RingInv s 1 ∧ values 1 s = [some 3]) :=
  ⟨by decide, _, rfl,
    (ring_invariant 1 State.blank 10 [Op.push_back 3 11, Op.push_front 4 12,
      Op.insert ⟨11, 1⟩ 5 13, Op.pop_front, Op.erase ⟨13, 1⟩, Op.push_back 6 14, Op.pop_back]
      _ (by decide) rfl).1, by decide⟩

/-- C2: on a list satisfying the invariant with element nodes `nvs`, `insert(pos, v)` with
a handle of this list referencing the node at index `i` (`i = size()` being `end()`)
succeeds; the element sequence becomes the first `i` elements, then `v`, then the rest;
`size()` grows by exactly one; the returned handle references the new node, whose successor
is the node `pos` references. -/
theorem insert_spec (s : State α) (this : Nat) (nvs : List (Nat × α)) (i : Nat)
    (pos : iterator) (v : α) (a : Nat)
    (hl : IsList s this nvs) (hc : pos.container = this)
    (hp : (nvs.map Prod.fst ++ [s.head this])[i]? = some pos.current)
    (ha : Fresh s a) :
    (insert this pos v a s).1 = .ok ⟨a, this⟩ ∧
    IsList (insert this pos v a s).2 this (nvs.take i ++ (a, v) :: nvs.drop i) ∧
    values this s = (nvs.map Prod.snd).map some ∧
    values this (insert this pos v a s).2 =
      ((nvs.map Prod.snd).take i ++ v :: (nvs.map Prod.snd).drop i).map some ∧
    size this (insert this pos v a s).2 = size this s + 1 ∧
    (insert this pos v a s).2.next a = pos.current := by
  obtain ⟨hr, hl2⟩ := insert_isList i v hl hc hp ha
  rw [hr]
  refine ⟨rfl, hl2, hl.values_eq, ?_, ?_, ?_⟩
  · rw [hl2.values_eq]
    simp only [List.map_append, List.map_cons, List.map_take, List.map_drop]
  · simp only [size]
    rw [hl2.2.2.1, hl.2.2.1]
    have hi := (index_split _ _ _ _ hp).1
    simp only [List.length_map] at hi
    simp only [List.length_append, List.length_cons, List.length_take, List.length_drop]
    omega
  · have hpath := (isList_iff.1 hl2).1
    simp only [List.map_append, List.map_cons] at hpath
    have e : (insertNode this pos.current a (newNode s a v)).head this ::
        (List.map Prod.fst (List.take i nvs) ++ a :: List.map Prod.fst (List.drop i nvs) ++
          [(insertNode this pos.current a (newNode s a v)).head this]) =
        ((insertNode this pos.current a (newNode s a v)).head this ::
          List.map Prod.fst (List.take i nvs)) ++
        a :: (List.map Prod.fst (List.drop i nvs) ++ [s.head this]) := by
      simp [list.newNode]
    rw [e] at hpath
    have hc2 := hpath.right_of_append
    have hh := (index_split _ _ _ _ hp).2
    rw [← List.map_drop] at hh
    exact (hc2.rel_head? hh).1

/-- C2 at a concrete input: inserting `5` before the only element of `[7]` gives `[5, 7]`. -/
theorem insert_spec_witness :
    IsList ex7 1 [(11, 7)] ∧
    (insert 1 ⟨11, 1⟩ 5 12 ex7).1 = .ok ⟨12, 1⟩ ∧
    values 1 (insert 1 ⟨11, 1⟩ 5 12 ex7).2 = [some 5, some 7] ∧
    size 1 (insert 1 ⟨11, 1⟩ 5 12 ex7).2 = 2 :=
  have h := insert_spec ex7 1 [(11, 7)] 0 ⟨11, 1⟩ 5 12 (by decide) rfl (by decide) (by decide)
  ⟨by decide, h.1, h.2.2.2.1, h.2.2.2.2.1⟩

/-- C3: on a list satisfying the invariant with element nodes `nvs`, `erase(pos)` with a
handle of this list referencing the element node at index `i < size()` succeeds; the
element sequence loses exactly the element at index `i`; `size()` shrinks by exactly one;
the returned handle references the node that followed the erased one, which is `end()`
when the erased node was the tail. -/
theorem erase_spec (s : State α) (this : Nat) (nvs : List (Nat × α)) (i : Nat)
    (pos : iterator)
    (hl : IsList s this nvs) (hc : pos.container = this)
    (hp : (nvs.map Prod.fst)[i]? = some pos.current) :
    (erase this pos s).1 = .ok ⟨s.next pos.current, this⟩ ∧
    IsList (erase this pos s).2 this (nvs.eraseIdx i) ∧
    values this s = (nvs.map Prod.snd).map some ∧
    values this (erase this pos s).2 = ((nvs.map Prod.snd).eraseIdx i).map some ∧
    size this (erase this pos s).2 + 1 = size this s ∧
    (nvs.map Prod.fst ++ [s.head this])[i + 1]? = some (s.next pos.current) ∧
    ((nvs.eraseIdx i).map Prod.fst ++ [(erase this pos s).2.head this])[i]? =
      some (s.next pos.current) ∧
    (i + 1 = nvs.length → (erase this pos s).1 = .ok (end_ this (erase this pos s).2)) := by
  obtain ⟨hr, hl2, hnx⟩ := erase_isList i hl hc hp
  have hi : i < nvs.length := by
    have hi0 := (List.getElem?_eq_some.1 hp).1
    simpa using hi0
  rw [hr]
  refine ⟨rfl, hl2, hl.values_eq, ?_, ?_, hnx, ?_, ?_⟩
  · rw [hl2.values_eq]
    simp only [List.eraseIdx_eq_take_drop_succ, List.map_append, List.map_take, List.map_drop]
  · simp only [size]
    rw [hl2.2.2.1, hl.2.2.1, List.length_eraseIdx]
    rw [if_pos hi]; omega
  · simp only [list.deleteNode, eraseNode_head]
    rw [← hnx]
    simp only [List.eraseIdx_eq_take_drop_succ, List.map_append, List.map_take, List.map_drop]
    have hlen : (List.take i (List.map Prod.fst nvs)).length = i := by
      rw [List.length_take, List.length_map]; omega
    rw [List.append_assoc, List.getElem?_append_right (by omega), hlen, Nat.sub_self,
      ← List.drop_append_of_le_length (by rw [List.length_map]; omega),
      ← List.head?_eq_getElem?, List.head?_drop]
  · intro hlast
    have hend : (nvs.map Prod.fst ++ [s.head this])[i + 1]? = some (s.head this) := by
      rw [List.getElem?_append_right (by rw [List.length_map]; omega)]
      simp [hlast]
    rw [hnx] at hend
    simp only [end_, list.deleteNode, eraseNode_head]
    rw [Option.some.inj hend]

/-- C3 at a concrete input: erasing the only element of `[7]` gives the empty list and
returns `end()`. -/
theorem erase_spec_witness :
    IsList ex7 1 [(11, 7)] ∧
    (erase 1 ⟨11, 1⟩ ex7).1 = .ok ⟨10, 1⟩ ∧
    values 1 (erase 1 ⟨11, 1⟩ ex7).2 = [] ∧
    size 1 (erase 1 ⟨11, 1⟩ ex7).2 + 1 = 1 :=
  have h := erase_spec ex7 1 [(11, 7)] 0 ⟨11, 1⟩ (by decide) rfl (by decide)
  ⟨by decide, h.1, h.2.2.2.1, h.2.2.2.2.1⟩

/-- C4: `erase(pos)` throws `container_is_empty` exactly when `size()` is `0`, whatever
`pos` is; on a non-empty list it throws `invalid_iterator` exactly when the container
stored in `pos` is not this list or `pos` references the sentinel; a throwing call leaves
the heap, hence the element sequence and `size()`, unchanged. -/
theorem erase_fails (s : State α) (this : Nat) (pos : iterator) :
    ((erase this pos s).1 = .error .container_is_empty ↔ size this s = 0) ∧
    (size this s ≠ 0 →
      ((erase this pos s).1 = .error .invalid_iterator ↔
        (pos.container ≠ this ∨ pos.current = s.head this))) ∧
    (∀ e, (erase this pos s).1 = .error e →
      (erase this pos s).2 = s ∧ values this (erase this pos s).2 = values this s ∧
        size this (erase this pos s).2 = size this s) := by
  unfold erase empty size
  by_cases h0 : s._size this = 0
  · simp [h0]
  · by_cases h1 : pos.container ≠ this ∨ pos.current = s.head this
    · simp [h0, h1]
    · simp [h0, h1]

/-- C4 at concrete inputs: on the empty list `erase(end())` throws `container_is_empty`;
on `[7]`, `erase(end())` and `erase` with a handle of another container throw
`invalid_iterator`, and the list still holds `[7]`. -/
theorem erase_fails_witness :
    (erase 1 ⟨10, 1⟩ exEmpty).1 = .error .container_is_empty ∧
    (erase 1 ⟨10, 1⟩ ex7).1 = .error .invalid_iterator ∧
    (erase 1 ⟨11, 2⟩ ex7).1 = .error .invalid_iterator ∧
    values 1 (erase 1 ⟨11, 2⟩ ex7).2 = values 1 ex7 :=
  ⟨(erase_fails exEmpty 1 ⟨10, 1⟩).1.2 (by decide),
   ((erase_fails ex7 1 ⟨10, 1⟩).2.1 (by decide)).2 (Or.inr (by decide)),
   ((erase_fails ex7 1 ⟨11, 2⟩).2.1 (by decide)).2 (Or.inl (by decide)),
   ((erase_fails ex7 1 ⟨11, 2⟩).2.2 _
     (((erase_fails ex7 1 ⟨11, 2⟩).2.1 (by decide)).2 (Or.inl (by decide)))).2.1⟩

/-! ### `unique` -/

theorem IsList.next_mid {s : State α} {this c : Nat} {x : α} {l1 l2 : List (Nat × α)}
    (hl : IsList s this (l1 ++ (c, x) :: l2)) :
    (l2.map Prod.fst ++ [s.head this]).head? = some (s.next c) := by
  have hpath := (isList_iff.1 hl).1
  simp only [List.map_append, List.map_cons] at hpath
  have e : s.head this :: (List.map Prod.fst l1 ++ c :: List.map Prod.fst l2 ++ [s.head this]) =
      (s.head this :: List.map Prod.fst l1) ++
        c :: (List.map Prod.fst l2 ++ [s.head this]) := by
    simp
  rw [e] at hpath
  have hc2 := hpath.right_of_append
  cases hh : (List.map Prod.fst l2 ++ [s.head this]).head? with
  | none => simp at hh
  | some y => rw [(hc2.rel_head? hh).1]

theorem IsList.ne_head {s : State α} {this c : Nat} {nvs : List (Nat × α)}
    (hl : IsList s this nvs) (hm : c ∈ nvs.map Prod.fst) : c ≠ s.head this := by
  rintro rfl
  exact (List.nodup_cons.1 hl.2.1).1 hm

theorem IsList.erase_delete {s : State α} {this x : Nat} {v : α} {l1 l2 : List (Nat × α)}
    (hl : IsList s this (l1 ++ (x, v) :: l2)) :
    IsList (list.deleteNode (list.eraseNode this x s) x) this (l1 ++ l2) := by
  refine hl.eraseNode.deleteNode ?_
  have hnd := hl.2.1
  simp only [eraseNode_head, List.map_append, List.map_cons, List.nodup_cons,
    List.mem_append, List.mem_cons, List.nodup_append, not_or] at hnd ⊢
  refine ⟨fun e => hnd.1.2.1 e.symm, ?_, ?_⟩
  · intro hm
    exact hnd.2.2.2 hm (List.mem_cons_self _ _)
  · exact hnd.2.2.1.1

theorem uniqueLoop_spec [BEq α] (this : Nat) :
    ∀ (rest : List (Nat × α)) (s : State α) (done : List (Nat × α)) (curr : Nat) (x : α)
      (fuel : Nat),
      IsList s this (done ++ (curr, x) :: rest) → rest.length + 1 ≤ fuel →
      ∃ (t : State α) (kept : List (Nat × α)),
        uniqueLoop this fuel curr s = .ok t ∧
        IsList t this (done ++ (curr, x) :: kept) ∧
        kept.Sublist rest ∧
        kept.map Prod.snd = refUniqueAux x (rest.map Prod.snd) := by
  intro rest
  induction rest with
  | nil =>
    intro s done curr x fuel hl hf
    obtain ⟨f, rfl⟩ : ∃ f, fuel = f + 1 := ⟨fuel - 1, by omega⟩
    have hnx := hl.next_mid
    simp only [List.map_nil, List.nil_append, List.head?_cons, Option.some.injEq] at hnx
    refine ⟨s, [], ?_, hl, List.Sublist.refl _, rfl⟩
    simp only [uniqueLoop, ← hnx, ne_eq, not_true_eq_false, and_false, if_false]
  | cons p rest ih =>
    intro s done curr x fuel hl hf
    obtain ⟨n, y⟩ := p
    obtain ⟨f, rfl⟩ : ∃ f, fuel = f + 1 := ⟨fuel - 1, by omega⟩
    simp only [List.length_cons] at hf
    have hnx := hl.next_mid
    simp only [List.map_cons, List.cons_append, List.head?_cons, Option.some.injEq] at hnx
    have hc : curr ≠ s.head this := hl.ne_head (by simp)
    have hn : n ≠ s.head this := hl.ne_head (by simp)
    have hdc : s.data curr = some x := hl.2.2.2.1 (curr, x) (by simp)
    have hdn : s.data n = some y := hl.2.2.2.1 (n, y) (by simp)
    by_cases hxy : (x == y) = true
    · have hl2 : IsList (deleteNode (eraseNode this n s) n) this
          (done ++ (curr, x) :: rest) := by
        have e : done ++ (curr, x) :: (n, y) :: rest = (done ++ [(curr, x)]) ++ (n, y) :: rest := by
          simp
        rw [e] at hl
        have h2 := hl.erase_delete
        simpa using h2
      obtain ⟨t, kept, ht, hlt, hsub, hmap⟩ := ih _ done curr x f hl2 (by omega)
      refine ⟨t, kept, ?_, hlt, hsub.trans (List.sublist_cons_self _ _), ?_⟩
      · simp only [uniqueLoop, ← hnx, ne_eq, hc, hn, not_false_eq_true, and_self, if_true,
          hdc, hdn, hxy]
        exact ht
      · rw [hmap]; simp [refUniqueAux, hxy]
    · have e : done ++ (curr, x) :: (n, y) :: rest = (done ++ [(curr, x)]) ++ (n, y) :: rest := by
        simp
      rw [e] at hl
      obtain ⟨t, kept, ht, hlt, hsub, hmap⟩ := ih s (done ++ [(curr, x)]) n y f hl (by omega)
      refine ⟨t, (n, y) :: kept, ?_, ?_, hsub.cons₂ _, ?_⟩
      · simp only [uniqueLoop, ← hnx, ne_eq, hc, hn, not_false_eq_true, and_self, if_true,
          hdc, hdn, hxy]
        exact ht
      · simpa using hlt
      · simp [refUniqueAux, hxy, hmap]

theorem unique_isList [BEq α] {s : State α} {this : Nat} {nvs : List (Nat × α)} {fuel : Nat}
    (hl : IsList s this nvs) (hf : nvs.length ≤ fuel) :
    ∃ (t : State α) (kept : List (Nat × α)),
      unique fuel this s = .ok t ∧ IsList t this kept ∧ kept.Sublist nvs ∧
      kept.map Prod.snd = refUnique (nvs.map Prod.snd) := by
  have hsz := hl.2.2.1
  cases nvs with
  | nil =>
    refine ⟨s, [], ?_, hl, List.Sublist.refl _, rfl⟩
    simp [unique, hsz]
  | cons p rest =>
    obtain ⟨c, x⟩ := p
    cases rest with
    | nil =>
      refine ⟨s, [(c, x)], ?_, hl, List.Sublist.refl _, rfl⟩
      simp [unique, hsz]
    | cons q rest =>
      have hnh := hl.next_head
      simp only [List.map_cons, List.cons_append, List.getElem?_cons_zero,
        Option.some.injEq] at hnh
      have hl2 : IsList s this ([] ++ (c, x) :: q :: rest) := hl
      simp only [List.length_cons] at hf hsz
      obtain ⟨t, kept, ht, hlt, hsub, hmap⟩ :=
        uniqueLoop_spec this (q :: rest) s [] c x fuel hl2 (by simp only [List.length_cons]; omega)
      refine ⟨t, (c, x) :: kept, ?_, hlt, hsub.cons₂ _, ?_⟩
      · have h1 : ¬ s._size this ≤ 1 := by omega
        simp only [unique, h1, if_false, ← hnh]
        exact ht
      · simp only [List.map_cons, refUnique] at hmap ⊢
        rw [hmap]

/-- C7: on a list satisfying the invariant with element sequence `xs`, `unique()` (given a
loop budget of at least `size()` steps) returns, and the element sequence becomes the
reference adjacent deduplication of `xs`; the kept nodes are a subsequence of the original
nodes, in their original order, and `size()` is the number kept. -/
theorem unique_spec [BEq α] (s : State α) (this : Nat) (nvs : List (Nat × α)) (fuel : Nat)
    (hl : IsList s this nvs) (hf : nvs.length ≤ fuel) :
    ∃ (t : State α) (kept : List (Nat × α)),
      unique fuel this s = .ok t ∧ IsList t this kept ∧ kept.Sublist nvs ∧
      values this s = (nvs.map Prod.snd).map some ∧
      values this t = (refUnique (nvs.map Prod.snd)).map some ∧
      size this t = (refUnique (nvs.map Prod.snd)).length := by
  obtain ⟨t, kept, ht, hlt, hsub, hmap⟩ := unique_isList hl hf
  refine ⟨t, kept, ht, hlt, hsub, hl.values_eq, ?_, ?_⟩
  · rw [hlt.values_eq, hmap]
  · simp only [size]
    rw [hlt.2.2.1, ← hmap, List.length_map]

/-- C7 at the input of the specification: `unique` on `[1, 1, 2, 2, 2, 3, 1]` yields
`[1, 2, 3, 1]`. -/
theorem unique_spec_witness :
    values 1 exDup = [some 1, some 1, some 2, some 2, some 2, some 3, some 1] ∧
    ∃ t, unique 7 1 exDup = .ok t ∧ values 1 t = [some 1, some 2, some 3, some 1] ∧
      size 1 t = 4 :=
  have h := unique_spec exDup 1
    [(11, 1), (12, 1), (13, 2), (14, 2), (15, 2), (16, 3), (17, 1)] 7 (by decide) (by decide)
  ⟨by decide, h.elim fun t h2 => h2.elim fun _ h3 => ⟨t, h3.1, h3.2.2.2.2.1, h3.2.2.2.2.2⟩⟩

/-! ### `reverse` -/

theorem swapOn_step (s : State α) (P : List Nat) (c : Nat) (hc : c ∉ P) :
    setPrev (setNext (swapOn P s) c ((swapOn P s).prev c)) c ((swapOn P s).next c) =
      swapOn (P ++ [c]) s := by
  ext x
  · rfl
  · simp only [setPrev, setNext, swapOn, if_neg hc, List.mem_append, List.mem_singleton]
    by_cases hx : x = c
    · simp [hx]
    · by_cases hxP : x ∈ P <;> simp [hx, hxP]
  · simp only [setPrev, setNext, swapOn, if_neg hc, List.mem_append, List.mem_singleton]
    by_cases hx : x = c
    · simp [hx, hc]
    · by_cases hxP : x ∈ P <;> simp [hx, hxP]
  · rfl
  · rfl
  · rfl

theorem reverseLoop_spec (this : Nat) (s : State α) :
    ∀ (Q : List Nat) (curr : Nat) (P : List Nat) (fuel : Nat),
      (P ++ curr :: Q).Nodup → s.head this ∉ Q →
      List.Chain' (fun x y => s.next x = y) (curr :: (Q ++ [s.head this])) →
      Q.length + 1 ≤ fuel →
      reverseLoop this fuel curr (swapOn P s) = .ok (swapOn (P ++ curr :: Q) s) := by
  intro Q
  induction Q with
  | nil =>
    intro curr P fuel hnd _ hch hf
    obtain ⟨f, rfl⟩ : ∃ f, fuel = f + 1 := ⟨fuel - 1, by omega⟩
    have hc : curr ∉ P := by
      intro hm
      exact (List.nodup_append.1 hnd).2.2 hm (List.mem_cons_self _ _)
    have hnx : s.next curr = s.head this := by
      simpa using hch
    simp only [reverseLoop]
    rw [swapOn_step s P curr hc]
    have e : (swapOn (P ++ [curr]) s).prev curr = s.head this := by
      simp [swapOn, hnx]
    have e2 : (swapOn (P ++ [curr]) s).head this = s.head this := rfl
    rw [e, e2]
    simp
  | cons q Q ih =>
    intro curr P fuel hnd hh hch hf
    obtain ⟨f, rfl⟩ : ∃ f, fuel = f + 1 := ⟨fuel - 1, by omega⟩
    simp only [List.length_cons] at hf
    have hc : curr ∉ P := by
      intro hm
      exact (List.nodup_append.1 hnd).2.2 hm (List.mem_cons_self _ _)
    simp only [List.cons_append, List.chain'_cons] at hch
    have hnx : s.next curr = q := hch.1
    have hq : q ≠ s.head this := by
      rintro rfl; exact hh (List.mem_cons_self _ _)
    simp only [reverseLoop]
    rw [swapOn_step s P curr hc]
    have e : (swapOn (P ++ [curr]) s).prev curr = q := by
      simp [swapOn, hnx]
    have e2 : (swapOn (P ++ [curr]) s).head this = s.head this := rfl
    rw [e, e2, if_pos hq]
    have hnd2 : ((P ++ [curr]) ++ q :: Q).Nodup := by simpa using hnd
    have h3 := ih q (P ++ [curr]) f hnd2 (fun hm => hh (List.mem_cons_of_mem _ hm))
      (by simpa using hch.2) (by omega)
    rw [h3]
    simp

theorem swapOn_isList {s : State α} {this : Nat} {nvs : List (Nat × α)}
    (hl : IsList s this nvs) :
    IsList (swapOn (s.head this :: nvs.map Prod.fst) s) this nvs.reverse := by
  obtain ⟨hpath, hnd, hsz, hdata, hsent, hlv⟩ := isList_iff.1 hl
  refine isList_iff.2 ⟨?_, ?_, ?_, ?_, ?_, ?_⟩
  · have e : (swapOn (s.head this :: nvs.map Prod.fst) s).head this ::
        (List.map Prod.fst nvs.reverse ++
          [(swapOn (s.head this :: nvs.map Prod.fst) s).head this]) =
        (s.head this :: (nvs.map Prod.fst ++ [s.head this])).reverse := by
      simp [swapOn]
    rw [e, List.chain'_reverse]
    rw [List.Chain'.iff_mem] at hpath
    refine hpath.imp ?_
    intro x y hxy
    obtain ⟨hx, hy, hlk⟩ := hxy
    have hx2 : x ∈ s.head this :: nvs.map Prod.fst := by
      simp only [List.mem_cons, List.mem_append, List.mem_singleton] at hx ⊢; tauto
    have hy2 : y ∈ s.head this :: nvs.map Prod.fst := by
      simp only [List.mem_cons, List.mem_append, List.mem_singleton] at hy ⊢; tauto
    simp only [flip, Link, swapOn, if_pos hx2, if_pos hy2]
    exact ⟨hlk.2, hlk.1⟩
  · have e : (swapOn (s.head this :: nvs.map Prod.fst) s).head this = s.head this := rfl
    rw [e, List.map_reverse]
    have hp : (s.head this :: (nvs.map Prod.fst).reverse).Perm
        (s.head this :: nvs.map Prod.fst) := List.Perm.cons _ (List.reverse_perm _)
    exact hp.nodup_iff.2 hnd
  · simpa [swapOn] using hsz
  · intro p hp
    exact hdata p (List.mem_reverse.1 hp)
  · exact hsent
  · intro a ha
    have ha2 : a ∈ s.head this :: nvs.map Prod.fst := by
      simp only [swapOn, List.map_reverse, List.mem_cons, List.mem_reverse] at ha ⊢
      exact ha
    exact hlv a ha2

theorem reverse_eq {s : State α} {this : Nat} {nvs : List (Nat × α)} {fuel : Nat}
    (hl : IsList s this nvs) (hf : nvs.length + 1 ≤ fuel) :
    reverse fuel this s =
      .ok (if nvs.length ≤ 1 then s else swapOn (s.head this :: nvs.map Prod.fst) s) := by
  obtain ⟨hpath, hnd, hsz, _, _, _⟩ := isList_iff.1 hl
  by_cases h1 : nvs.length ≤ 1
  · simp [reverse, hsz, h1]
  · have h2 : ¬ s._size this ≤ 1 := by rw [hsz]; exact h1
    simp only [reverse, h2, h1, if_false]
    have hch : List.Chain' (fun x y => s.next x = y)
        (s.head this :: (nvs.map Prod.fst ++ [s.head this])) :=
      hpath.imp (fun _ _ h => h.1)
    have h3 := reverseLoop_spec this s (nvs.map Prod.fst) (s.head this) [] fuel
      (by simpa using hnd) (List.nodup_cons.1 hnd).1 hch (by simpa using hf)
    have e : swapOn [] s = s := by
      ext x <;> simp [swapOn]
    rw [e] at h3
    simpa using h3

theorem reverse_isList {s : State α} {this : Nat} {nvs : List (Nat × α)} {fuel : Nat}
    (hl : IsList s this nvs) (hf : nvs.length + 1 ≤ fuel) :
    ∃ t : State α, reverse fuel this s = .ok t ∧ IsList t this nvs.reverse ∧
      t.live = s.live ∧ t.data = s.data ∧ t.head = s.head ∧ t._size = s._size := by
  refine ⟨_, reverse_eq hl hf, ?_, ?_, ?_, ?_, ?_⟩
  · by_cases h1 : nvs.length ≤ 1
    · rw [if_pos h1]
      have e : nvs.reverse = nvs := by
        match nvs, h1 with
        | [], _ => rfl
        | [_], _ => rfl
        | _ :: _ :: _, h => simp at h
      rw [e]; exact hl
    · rw [if_neg h1]; exact swapOn_isList hl
  all_goals split <;> rfl

theorem swapOn_swapOn (s : State α) (P Q : List Nat) (h : ∀ x, x ∈ Q ↔ x ∈ P) :
    swapOn Q (swapOn P s) = s := by
  ext x
  · rfl
  · by_cases hx : x ∈ P
    · simp [swapOn, hx, (h x).2 hx]
    · have hq : x ∉ Q := fun hq => hx ((h x).1 hq)
      simp [swapOn, hx, hq]
  · by_cases hx : x ∈ P
    · simp [swapOn, hx, (h x).2 hx]
    · have hq : x ∉ Q := fun hq => hx ((h x).1 hq)
      simp [swapOn, hx, hq]
  · rfl
  · rfl
  · rfl

/-- C8: on a list satisfying the invariant with element sequence `xs`, `reverse()` (given a
loop budget of at least `size() + 1` steps) returns; the forward traversal then reads the
reverse of `xs` over the same nodes in the opposite order, `size()` is unchanged, the ring
invariant holds again with the `prev` traversal the mirror of the `next` traversal, and no
node is allocated, freed or given another element. -/
theorem reverse_spec (s : State α) (this : Nat) (nvs : List (Nat × α)) (fuel : Nat)
    (hl : IsList s this nvs) (hf : nvs.length + 1 ≤ fuel) :
    ∃ t : State α, reverse fuel this s = .ok t ∧ IsList t this nvs.reverse ∧
      values this s = (nvs.map Prod.snd).map some ∧
      values this t = ((nvs.map Prod.snd).reverse).map some ∧
      size this t = size this s ∧
      nodes this t = (nodes this s).reverse ∧
      nodesBack this t = (nodes this t).reverse ∧
      t.live = s.live ∧ t.data = s.data := by
  obtain ⟨t, ht, hlt, hlive, hdata, _, hsize⟩ := reverse_isList hl hf
  refine ⟨t, ht, hlt, hl.values_eq, ?_, ?_, ?_, ?_, hlive, hdata⟩
  · rw [hlt.values_eq, List.map_reverse]
  · simp only [size, hsize]
  · rw [hlt.nodes_eq, hl.nodes_eq, List.map_reverse]
  · rw [hlt.nodesBack_eq, hlt.nodes_eq]

/-- C8 at a concrete input: reversing `[3, 1, 2]` gives `[2, 1, 3]`. -/
theorem reverse_spec_witness :
    values 1 ex312 = [some 3, some 1, some 2] ∧
    ∃ t, reverse 4 1 ex312 = .ok t ∧ values 1 t = [some 2, some 1, some 3] ∧
      size 1 t = 3 ∧ nodes 1 t = [13, 12, 11] ∧ nodesBack 1 t = [11, 12, 13] :=
  have h := reverse_spec ex312 1 [(11, 3), (12, 1), (13, 2)] 4 (by decide) (by decide)
  ⟨by decide, h.elim fun t h2 =>
    ⟨t, h2.1, h2.2.2.2.1, h2.2.2.2.2.1, h2.2.2.2.2.2.1,
      h2.2.2.2.2.2.2.1.trans (congrArg List.reverse h2.2.2.2.2.2.1)⟩⟩

/-- C9: `reverse()` is an involution: on a list satisfying the invariant the first call
returns some heap `t`, and the second call, made on `t`, returns the original heap, so the
element sequence, `size()` and every link are as before. -/
theorem reverse_involution (s : State α) (this : Nat) (nvs : List (Nat × α)) (fuel : Nat)
    (hl : IsList s this nvs) (hf : nvs.length + 1 ≤ fuel) :
    ∃ t : State α, reverse fuel this s = .ok t ∧ reverse fuel this t = .ok s := by
  refine ⟨_, reverse_eq hl hf, ?_⟩
  by_cases h1 : nvs.length ≤ 1
  · rw [if_pos h1, reverse_eq hl hf, if_pos h1]
  · rw [if_neg h1]
    have hlt := swapOn_isList hl
    rw [reverse_eq hlt (by simpa using hf)]
    have h2 : ¬ nvs.reverse.length ≤ 1 := by simpa using h1
    rw [if_neg h2]
    congr 1
    apply swapOn_swapOn
    intro x
    simp [swapOn]

/-- C9 at a concrete input: reversing `[3, 1, 2]` twice restores the heap. -/
theorem reverse_involution_witness :
    IsList ex312 1 [(11, 3), (12, 1), (13, 2)] ∧
    ∃ t, reverse 4 1 ex312 = .ok t ∧ reverse 4 1 t = .ok ex312 :=
  ⟨by decide,
    reverse_involution ex312 1 [(11, 3), (12, 1), (13, 2)] 4 (by decide) (by decide)⟩

/-! ### `sort` -/

theorem linkPath_fields (s : State α) (l : List Nat) :
    (linkPath s l).head = s.head ∧ (linkPath s l)._size = s._size ∧
    (linkPath s l).data = s.data ∧ (linkPath s l).live = s.live := by
  induction l generalizing s with
  | nil => simp [linkPath]
  | cons a l ih =>
    cases l with
    | nil => simp [linkPath]
    | cons b rest =>
      simp only [linkPath]
      have h := ih (setPrev (setNext s a b) b a)
      exact h

theorem linkPath_next (s : State α) (l : List Nat) (x : Nat) (hx : x ∉ l.dropLast) :
    (linkPath s l).next x = s.next x := by
  induction l generalizing s with
  | nil => simp [linkPath]
  | cons a l ih =>
    cases l with
    | nil => simp [linkPath]
    | cons b rest =>
      simp only [linkPath]
      simp only [List.dropLast_cons₂, List.mem_cons, not_or] at hx
      rw [ih _ hx.2]
      simp [setPrev, setNext, hx.1]

theorem linkPath_prev (s : State α) (l : List Nat) (y : Nat) (hy : y ∉ l.tail) :
    (linkPath s l).prev y = s.prev y := by
  induction l generalizing s with
  | nil => simp [linkPath]
  | cons a l ih =>
    cases l with
    | nil => simp [linkPath]
    | cons b rest =>
      simp only [linkPath]
      simp only [List.tail_cons, List.mem_cons, not_or] at hy
      rw [ih _ (by simpa using hy.2)]
      simp [setPrev, setNext, hy.1]

theorem linkPath_chain (s : State α) (l : List Nat) (h1 : l.dropLast.Nodup)
    (h2 : l.tail.Nodup) : List.Chain' (Link (linkPath s l)) l := by
  induction l generalizing s with
  | nil => exact List.chain'_nil
  | cons a l ih =>
    cases l with
    | nil => exact List.chain'_singleton a
    | cons b rest =>
      simp only [linkPath]
      simp only [List.dropLast_cons₂, List.nodup_cons] at h1
      simp only [List.tail_cons, List.nodup_cons] at h2
      rw [List.chain'_cons]
      refine ⟨⟨?_, ?_⟩, ih _ h1.2 (by simpa using h2.2)⟩
      · rw [linkPath_next _ _ _ h1.1]
        simp [setPrev, setNext]
      · rw [linkPath_prev _ _ _ (by simpa using h2.1)]
        simp [setPrev, setNext]

theorem linkPath_snoc (s : State α) (l : List Nat) (x y : Nat) :
    linkPath s (l ++ [x, y]) = setPrev (setNext (linkPath s (l ++ [x])) x y) y x := by
  induction l generalizing s with
  | nil => simp [linkPath]
  | cons a l ih =>
    cases l with
    | nil => simp [linkPath]
    | cons b rest =>
      simp only [List.cons_append, linkPath]
      exact ih _

theorem relinkLoop_eq (arr : List Nat) :
    ∀ (n i : Nat) (s : State α), i + n + 1 ≤ arr.length →
      relinkLoop arr n i s = linkPath s ((arr.drop i).take (n + 1)) := by
  intro n
  induction n with
  | zero =>
    intro i s hi
    have hlt : i < arr.length := by omega
    rw [List.drop_eq_getElem_cons hlt]
    simp [relinkLoop, linkPath]
  | succ n ih =>
    intro i s hi
    have hlt : i < arr.length := by omega
    have hlt2 : i + 1 < arr.length := by omega
    rw [List.drop_eq_getElem_cons hlt, List.drop_eq_getElem_cons hlt2]
    simp only [relinkLoop, List.take_succ_cons, linkPath]
    rw [ih (i + 1) _ (by omega), List.drop_eq_getElem_cons hlt2]
    simp only [List.take_succ_cons]
    have e1 : arr.getD i 0 = arr[i] := by
      rw [List.getD_eq_getElem?_getD, List.getElem?_eq_getElem hlt]; rfl
    have e2 : arr.getD (i + 1) 0 = arr[i + 1] := by
      rw [List.getD_eq_getElem?_getD, List.getElem?_eq_getElem hlt2]; rfl
    rw [e1, e2]

@[simp] theorem setNext_head (s : State α) (a v : Nat) : (setNext s a v).head = s.head := rfl

@[simp] theorem setPrev_head (s : State α) (a v : Nat) : (setPrev s a v).head = s.head := rfl

@[simp] theorem setNext_size (s : State α) (a v : Nat) : (setNext s a v)._size = s._size := rfl

@[simp] theorem setPrev_size (s : State α) (a v : Nat) : (setPrev s a v)._size = s._size := rfl

theorem relinkLoop_fields (arr : List Nat) :
    ∀ (n i : Nat) (s : State α),
      (relinkLoop arr n i s).head = s.head ∧ (relinkLoop arr n i s)._size = s._size := by
  intro n
  induction n with
  | zero => intro i s; exact ⟨rfl, rfl⟩
  | succ n ih =>
    intro i s
    simp only [relinkLoop]
    exact ih _ _

theorem relinkLoop_head (arr : List Nat) (n i : Nat) (s : State α) :
    (relinkLoop arr n i s).head = s.head := (relinkLoop_fields arr n i s).1

theorem relinkLoop_size (arr : List Nat) (n i : Nat) (s : State α) :
    (relinkLoop arr n i s)._size = s._size := (relinkLoop_fields arr n i s).2

theorem sort_eq [LT α] [DecidableRel (fun a b : α => a < b)]
    (sortPrim : (Nat → Nat → Bool) → List Nat → List Nat) (this : Nat) (s : State α)
    (arr : List Nat)
    (harr : sortPrim (cmp s) (walk s.next (s._size this) (s.next (s.head this))) = arr)
    (hsz : s._size this = arr.length) (h2 : 2 ≤ arr.length) :
    sort sortPrim this s = linkPath s (s.head this :: (arr ++ [s.head this])) := by
  have hne : arr ≠ [] := by
    intro e; rw [e] at h2; simp at h2
  obtain ⟨a0, rest, harr0⟩ := List.exists_cons_of_ne_nil hne
  have hlast := List.dropLast_append_getLast hne
  have hpos : arr.length - 1 < arr.length := by omega
  have e0 : arr.getD 0 0 = a0 := by rw [harr0]; rfl
  have e1 : arr.getD (arr.length - 1) 0 = arr.getLast hne := by
    rw [List.getD_eq_getElem?_getD, List.getElem?_eq_getElem hpos, List.getLast_eq_getElem]
    rfl
  have hs1 : ¬ s._size this ≤ 1 := by omega
  have hl1 : linkPath s (s.head this :: arr) =
      linkPath (setPrev (setNext s (s.head this) a0) a0 (s.head this)) arr := by
    rw [harr0]; rfl
  have hl2 : relinkLoop arr (arr.length - 1) 0
      (setPrev (setNext s (s.head this) a0) a0 (s.head this)) =
      linkPath (setPrev (setNext s (s.head this) a0) a0 (s.head this)) arr := by
    rw [relinkLoop_eq arr _ 0 _ (by omega)]
    have en : arr.length - 1 + 1 = arr.length := by omega
    rw [en, List.drop_zero, List.take_length]
  have hl3 : linkPath s (s.head this :: (arr ++ [s.head this])) =
      setPrev (setNext (linkPath s (s.head this :: arr)) (arr.getLast hne) (s.head this))
        (s.head this) (arr.getLast hne) := by
    have e : s.head this :: (arr ++ [s.head this]) =
        (s.head this :: arr.dropLast) ++ [arr.getLast hne, s.head this] := by
      conv_lhs => rw [← hlast]
      simp
    have e' : s.head this :: arr = (s.head this :: arr.dropLast) ++ [arr.getLast hne] := by
      conv_lhs => rw [← hlast]
      simp
    rw [e, linkPath_snoc, ← e']
  rw [hl3, hl1, ← hl2]
  have hs2 : ¬ arr.length ≤ 1 := by omega
  rw [hsz] at harr
  simp only [sort, setNext_head, setPrev_head, setNext_size,
    setPrev_size, relinkLoop_head, relinkLoop_size, hsz, harr, e0, e1, hs2, if_false]

theorem tag_eq {s : State α} {nvs : List (Nat × α)}
    (hd : ∀ p ∈ nvs, s.data p.1 = some p.2) : tag s (nvs.map Prod.fst) = nvs := by
  induction nvs with
  | nil => rfl
  | cons p nvs ih =>
    have h1 := hd p (List.mem_cons_self _ _)
    have h2 := ih (fun q hq => hd q (List.mem_cons_of_mem _ hq))
    unfold tag at h2 ⊢
    simp only [List.map_cons, List.filterMap_cons, h1, Option.map_some', h2]

theorem tag_data (s : State α) (l : List Nat) : ∀ p ∈ tag s l, s.data p.1 = some p.2 := by
  intro p hp
  unfold tag at hp
  obtain ⟨a, _, ha⟩ := List.mem_filterMap.1 hp
  cases hda : s.data a with
  | none => rw [hda] at ha; simp at ha
  | some v =>
    rw [hda] at ha
    simp only [Option.map_some', Option.some.injEq] at ha
    rw [← ha]; exact hda

theorem tag_fst (s : State α) (l : List Nat) (h : ∀ a ∈ l, (s.data a).isSome = true) :
    (tag s l).map Prod.fst = l := by
  induction l with
  | nil => rfl
  | cons a l ih =>
    have h1 := h a (List.mem_cons_self _ _)
    have h2 := ih (fun b hb => h b (List.mem_cons_of_mem _ hb))
    obtain ⟨v, hv⟩ := Option.isSome_iff_exists.1 h1
    unfold tag at h2 ⊢
    simp only [List.filterMap_cons, hv, Option.map_some', List.map_cons, h2]

theorem linkPath_isList {s : State α} {this : Nat} {nvs : List (Nat × α)} {arr : List Nat}
    (hl : IsList s this nvs) (hperm : arr.Perm (nvs.map Prod.fst)) :
    IsList (linkPath s (s.head this :: (arr ++ [s.head this]))) this (tag s arr) ∧
    (tag s arr).Perm nvs ∧ (tag s arr).map Prod.fst = arr := by
  obtain ⟨_, hnd, hsz, hdata, hsent, hlv⟩ := isList_iff.1 hl
  obtain ⟨hhead, hsize, hdat, hlive⟩ :=
    linkPath_fields s (s.head this :: (arr ++ [s.head this]))
  have hsome : ∀ a ∈ arr, (s.data a).isSome = true := by
    intro a ha
    obtain ⟨p, hp, rfl⟩ := List.mem_map.1 (hperm.subset ha)
    rw [hdata p hp]; rfl
  have hfst := tag_fst s arr hsome
  have hpm : (tag s arr).Perm nvs := by
    have h1 : (tag s arr).Perm (tag s (nvs.map Prod.fst)) := by
      unfold tag; exact hperm.filterMap _
    rwa [tag_eq hdata] at h1
  have hnd2 : (s.head this :: arr).Nodup := (List.Perm.cons _ hperm).nodup_iff.2 hnd
  refine ⟨isList_iff.2 ⟨?_, ?_, ?_, ?_, ?_, ?_⟩, hpm, hfst⟩
  · rw [hhead, hfst]
    refine linkPath_chain s _ ?_ ?_
    · have e : (s.head this :: (arr ++ [s.head this])).dropLast = s.head this :: arr := by
        rw [← List.cons_append, List.dropLast_concat]
      rw [e]; exact hnd2
    · simp only [List.tail_cons]
      exact (List.perm_append_singleton _ _).nodup_iff.2 hnd2
  · rw [hhead, hfst]; exact hnd2
  · rw [hsize, hsz]; exact hpm.length_eq.symm
  · intro p hp
    rw [hdat]; exact tag_data s arr p hp
  · rw [hhead, hdat]; exact hsent
  · intro a ha
    rw [hhead, hfst] at ha
    rw [hlive]
    refine hlv a ?_
    rcases List.mem_cons.1 ha with e | e
    · rw [e]; exact List.mem_cons_self _ _
    · exact List.mem_cons_of_mem _ (hperm.subset e)

theorem sorted_of_cmp [LinearOrder α] {s : State α} {l : List (Nat × α)}
    (hd : ∀ p ∈ l, s.data p.1 = some p.2)
    (hp : (l.map Prod.fst).Pairwise (fun a b => cmp s b a = false)) :
    (l.map Prod.snd).Sorted (fun x y => x ≤ y) := by
  unfold List.Sorted
  rw [List.pairwise_map] at hp ⊢
  refine hp.imp_of_mem ?_
  intro p q hpm hqm h
  simp only [cmp, hd p hpm, hd q hqm, decide_eq_false_iff_not, not_lt] at h
  exact h

theorem sort_isList [LinearOrder α]
    (sortPrim : (Nat → Nat → Bool) → List Nat → List Nat) {s : State α} {this : Nat}
    {nvs : List (Nat × α)} (hl : IsList s this nvs)
    (hperm : (sortPrim (cmp s) (nodes this s)).Perm (nodes this s))
    (hsorted : (sortPrim (cmp s) (nodes this s)).Pairwise (fun a b => cmp s b a = false)) :
    ∃ sorted : List (Nat × α), IsList (sort sortPrim this s) this sorted ∧
      sorted.Perm nvs ∧ (sorted.map Prod.snd).Sorted (fun x y => x ≤ y) ∧
      (sort sortPrim this s).data = s.data ∧ (sort sortPrim this s).live = s.live ∧
      (sort sortPrim this s)._size = s._size := by
  have hsz := hl.2.2.1
  by_cases h1 : nvs.length ≤ 1
  · have e : sort sortPrim this s = s := by
      simp [sort, hsz, h1]
    rw [e]
    refine ⟨nvs, hl, List.Perm.refl _, ?_, rfl, rfl, rfl⟩
    match nvs, h1 with
    | [], _ => simp
    | [_], _ => simp
    | _ :: _ :: _, h => simp at h
  · have hn := hl.nodes_eq
    rw [hn] at hperm hsorted
    have hlen : (sortPrim (cmp s) (nvs.map Prod.fst)).length = nvs.length := by
      rw [hperm.length_eq, List.length_map]
    have harr : sortPrim (cmp s) (walk s.next (s._size this) (s.next (s.head this))) =
        sortPrim (cmp s) (nvs.map Prod.fst) := by
      have hn2 := hn
      unfold nodes at hn2
      rw [hn2]
    have e := sort_eq sortPrim this s _ harr (by rw [hsz, hlen]) (by omega)
    obtain ⟨hl2, hpm, hfst⟩ := linkPath_isList hl hperm
    obtain ⟨_, hsize, hdat, hlive⟩ :=
      linkPath_fields s (s.head this :: (sortPrim (cmp s) (nvs.map Prod.fst) ++ [s.head this]))
    rw [e]
    refine ⟨_, hl2, hpm, ?_, hdat, hlive, hsize⟩
    refine sorted_of_cmp (tag_data s _) ?_
    rw [hfst]; exact hsorted

/-- C6: assuming the call of the external sort primitive made by `sort()` returns a
permutation of the array it is given that is sorted under the supplied comparator, on a list
satisfying the invariant `sort()` leaves the same nodes, re-linked, with their elements (a
permutation keeping every multiplicity), the element sequence is ascending, `size()` is
unchanged, no node is allocated, freed or given another element, and a list of size `0` or
`1` is left unchanged. -/
theorem sort_spec [LinearOrder α] (sortPrim : (Nat → Nat → Bool) → List Nat → List Nat)
    (s : State α) (this : Nat) (nvs : List (Nat × α)) (hl : IsList s this nvs)
    (hperm : (sortPrim (cmp s) (nodes this s)).Perm (nodes this s))
    (hsorted : (sortPrim (cmp s) (nodes this s)).Pairwise (fun a b => cmp s b a = false)) :
    ∃ sorted : List (Nat × α), IsList (sort sortPrim this s) this sorted ∧
      sorted.Perm nvs ∧
      values this s = (nvs.map Prod.snd).map some ∧
      values this (sort sortPrim this s) = (sorted.map Prod.snd).map some ∧
      (sorted.map Prod.snd).Sorted (fun x y => x ≤ y) ∧
      (sorted.map Prod.snd).Perm (nvs.map Prod.snd) ∧
      size this (sort sortPrim this s) = size this s ∧
      (sort sortPrim this s).data = s.data ∧ (sort sortPrim this s).live = s.live ∧
      (size this s ≤ 1 → sort sortPrim this s = s) := by
  obtain ⟨sorted, hl2, hpm, hs, hdat, hlive, hsize⟩ := sort_isList sortPrim hl hperm hsorted
  refine ⟨sorted, hl2, hpm, hl.values_eq, hl2.values_eq, hs, hpm.map _, ?_, hdat, hlive, ?_⟩
  · simp only [size, hsize]
  · intro h1
    simp only [size] at h1
    simp [sort, h1]

/-- C6 at a concrete input: with insertion sort as the primitive, `[3, 1, 2]` becomes
`[1, 2, 3]`. -/
theorem sort_spec_witness :
    (exSort (cmp ex312) (nodes 1 ex312)).Perm (nodes 1 ex312) ∧
    (exSort (cmp ex312) (nodes 1 ex312)).Pairwise (fun a b => cmp ex312 b a = false) ∧
    values 1 (sort exSort 1 ex312) = [some 1, some 2, some 3] ∧
    ∃ sorted : List (Nat × Nat), IsList (sort exSort 1 ex312) 1 sorted ∧
      sorted.Perm [(11, 3), (12, 1), (13, 2)] ∧
      (sorted.map Prod.snd).Sorted (fun x y => x ≤ y) :=
  have h := sort_spec exSort ex312 1 [(11, 3), (12, 1), (13, 2)] (by decide) (by decide)
    (by decide)
  ⟨by decide, by decide, by decide, h.elim fun l h2 => ⟨l, h2.1, h2.2.1, h2.2.2.2.2.1⟩⟩

/-! ### `sort` followed by `unique` -/

theorem refUniqueAux_sorted [LinearOrder α] :
    ∀ (xs : List α) (k : α), (k :: xs).Sorted (fun x y => x ≤ y) →
      (k :: refUniqueAux k xs).Sorted (fun x y => x < y) ∧
      ∀ x, x ∈ k :: refUniqueAux k xs ↔ x ∈ k :: xs := by
  intro xs
  induction xs with
  | nil =>
    intro k _
    simp [refUniqueAux]
  | cons y ys ih =>
    intro k hs
    have hky : k ≤ y := List.rel_of_sorted_cons hs y (List.mem_cons_self _ _)
    by_cases hkyeq : k = y
    · subst hkyeq
      have hs2 : (k :: ys).Sorted (fun x y => x ≤ y) :=
        hs.sublist (List.Sublist.cons₂ _ (List.sublist_cons_self _ _))
      obtain ⟨h1, h2⟩ := ih k hs2
      simp only [refUniqueAux, beq_self_eq_true, if_true]
      refine ⟨h1, ?_⟩
      intro x
      rw [h2 x]
      simp
    · have hlt : k < y := lt_of_le_of_ne hky hkyeq
      obtain ⟨h1, h2⟩ := ih y hs.of_cons
      have hb : (k == y) = false := by simpa using hkyeq
      simp only [refUniqueAux, hb, Bool.false_eq_true, if_false]
      refine ⟨?_, ?_⟩
      · rw [List.sorted_cons]
        refine ⟨?_, h1⟩
        intro b hb
        have hb2 := (h2 b).1 hb
        rcases List.mem_cons.1 hb2 with e | e
        · rw [e]; exact hlt
        · exact lt_of_lt_of_le hlt (List.rel_of_sorted_cons hs.of_cons b e)
      · intro x
        simp only [List.mem_cons] at h2 ⊢
        rw [h2 x]

theorem refUnique_sorted [LinearOrder α] (xs : List α)
    (hs : xs.Sorted (fun x y => x ≤ y)) :
    (refUnique xs).Sorted (fun x y => x < y) ∧ ∀ x, x ∈ refUnique xs ↔ x ∈ xs := by
  cases xs with
  | nil => simp [refUnique]
  | cons k xs => exact refUniqueAux_sorted xs k hs

/-- C10: over a linearly ordered element type (whose `==` is equality), and assuming the
call of the external sort primitive returns a sorted permutation, `sort()` followed by
`unique()` leaves the list strictly ascending, so no two elements are equal, and holding
exactly the distinct values of the original list. -/
theorem sort_unique_spec [LinearOrder α]
    (sortPrim : (Nat → Nat → Bool) → List Nat → List Nat)
    (s : State α) (this : Nat) (nvs : List (Nat × α)) (fuel : Nat)
    (hl : IsList s this nvs)
    (hperm : (sortPrim (cmp s) (nodes this s)).Perm (nodes this s))
    (hsorted : (sortPrim (cmp s) (nodes this s)).Pairwise (fun a b => cmp s b a = false))
    (hf : nvs.length ≤ fuel) :
    ∃ (t : State α) (kept : List (Nat × α)),
      unique fuel this (sort sortPrim this s) = .ok t ∧ IsList t this kept ∧
      values this s = (nvs.map Prod.snd).map some ∧
      values this t = (kept.map Prod.snd).map some ∧
      (kept.map Prod.snd).Sorted (fun x y => x < y) ∧
      (kept.map Prod.snd).Nodup ∧
      (∀ x, x ∈ kept.map Prod.snd ↔ x ∈ nvs.map Prod.snd) := by
  obtain ⟨sorted, hl2, hpm, hs, _, _, _⟩ := sort_isList sortPrim hl hperm hsorted
  have hf2 : sorted.length ≤ fuel := by rw [hpm.length_eq]; exact hf
  obtain ⟨t, kept, ht, hlt, _, hmap⟩ := unique_isList hl2 hf2
  obtain ⟨h1, h2⟩ := refUnique_sorted _ hs
  rw [← hmap] at h1 h2
  refine ⟨t, kept, ht, hlt, hl.values_eq, hlt.values_eq, h1, h1.nodup, ?_⟩
  intro x
  rw [h2 x]
  exact (hpm.map Prod.snd).mem_iff

/-- C10 at a concrete input: with insertion sort as the primitive, `sort` then `unique`
turn `[1, 1, 2, 2, 2, 3, 1]` into `[1, 2, 3]`. -/
theorem sort_unique_spec_witness :
    (exSort (cmp exDup) (nodes 1 exDup)).Perm (nodes 1 exDup) ∧
    (exSort (cmp exDup) (nodes 1 exDup)).Pairwise (fun a b => cmp exDup b a = false) ∧
    (∃ t, unique 7 1 (sort exSort 1 exDup) = .ok t ∧
      values 1 t = [some 1, some 2, some 3]) ∧
    ∃ (t : State Nat) (kept : List (Nat × Nat)),
      unique 7 1 (sort exSort 1 exDup) = .ok t ∧
      (kept.map Prod.snd).Sorted (fun x y => x < y) ∧
      (∀ x, x ∈ kept.map Prod.snd ↔
        x ∈ [(1 : Nat), 1, 2, 2, 2, 3, 1]) :=
  have h := sort_unique_spec exSort exDup 1
    [(11, 1), (12, 1), (13, 2), (14, 2), (15, 2), (16, 3), (17, 1)] 7
    (by decide) (by decide) (by decide) (by decide)
  ⟨by decide, by decide, ⟨_, rfl, by decide⟩,
    h.elim fun t h2 => h2.elim fun kept h3 => ⟨t, kept, h3.1, h3.2.2.2.2.1, h3.2.2.2.2.2.2⟩⟩

/-! ### The reference merge -/

theorem refMerge_nil_right {β : Type} (lt : β → β → Bool) :
    ∀ xs : List β, refMerge lt xs [] = xs := by
  intro xs
  induction xs with
  | nil => rfl
  | cons x xs ih => simp [refMerge, refMergeAux, ih]

theorem refMerge_cons_cons {β : Type} (lt : β → β → Bool) (x y : β) (xs ys : List β) :
    refMerge lt (x :: xs) (y :: ys) =
      if lt y x then y :: refMerge lt (x :: xs) ys else x :: refMerge lt xs (y :: ys) := by
  simp only [refMerge, refMergeAux]

theorem refMerge_perm {β : Type} (lt : β → β → Bool) :
    ∀ xs ys : List β, (refMerge lt xs ys).Perm (xs ++ ys) := by
  intro xs
  induction xs with
  | nil => intro ys; exact List.Perm.refl _
  | cons x xs ihx =>
    intro ys
    induction ys with
    | nil => rw [refMerge_nil_right]; simp
    | cons y ys ihy =>
      rw [refMerge_cons_cons]
      split
      · refine (List.Perm.cons y ihy).trans ?_
        exact (@List.perm_middle _ y (x :: xs) ys).symm
      · exact List.Perm.cons x (ihx (y :: ys))

theorem refMerge_map [LT α] [DecidableRel (fun a b : α => a < b)] :
    ∀ l1 l2 : List (Nat × α),
      (refMerge ltp l1 l2).map Prod.snd = refMerge ltb (l1.map Prod.snd) (l2.map Prod.snd) := by
  intro l1
  induction l1 with
  | nil => intro l2; rfl
  | cons p l1 ihx =>
    intro l2
    induction l2 with
    | nil => simp [refMerge_nil_right]
    | cons q l2 ihy =>
      simp only [List.map_cons] at ihy ⊢
      rw [refMerge_cons_cons, refMerge_cons_cons]
      have e : ltp q p = ltb q.2 p.2 := rfl
      rw [e]
      split
      · simp only [List.map_cons, ihy]
      · simp only [List.map_cons]
        rw [ihx (q :: l2)]
        simp

theorem refMerge_sorted [LinearOrder α] :
    ∀ xs ys : List α, xs.Sorted (fun a b => a ≤ b) → ys.Sorted (fun a b => a ≤ b) →
      (refMerge ltb xs ys).Sorted (fun a b => a ≤ b) := by
  intro xs
  induction xs with
  | nil => intro ys _ hy; exact hy
  | cons x xs ihx =>
    intro ys
    induction ys with
    | nil => intro hx _; rw [refMerge_nil_right]; exact hx
    | cons y ys ihy =>
      intro hx hy
      rw [refMerge_cons_cons]
      by_cases hlt : y < x
      · have e : ltb y x = true := by simp [ltb, hlt]
        rw [e, if_pos rfl, List.sorted_cons]
        refine ⟨?_, ihy hx hy.of_cons⟩
        intro b hb
        have hb2 := (refMerge_perm ltb (x :: xs) ys).subset hb
        rcases List.mem_append.1 hb2 with h | h
        · rcases List.mem_cons.1 h with h | h
          · rw [h]; exact le_of_lt hlt
          · exact le_trans (le_of_lt hlt) (List.rel_of_sorted_cons hx b h)
        · exact List.rel_of_sorted_cons hy b h
      · have e : ltb y x = false := by simp [ltb, hlt]
        rw [e]
        simp only [Bool.false_eq_true, if_false]
        rw [List.sorted_cons]
        refine ⟨?_, ihx (y :: ys) hx.of_cons hy⟩
        intro b hb
        have hb2 := (refMerge_perm ltb xs (y :: ys)).subset hb
        have hxy : x ≤ y := not_lt.1 hlt
        rcases List.mem_append.1 hb2 with h | h
        · exact List.rel_of_sorted_cons hx b h
        · rcases List.mem_cons.1 h with h | h
          · rw [h]; exact hxy
          · exact le_trans hxy (List.rel_of_sorted_cons hy b h)

/-! ### `merge` -/

theorem IsList.prev_pos_mem {s : State α} {this pos : Nat} {l1 l2 : List (Nat × α)}
    (hl : IsList s this (l1 ++ l2))
    (hpos : (l2.map Prod.fst ++ [s.head this]).head? = some pos) :
    s.prev pos ∈ s.head this :: l1.map Prod.fst := by
  have hpath := (isList_iff.1 hl).1
  have e : s.head this :: (List.map Prod.fst (l1 ++ l2) ++ [s.head this]) =
      (s.head this :: l1.map Prod.fst) ++ (l2.map Prod.fst ++ [s.head this]) := by
    simp
  rw [e, List.chain'_append] at hpath
  have hne : s.head this :: l1.map Prod.fst ≠ [] := by simp
  have hlast : (s.head this :: l1.map Prod.fst).getLast? =
      some ((s.head this :: l1.map Prod.fst).getLast hne) := List.getLast?_eq_getLast _ hne
  have hlk := hpath.2.2 _ hlast _ hpos
  rw [hlk.2]
  exact List.getLast_mem hne

theorem IsList.mergeInv {s : State α} {this other : Nat} {mine theirs : List (Nat × α)}
    (hA : IsList s this mine) (hB : IsList s other theirs)
    (hsep : Separate s this other mine theirs) : MergeInv s this other mine theirs := by
  obtain ⟨hpath, hnd, hsz, hdata, hsent, hlv⟩ := isList_iff.1 hB
  refine ⟨hsep.1, hA, ?_, hnd, hsz, hdata, hsent, fun a ha => ⟨hlv a ha, hsep.2 a ha⟩⟩
  exact (hpath.imp (fun _ _ h => h.1)).tail

theorem next_chain_frame {s t : State α} {l : List Nat}
    (h : List.Chain' (fun x y => s.next x = y) l)
    (hn : ∀ x ∈ l.dropLast, t.next x = s.next x) :
    List.Chain' (fun x y => t.next x = y) l := by
  induction l with
  | nil => exact List.chain'_nil
  | cons x l ih =>
    cases l with
    | nil => exact List.chain'_singleton x
    | cons y l =>
      rw [List.chain'_cons] at h ⊢
      refine ⟨?_, ih h.2 ?_⟩
      · rw [hn x (by simp [List.dropLast])]; exact h.1
      · intro z hz
        exact hn z (by simp [List.dropLast]; right; exact hz)

@[simp] theorem setSize_head (s : State α) (l v : Nat) : (setSize s l v).head = s.head := rfl

@[simp] theorem setSize_next (s : State α) (l v : Nat) : (setSize s l v).next = s.next := rfl

@[simp] theorem setSize_prev (s : State α) (l v : Nat) : (setSize s l v).prev = s.prev := rfl

@[simp] theorem setSize_data (s : State α) (l v : Nat) : (setSize s l v).data = s.data := rfl

@[simp] theorem setSize_live (s : State α) (l v : Nat) : (setSize s l v).live = s.live := rfl

theorem splice_step {s : State α} {this other pos n : Nat} {y : α}
    {l1 l2 rest : List (Nat × α)}
    (hinv : MergeInv s this other (l1 ++ l2) ((n, y) :: rest))
    (hpos : (l2.map Prod.fst ++ [s.head this]).head? = some pos) :
    MergeInv (setSize (insertNode this pos n s) other
        (decr ((insertNode this pos n s)._size other))) this other
      (l1 ++ (n, y) :: l2) rest ∧
    (rest.map Prod.fst ++ [s.head other]).head? = some (s.next n) := by
  obtain ⟨hne, hA, hch, hnd, hsz, hdata, hsent, hlv⟩ := hinv
  have hn := hlv n (by simp)
  have hA1 : IsList (insertNode this pos n s) this (l1 ++ (n, y) :: l2) :=
    hA.insertNode hpos hn.2 (hdata (n, y) (List.mem_cons_self _ _)) hn.1.1 hn.1.2
  have hpp := hA.prev_pos_mem hpos
  have hpp2 : s.prev pos ∈ s.head this :: (l1 ++ l2).map Prod.fst := by
    simp only [List.map_append, List.mem_cons, List.mem_append] at hpp ⊢
    tauto
  have hno : other ≠ this := fun e => hne e.symm
  have hposn : pos ≠ n := by
    rintro rfl
    apply hn.2
    have hm := List.mem_of_mem_head? hpos
    simp only [List.map_append, List.mem_cons, List.mem_append, List.mem_singleton] at hm ⊢
    tauto
  simp only [List.map_cons, List.cons_append, List.chain'_cons'] at hch
  simp only [List.map_cons, List.nodup_cons, List.mem_cons, not_or] at hnd
  refine ⟨⟨hne, ?_, ?_, ?_, ?_, ?_, ?_, ?_⟩, ?_⟩
  · refine hA1.frame rfl ?_ ?_
    · simp only [setSize, if_neg hne]
    · intro a _; exact ⟨rfl, rfl, rfl, rfl⟩
  · simp only [setSize_head, setSize_next, insertNode_head]
    refine next_chain_frame hch.2 ?_
    intro x hx
    rw [List.dropLast_concat] at hx
    rw [insertNode_next this s rfl hposn]
    have e1 : x ≠ s.prev pos := by
      rintro rfl
      exact (hlv _ (by simp [hx])).2 hpp2
    have e2 : x ≠ n := by
      rintro rfl; exact hnd.2.1 hx
    rw [if_neg e1, if_neg e2]
  · simp only [setSize_head, insertNode_head, List.nodup_cons]
    exact ⟨hnd.1.2, hnd.2.2⟩
  · simp only [setSize, if_pos, insertNode_size, if_neg hno, hsz, List.length_cons, decr]
    simp
  · intro p hp
    simp only [setSize_data, insertNode_data]
    exact hdata p (List.mem_cons_of_mem _ hp)
  · simpa using hsent
  · intro a ha
    simp only [setSize_head, insertNode_head, setSize_live, insertNode_live] at ha ⊢
    have ha2 : a ∈ s.head other :: List.map Prod.fst ((n, y) :: rest) := by
      simp only [List.map_cons, List.mem_cons] at ha ⊢
      tauto
    have h3 := hlv a ha2
    refine ⟨h3.1, ?_⟩
    have han : a ≠ n := by
      rintro rfl
      rcases List.mem_cons.1 ha with e | e
      · exact hnd.1.1 e.symm
      · exact hnd.2.1 e
    have h4 := h3.2
    simp only [List.map_append, List.map_cons, List.mem_cons, List.mem_append, not_or] at h4 ⊢
    exact ⟨h4.1, h4.2.1, han, h4.2.2⟩
  · cases hh : (List.map Prod.fst rest ++ [s.head other]).head? with
    | none => simp at hh
    | some z => rw [hch.1 z hh]

theorem mergeLoop1_succ [LT α] [DecidableRel (fun a b : α => a < b)]
    (this other last1 last2 fuel first1 first2 : Nat) (s : State α) :
    mergeLoop1 this other last1 last2 (fuel + 1) first1 first2 s =
      if first1 ≠ last1 ∧ first2 ≠ last2 then
        match s.data first2, s.data first1 with
        | some y, some x =>
          if y < x then
            mergeLoop1 this other last1 last2 fuel first1 (s.next first2)
              (setSize (insertNode this first1 first2 s) other
                (decr ((insertNode this first1 first2 s)._size other)))
          else mergeLoop1 this other last1 last2 fuel (s.next first1) first2 s
        | _, _ => .error .null_deref
      else .ok (first2, s) := rfl

theorem mergeLoop2_succ (this other last2 fuel first2 : Nat) (s : State α) :
    mergeLoop2 this other last2 (fuel + 1) first2 s =
      if first2 ≠ last2 then
        mergeLoop2 this other last2 fuel (s.next first2)
          (setSize (insertNode this (s.head this) first2 s) other
            (decr ((insertNode this (s.head this) first2 s)._size other)))
      else .ok s := rfl

theorem mergeLoop1_spec [LT α] [DecidableRel (fun a b : α => a < b)] (this other : Nat) :
    ∀ (R1 R2 D : List (Nat × α)) (s : State α) (first1 first2 fuel : Nat),
      MergeInv s this other (D ++ R1) R2 →
      (R1.map Prod.fst ++ [s.head this]).head? = some first1 →
      (R2.map Prod.fst ++ [s.head other]).head? = some first2 →
      R1.length + R2.length + 1 ≤ fuel →
      ∃ (t : State α) (mine rest : List (Nat × α)) (f2 : Nat),
        mergeLoop1 this other (s.head this) (s.head other) fuel first1 first2 s = .ok (f2, t) ∧
        MergeInv t this other mine rest ∧
        (rest.map Prod.fst ++ [t.head other]).head? = some f2 ∧
        mine ++ rest = D ++ refMerge ltp R1 R2 ∧ rest.length ≤ R2.length ∧
        t.head = s.head ∧ t.data = s.data ∧ t.live = s.live := by
  intro R1
  induction R1 with
  | nil =>
    intro R2 D s first1 first2 fuel hinv h1 h2 hf
    obtain ⟨f, rfl⟩ : ∃ f, fuel = f + 1 := ⟨fuel - 1, by omega⟩
    simp only [List.map_nil, List.nil_append, List.head?_cons, Option.some.injEq] at h1
    refine ⟨s, D ++ [], R2, first2, ?_, hinv, h2, by simp [refMerge], le_refl _, rfl, rfl, rfl⟩
    rw [mergeLoop1_succ, h1]
    simp
  | cons p R1 ihx =>
    intro R2
    induction R2 with
    | nil =>
      intro D s first1 first2 fuel hinv h1 h2 hf
      obtain ⟨f, rfl⟩ : ∃ f, fuel = f + 1 := ⟨fuel - 1, by omega⟩
      simp only [List.map_nil, List.nil_append, List.head?_cons, Option.some.injEq] at h2
      refine ⟨s, D ++ p :: R1, [], first2, ?_, hinv, by simp [h2],
        by simp [refMerge_nil_right], le_refl _, rfl, rfl, rfl⟩
      rw [mergeLoop1_succ, h2]
      simp
    | cons q R2 ihy =>
      intro D s first1 first2 fuel hinv h1 h2 hf
      obtain ⟨c, x⟩ := p
      obtain ⟨n, y⟩ := q
      obtain ⟨f, rfl⟩ : ∃ f, fuel = f + 1 := ⟨fuel - 1, by omega⟩
      simp only [List.length_cons] at hf
      simp only [List.map_cons, List.cons_append, List.head?_cons, Option.some.injEq] at h1 h2
      subst h1 h2
      have hA := hinv.2.1
      have hc : c ≠ s.head this := hA.ne_head (by simp)
      have hn : n ≠ s.head other := by
        have hnd := hinv.2.2.2.1
        simp only [List.map_cons, List.nodup_cons, List.mem_cons, not_or] at hnd
        exact fun e => hnd.1.1 e.symm
      have hdc : s.data c = some x := hA.2.2.2.1 (c, x) (by simp)
      have hdn : s.data n = some y := hinv.2.2.2.2.2.1 (n, y) (by simp)
      rw [mergeLoop1_succ]
      simp only [ne_eq, hc, hn, not_false_eq_true, and_self, if_true, hdc, hdn]
      by_cases hlt : y < x
      · rw [if_pos hlt]
        have hpos : (((c, x) :: R1).map Prod.fst ++ [s.head this]).head? = some c := by simp
        obtain ⟨hinv2, hnx⟩ := splice_step hinv hpos
        have e : D ++ (n, y) :: (c, x) :: R1 = (D ++ [(n, y)]) ++ (c, x) :: R1 := by simp
        rw [e] at hinv2
        obtain ⟨t, mine, rest, f2, ht, hinv3, hf2, hmr, hlen, hhd⟩ :=
          ihy (D ++ [(n, y)]) _ c (s.next n) f hinv2 (by simp) hnx
            (by simp only [List.length_cons]; omega)
        refine ⟨t, mine, rest, f2, ht, hinv3, hf2, ?_, by simp only [List.length_cons]; omega,
          hhd⟩
        rw [hmr, refMerge_cons_cons]
        have e2 : ltp (n, y) (c, x) = true := by simp [ltp, hlt]
        rw [e2]; simp
      · rw [if_neg hlt]
        have hl2 : IsList s this (D ++ (c, x) :: R1) := hA
        have hnx := hl2.next_mid
        have e : D ++ (c, x) :: R1 = (D ++ [(c, x)]) ++ R1 := by simp
        rw [e] at hinv
        obtain ⟨t, mine, rest, f2, ht, hinv3, hf2, hmr, hlen, hhd⟩ :=
          ihx ((n, y) :: R2) (D ++ [(c, x)]) s (s.next c) n f hinv hnx (by simp)
            (by simp only [List.length_cons]; omega)
        refine ⟨t, mine, rest, f2, ht, hinv3, hf2, ?_, hlen, hhd⟩
        rw [hmr, refMerge_cons_cons]
        have e2 : ltp (n, y) (c, x) = false := by simp [ltp, hlt]
        rw [e2]; simp

theorem mergeLoop2_spec (this other : Nat) :
    ∀ (R2 mine : List (Nat × α)) (s : State α) (first2 fuel : Nat),
      MergeInv s this other mine R2 →
      (R2.map Prod.fst ++ [s.head other]).head? = some first2 →
      R2.length + 1 ≤ fuel →
      ∃ t : State α,
        mergeLoop2 this other (s.head other) fuel first2 s = .ok t ∧
        MergeInv t this other (mine ++ R2) [] ∧ t.head = s.head ∧ t.data = s.data ∧
        t.live = s.live := by
  intro R2
  induction R2 with
  | nil =>
    intro mine s first2 fuel hinv h2 hf
    obtain ⟨f, rfl⟩ : ∃ f, fuel = f + 1 := ⟨fuel - 1, by omega⟩
    simp only [List.map_nil, List.nil_append, List.head?_cons, Option.some.injEq] at h2
    refine ⟨s, ?_, by simpa using hinv, rfl, rfl, rfl⟩
    rw [mergeLoop2_succ, h2]
    simp
  | cons q R2 ih =>
    intro mine s first2 fuel hinv h2 hf
    obtain ⟨n, y⟩ := q
    obtain ⟨f, rfl⟩ : ∃ f, fuel = f + 1 := ⟨fuel - 1, by omega⟩
    simp only [List.length_cons] at hf
    simp only [List.map_cons, List.cons_append, List.head?_cons, Option.some.injEq] at h2
    subst h2
    have hn : n ≠ s.head other := by
      have hnd := hinv.2.2.2.1
      simp only [List.map_cons, List.nodup_cons, List.mem_cons, not_or] at hnd
      exact fun e => hnd.1.1 e.symm
    rw [mergeLoop2_succ, if_pos hn]
    have hinv1 : MergeInv s this other (mine ++ []) ((n, y) :: R2) := by simpa using hinv
    have hpos : ((([] : List (Nat × α))).map Prod.fst ++ [s.head this]).head? =
        some (s.head this) := by simp
    obtain ⟨hinv2, hnx⟩ := splice_step hinv1 hpos
    obtain ⟨t, ht, hinv3, hhd⟩ := ih (mine ++ [(n, y)]) _ (s.next n) f hinv2 hnx (by omega)
    refine ⟨t, ht, by simpa using hinv3, hhd⟩

theorem merge_finish {s : State α} {this other : Nat} {mine : List (Nat × α)}
    (hinv : MergeInv s this other mine []) :
    IsList (setPrev (setNext s (s.head other) (s.head other)) (s.head other) (s.head other))
      this mine ∧
    IsList (setPrev (setNext s (s.head other) (s.head other)) (s.head other) (s.head other))
      other [] ∧
    Separate (setPrev (setNext s (s.head other) (s.head other)) (s.head other) (s.head other))
      this other mine [] := by
  obtain ⟨hne, hA, _, _, hsz, _, hsent, hlv⟩ := hinv
  have hh := hlv (s.head other) (by simp)
  refine ⟨?_, ?_, hne, ?_⟩
  · refine hA.frame rfl rfl ?_
    intro a ha
    have hane : a ≠ s.head other := by
      rintro rfl; exact hh.2 ha
    simp [setPrev, setNext, hane]
  · refine isList_iff.2 ⟨?_, ?_, ?_, ?_, ?_, ?_⟩
    · simp [setPrev, setNext, Link]
    · simp
    · simpa using hsz
    · simp
    · simpa [setPrev, setNext] using hsent
    · intro a ha
      simp only [setPrev_head, setNext_head, List.map_nil, List.mem_singleton] at ha
      subst ha
      exact hh.1
  · intro a ha
    simp only [setPrev_head, setNext_head, List.map_nil, List.mem_singleton] at ha
    subst ha
    exact hh.2

theorem fast_isList {s t : State α} {this other : Nat} {B : List (Nat × α)}
    (hA : IsList s this []) (hB : IsList s other B) (hBne : B ≠ [])
    (hsep : Separate s this other [] B)
    (hhead : t.head = s.head) (hdata : t.data = s.data) (hlive : t.live = s.live)
    (hsize1 : t._size this = s._size other) (hsize2 : t._size other = 0)
    (hnext : ∀ x, t.next x =
      if x = s.head other then s.head other
      else if x = s.prev (s.head other) then s.head this
      else if x = s.head this then s.next (s.head other) else s.next x)
    (hprev : ∀ x, t.prev x =
      if x = s.head other then s.head other
      else if x = s.next (s.head other) then s.head this
      else if x = s.head this then s.prev (s.head other) else s.prev x) :
    IsList t this B ∧ IsList t other [] ∧ Separate t this other B [] := by
  obtain ⟨hpath, hnd, hsz, hdat, hsent, hlv⟩ := isList_iff.1 hB
  obtain ⟨_, _, _, _, hsentA, hlvA⟩ := isList_iff.1 hA
  have hne := hsep.1
  have hsep2 : ∀ a ∈ s.head other :: B.map Prod.fst, a ≠ s.head this := by
    intro a ha e
    exact hsep.2 a ha (by simp [e])
  have h21 : s.head other ≠ s.head this := hsep2 _ (List.mem_cons_self _ _)
  have hnsne : B.map Prod.fst ≠ [] := by simpa using hBne
  obtain ⟨b0, Y, hY⟩ := List.exists_cons_of_ne_nil hnsne
  have hX := (List.dropLast_append_getLast hnsne).symm
  have hb0 : s.next (s.head other) = b0 := by
    have h0 := hB.next_head
    rw [hY] at h0
    simpa using h0.symm
  have hbl : s.prev (s.head other) = (B.map Prod.fst).getLast hnsne := by
    have h0 := hB.prev_head hBne
    have hlen : B.length - 1 < (B.map Prod.fst).length := by
      rw [List.length_map]; exact Nat.sub_lt (List.length_pos.2 hBne) Nat.one_pos
    rw [List.getElem?_eq_getElem hlen] at h0
    rw [List.getLast_eq_getElem]
    simp only [List.length_map]
    exact (Option.some.inj h0).symm
  have hb0m : b0 ∈ B.map Prod.fst := by rw [hY]; exact List.mem_cons_self _ _
  have hblm : (B.map Prod.fst).getLast hnsne ∈ B.map Prod.fst := List.getLast_mem hnsne
  have hb0h2 : b0 ≠ s.head other := by
    rintro rfl; exact (List.nodup_cons.1 hnd).1 hb0m
  have hblh2 : (B.map Prod.fst).getLast hnsne ≠ s.head other := by
    intro e; rw [e] at hblm; exact (List.nodup_cons.1 hnd).1 hblm
  have hb0h1 : b0 ≠ s.head this := hsep2 _ (List.mem_cons_of_mem _ hb0m)
  have hblh1 : (B.map Prod.fst).getLast hnsne ≠ s.head this :=
    hsep2 _ (List.mem_cons_of_mem _ hblm)
  rw [hb0, hbl] at hnext hprev
  have hndB : (B.map Prod.fst).Nodup := (List.nodup_cons.1 hnd).2
  refine ⟨isList_iff.2 ⟨?_, ?_, ?_, ?_, ?_, ?_⟩, isList_iff.2 ⟨?_, ?_, ?_, ?_, ?_, ?_⟩, hne, ?_⟩
  · rw [hhead, List.chain'_cons', List.chain'_append]
    refine ⟨?_, ?_, List.chain'_singleton _, ?_⟩
    · intro z hz
      have hz2 : z = b0 := by
        rw [hY] at hz; simpa using hz.symm
      subst hz2
      constructor
      · rw [hnext, if_neg (Ne.symm h21), if_neg (Ne.symm hblh1), if_pos rfl]
      · rw [hprev, if_neg hb0h2, if_pos rfl]
    · have hin : List.Chain' (Link s) (B.map Prod.fst) := by
        have h1 := hpath.tail
        simp only [List.tail_cons] at h1
        exact h1.left_of_append
      refine path_frame hin ?_ ?_
      · intro x hx
        have hxm := List.mem_of_mem_dropLast hx
        have e1 : x ≠ s.head other := by
          rintro rfl; exact (List.nodup_cons.1 hnd).1 hxm
        have e2 : x ≠ (B.map Prod.fst).getLast hnsne := by
          intro e
          have hnd2 := hndB
          rw [hX] at hnd2
          exact (List.nodup_append.1 hnd2).2.2 hx (List.mem_singleton.2 e)
        have e3 : x ≠ s.head this := hsep2 _ (List.mem_cons_of_mem _ hxm)
        rw [hnext, if_neg e1, if_neg e2, if_neg e3]
      · intro x hx
        have hxm := List.mem_of_mem_tail hx
        have e1 : x ≠ s.head other := by
          rintro rfl; exact (List.nodup_cons.1 hnd).1 hxm
        have e2 : x ≠ b0 := by
          rintro rfl
          have hnd2 := hndB
          rw [hY] at hnd2 hx
          exact (List.nodup_cons.1 hnd2).1 hx
        have e3 : x ≠ s.head this := hsep2 _ (List.mem_cons_of_mem _ hxm)
        rw [hprev, if_neg e1, if_neg e2, if_neg e3]
    · intro x hx y hy
      have hx2 : x = (B.map Prod.fst).getLast hnsne := by
        rw [List.getLast?_eq_getLast _ hnsne] at hx
        simpa using hx.symm
      have hy2 : y = s.head this := by simpa using hy.symm
      subst hx2 hy2
      constructor
      · rw [hnext, if_neg hblh2, if_pos rfl]
      · rw [hprev, if_neg (Ne.symm h21), if_neg (Ne.symm hb0h1), if_pos rfl]
  · rw [hhead, List.nodup_cons]
    exact ⟨fun hm => hsep2 _ (List.mem_cons_of_mem _ hm) rfl, hndB⟩
  · rw [hsize1, hsz]
  · intro p hp; rw [hdata]; exact hdat p hp
  · rw [hhead, hdata]; exact hsentA
  · intro a ha
    rw [hhead] at ha
    rw [hlive]
    rcases List.mem_cons.1 ha with e | e
    · rw [e]; exact hlvA _ (List.mem_cons_self _ _)
    · exact hlv a (List.mem_cons_of_mem _ e)
  · rw [hhead]
    simp only [List.map_nil, List.nil_append, List.chain'_cons, Link, hnext, hprev, if_true,
      List.chain'_singleton, and_self]
  · simp
  · rw [hsize2]; rfl
  · simp
  · rw [hhead, hdata]; exact hsent
  · intro a ha
    rw [hhead] at ha
    simp only [List.map_nil, List.mem_singleton] at ha
    subst ha
    rw [hlive]; exact hlv _ (List.mem_cons_self _ _)
  · intro a ha
    rw [hhead] at ha ⊢
    simp only [List.map_nil, List.mem_singleton] at ha
    subst ha
    intro hm
    rcases List.mem_cons.1 hm with e | e
    · exact h21 e
    · exact (List.nodup_cons.1 hnd).1 e

theorem merge_isList [LT α] [DecidableRel (fun a b : α => a < b)] {s : State α}
    {this other : Nat} {A B : List (Nat × α)} {fuel : Nat}
    (hA : IsList s this A) (hB : IsList s other B) (hsep : Separate s this other A B)
    (hf : A.length + B.length + 1 ≤ fuel) :
    ∃ t : State α, merge fuel this other s = .ok t ∧
      IsList t this (refMerge ltp A B) ∧ IsList t other [] ∧
      Separate t this other (refMerge ltp A B) [] ∧
      t.head = s.head ∧ t.data = s.data ∧ t.live = s.live := by
  have hne := hsep.1
  have hszA := hA.2.2.1
  have hszB := hB.2.2.1
  by_cases hBe : B = []
  · subst hBe
    refine ⟨s, ?_, ?_, hB, ?_, rfl, rfl, rfl⟩
    · simp [merge, hne, empty, hszB]
    · rw [refMerge_nil_right]; exact hA
    · rw [refMerge_nil_right]; exact hsep
  · have hBlen : B.length ≠ 0 := fun e => hBe (List.length_eq_zero.1 e)
    by_cases hAe : A = []
    · subst hAe
      have hb0m : s.next (s.head other) ∈ s.head other :: B.map Prod.fst := by
        have h0 := List.getElem?_mem hB.next_head
        simp only [List.mem_cons, List.mem_append, List.mem_singleton] at h0 ⊢
        tauto
      have hb0 : s.head this ≠ s.next (s.head other) := by
        intro e
        exact hsep.2 _ hb0m (by simp [e])
      unfold merge
      rw [if_neg hne]
      simp only [empty, hszB, hszA, beq_iff_eq, hBlen, List.length_nil, if_false, if_true]
      refine ⟨_, rfl, ?_⟩
      have h3 : ∀ t : State α, t.head = s.head → t.data = s.data → t.live = s.live →
          (IsList t this B ∧ IsList t other [] ∧ Separate t this other B []) →
          IsList t this (refMerge ltp [] B) ∧ IsList t other [] ∧
          Separate t this other (refMerge ltp [] B) [] ∧
          t.head = s.head ∧ t.data = s.data ∧ t.live = s.live :=
        fun t h1 h2 h3 h4 => ⟨h4.1, h4.2.1, h4.2.2, h1, h2, h3⟩
      refine h3 _ rfl rfl rfl ?_
      refine fast_isList hA hB hBe hsep rfl rfl rfl ?_ ?_ ?_ ?_
      · simp [setSize, setNext, setPrev, hne]
      · simp [setSize, setNext, setPrev, hne]
      · intro x
        simp only [setSize, setNext, setPrev, if_true, if_neg hb0]
      · intro x
        simp only [setSize, setNext, setPrev, if_true, if_neg hb0]
    · have hAlen : A.length ≠ 0 := fun e => hAe (List.length_eq_zero.1 e)
      have hinv : MergeInv s this other ([] ++ A) B := hA.mergeInv hB hsep
      have h1 : (A.map Prod.fst ++ [s.head this]).head? = some (s.next (s.head this)) := by
        rw [List.head?_eq_getElem?]; exact hA.next_head
      have h2 : (B.map Prod.fst ++ [s.head other]).head? = some (s.next (s.head other)) := by
        rw [List.head?_eq_getElem?]; exact hB.next_head
      obtain ⟨t, mine, rest, f2, ht, hinv2, hf2, hmr, hlen, hhd, hdt, hlv⟩ :=
        mergeLoop1_spec this other A B [] s _ _ fuel hinv h1 h2 hf
      have hf3 : rest.length + 1 ≤ fuel := by omega
      obtain ⟨u, hu, hinv3, hhd2, hdt2, hlv2⟩ :=
        mergeLoop2_spec this other rest mine t f2 fuel hinv2 hf2 hf3
      rw [hhd] at hu
      rw [hmr, List.nil_append] at hinv3
      obtain ⟨g1, g2, g3⟩ := merge_finish hinv3
      refine ⟨_, ?_, g1, g2, g3, ?_, ?_, ?_⟩
      · unfold merge
        rw [if_neg hne]
        simp only [empty, hszB, hszA, beq_iff_eq, hBlen, hAlen, if_false, ht, hu]
        rfl
      · simp only [setPrev_head, setNext_head]; rw [hhd2, hhd]
      · show u.data = s.data
        rw [hdt2, hdt]
      · show u.live = s.live
        rw [hlv2, hlv]

/-- C5: for two distinct lists `A` and `B` of one heap, each satisfying the invariant and
ascending, `A.merge(B)` (given a loop budget of at least `A.size() + B.size() + 1` steps)
returns; afterwards the element sequence of `A` is ascending and a permutation of the old
sequence of `A` followed by that of `B`, `A.size()` is the sum of the old sizes, and `B` is
empty with its sentinel self-looped; no node is allocated, freed or given another element. -/
theorem merge_spec [LinearOrder α] (s : State α) (this other : Nat)
    (A B : List (Nat × α)) (fuel : Nat)
    (hA : IsList s this A) (hB : IsList s other B) (hsep : Separate s this other A B)
    (hsA : (A.map Prod.snd).Sorted (fun x y => x ≤ y))
    (hsB : (B.map Prod.snd).Sorted (fun x y => x ≤ y))
    (hf : A.length + B.length + 1 ≤ fuel) :
    ∃ (t : State α) (M : List (Nat × α)),
      merge fuel this other s = .ok t ∧ IsList t this M ∧ IsList t other [] ∧
      M.Perm (A ++ B) ∧
      values this t = (M.map Prod.snd).map some ∧
      (M.map Prod.snd).Sorted (fun x y => x ≤ y) ∧
      (M.map Prod.snd).Perm (A.map Prod.snd ++ B.map Prod.snd) ∧
      size this t = size this s + size other s ∧
      size other t = 0 ∧ values other t = [] ∧
      t.next (t.head other) = t.head other ∧ t.prev (t.head other) = t.head other ∧
      t.data = s.data ∧ t.live = s.live := by
  obtain ⟨t, ht, hlA, hlB, _, _, hdt, hlv⟩ := merge_isList hA hB hsep hf
  have hperm := refMerge_perm ltp A B
  refine ⟨t, refMerge ltp A B, ht, hlA, hlB, hperm, hlA.values_eq, ?_, ?_, ?_, ?_, ?_, ?_, ?_,
    hdt, hlv⟩
  · rw [refMerge_map]; exact refMerge_sorted _ _ hsA hsB
  · have h1 := hperm.map Prod.snd
    rwa [List.map_append] at h1
  · simp only [size]
    rw [hlA.2.2.1, hA.2.2.1, hB.2.2.1, hperm.length_eq, List.length_append]
  · simp only [size]; rw [hlB.2.2.1]; rfl
  · rw [hlB.values_eq]; rfl
  · have hp := (isList_iff.1 hlB).1
    simp only [List.map_nil, List.nil_append, List.chain'_cons, Link] at hp
    exact hp.1.1
  · have hp := (isList_iff.1 hlB).1
    simp only [List.map_nil, List.nil_append, List.chain'_cons, Link] at hp
    exact hp.1.2

/-- C5 at the input of the specification: `A = [1, 3, 5]`, `B = [2, 4, 6]` yields
`A = [1, 2, 3, 4, 5, 6]` and `B = []`. -/
theorem merge_spec_witness :
    values 1 exAB = [some 1, some 3, some 5] ∧ values 2 exAB = [some 2, some 4, some 6] ∧
    (∃ t, merge 7 1 2 exAB = .ok t ∧
      values 1 t = [some 1, some 2, some 3, some 4, some 5, some 6] ∧ values 2 t = []) ∧
    ∃ (t : State Nat) (M : List (Nat × Nat)), merge 7 1 2 exAB = .ok t ∧
      (M.map Prod.snd).Sorted (fun x y => x ≤ y) ∧
      (M.map Prod.snd).Perm [1, 3, 5, 2, 4, 6] ∧ size 1 t = 6 ∧ size 2 t = 0 :=
  have h := merge_spec exAB 1 2 [(11, 1), (12, 3), (13, 5)] [(21, 2), (22, 4), (23, 6)] 7
    (by decide) (by decide) (by decide) (by decide) (by decide) (by decide)
  ⟨by decide, by decide, ⟨_, rfl, by decide, by decide⟩,
    h.elim fun t h2 => h2.elim fun M h3 =>
      ⟨t, M, h3.1, h3.2.2.2.2.2.1, h3.2.2.2.2.2.2.1, h3.2.2.2.2.2.2.2.1,
        h3.2.2.2.2.2.2.2.2.1⟩⟩

/-! ### Self-merge -/

/-- C12: self-merge is a no-op: for every heap and every list object `A`, whatever its
contents, `A.merge(A)` returns at once and leaves the heap, hence the element sequence,
`size()` and every link of `A`, exactly as it was. -/
theorem merge_self [LT α] [DecidableRel (fun a b : α => a < b)] (fuel : Nat) (this : Nat)
    (s : State α) :
    merge fuel this this s = .ok s ∧
    (∀ t, merge fuel this this s = .ok t →
      values this t = values this s ∧ size this t = size this s ∧
      t.next = s.next ∧ t.prev = s.prev) := by
  have h : merge fuel this this s = .ok s := by simp [merge]
  refine ⟨h, ?_⟩
  intro t ht
  rw [h] at ht
  cases ht
  exact ⟨rfl, rfl, rfl, rfl⟩

/-! ### Failure of `insert` -/

/-- C14, as the code has it: `insert(pos, v)` throws `invalid_iterator` exactly when the
container stored in `pos` is not this list (the referenced node is not examined); a
throwing call leaves the heap, hence every container's element sequence and size,
unchanged. -/
theorem insert_fails (s : State α) (this : Nat) (pos : iterator) (v : α) (a : Nat) :
    ((insert this pos v a s).1 = .error .invalid_iterator ↔ pos.container ≠ this) ∧
    (∀ e, (insert this pos v a s).1 = .error e → (insert this pos v a s).2 = s) := by
  unfold insert
  by_cases h : pos.container = this
  · simp [h]
  · simp [h]

/-- C14 fails as stated: the handle `B.begin()` taken before `A.merge(B)` references node
`21`, which the merge moves into the ring of `A`; afterwards `B.insert` with that handle does
not throw, and it changes the element sequence of `A` and the size counter of `B`. -/
theorem insert_stale_handle :
    begin 2 exAB = ⟨21, 2⟩ ∧ merge 7 1 2 exAB = .ok exMerged ∧
    (21 : Nat) ∉ exMerged.head 2 :: nodes 2 exMerged ∧
    (insert 2 ⟨21, 2⟩ 9 30 exMerged).1 = .ok ⟨30, 2⟩ ∧
    values 1 exMerged = [some 1, some 2, some 3, some 4, some 5, some 6] ∧
    values 1 (insert 2 ⟨21, 2⟩ 9 30 exMerged).2 =
      [some 1, some 9, some 2, some 3, some 4, some 5] ∧
    size 2 exMerged = 0 ∧ size 2 (insert 2 ⟨21, 2⟩ 9 30 exMerged).2 = 1 :=
  ⟨rfl, rfl, by decide, rfl, by decide, by decide, by decide, by decide⟩

/-! ### `front`, `back`, `pop_front`, `pop_back` -/

theorem front_eq {s : State α} {this : Nat} {nvs : List (Nat × α)} (hl : IsList s this nvs) :
    front this s =
      (match (nvs.map Prod.snd).head? with
        | some x => .ok x
        | none => .error .container_is_empty, s) := by
  have hsz := hl.2.2.1
  cases nvs with
  | nil => simp [front, empty, hsz]
  | cons p rest =>
    have hnh := hl.next_head
    simp only [List.map_cons, List.cons_append, List.getElem?_cons_zero,
      Option.some.injEq] at hnh
    have hd := hl.2.2.2.1 p (List.mem_cons_self _ _)
    simp [front, empty, hsz, ← hnh, hd]

theorem back_eq {s : State α} {this : Nat} {nvs : List (Nat × α)} (hl : IsList s this nvs) :
    back this s =
      (match (nvs.map Prod.snd).getLast? with
        | some x => .ok x
        | none => .error .container_is_empty, s) := by
  have hsz := hl.2.2.1
  rcases List.eq_nil_or_concat nvs with rfl | ⟨L, p, rfl⟩
  · simp [back, empty, hsz]
  · rw [List.concat_eq_append] at hl hsz ⊢
    have hph := hl.prev_head (by simp)
    have hd := hl.2.2.2.1 p (by simp)
    simp only [List.map_append, List.map_cons, List.map_nil, List.length_append,
      List.length_singleton, Nat.add_sub_cancel] at hph
    rw [List.getElem?_append_right (by simp)] at hph
    simp only [List.length_map, Nat.sub_self, List.getElem?_cons_zero, Option.some.injEq] at hph
    simp [back, empty, hsz, ← hph, hd]

theorem pop_front_eq {s : State α} {this : Nat} {nvs : List (Nat × α)}
    (hl : IsList s this nvs) (hne : nvs ≠ []) :
    (pop_front this s).1 = .ok () ∧ IsList (pop_front this s).2 this nvs.tail := by
  have hsz := hl.2.2.1
  have hlen : nvs.length ≠ 0 := fun e => hne (List.length_eq_zero.1 e)
  have hp : (nvs.map Prod.fst)[0]? = some (begin this s).current := by
    have h0 := hl.next_head
    rw [List.getElem?_append_left (by rw [List.length_map]; omega)] at h0
    exact h0
  obtain ⟨hr, hl2, _⟩ := erase_isList 0 hl rfl hp
  rw [List.eraseIdx_zero] at hl2
  simp only [pop_front, empty, hsz, beq_iff_eq, hlen, if_false, hr]
  exact ⟨rfl, hl2⟩

theorem pop_back_eq {s : State α} {this : Nat} {nvs : List (Nat × α)}
    (hl : IsList s this nvs) (hne : nvs ≠ []) :
    (pop_back this s).1 = .ok () ∧ IsList (pop_back this s).2 this nvs.dropLast := by
  have hsz := hl.2.2.1
  have hlen : nvs.length ≠ 0 := fun e => hne (List.length_eq_zero.1 e)
  have hp := hl.prev_head hne
  have hpos : (⟨s.prev (s.head this), this⟩ : iterator).container = this := rfl
  obtain ⟨hr, hl2, _⟩ := erase_isList (nvs.length - 1) hl hpos hp
  rw [← List.dropLast_eq_eraseIdx (by omega)] at hl2
  simp only [pop_back, empty, hsz, beq_iff_eq, hlen, if_false, hr]
  exact ⟨rfl, hl2⟩

/-- C15: on a list satisfying the invariant with element sequence `xs`, `front()` and
`back()` throw `container_is_empty` iff `size()` is `0`, otherwise return the first,
respectively last, element of `xs`, and leave the heap unchanged; `pop_front()` and
`pop_back()` throw `container_is_empty` iff `size()` is `0` and otherwise remove exactly the
first, respectively last, element. -/
theorem front_back_pop (s : State α) (this : Nat) (nvs : List (Nat × α))
    (hl : IsList s this nvs) :
    ((front this s).1 = .error .container_is_empty ↔ size this s = 0) ∧
    ((back this s).1 = .error .container_is_empty ↔ size this s = 0) ∧
    (∀ x, (nvs.map Prod.snd).head? = some x → (front this s).1 = .ok x) ∧
    (∀ x, (nvs.map Prod.snd).getLast? = some x → (back this s).1 = .ok x) ∧
    (front this s).2 = s ∧ (back this s).2 = s ∧
    ((pop_front this s).1 = .error .container_is_empty ↔ size this s = 0) ∧
    ((pop_back this s).1 = .error .container_is_empty ↔ size this s = 0) ∧
    (size this s ≠ 0 →
      (pop_front this s).1 = .ok () ∧ IsList (pop_front this s).2 this nvs.tail ∧
      values this (pop_front this s).2 = ((nvs.map Prod.snd).tail).map some ∧
      (pop_back this s).1 = .ok () ∧ IsList (pop_back this s).2 this nvs.dropLast ∧
      values this (pop_back this s).2 = ((nvs.map Prod.snd).dropLast).map some) := by
  have hsz := hl.2.2.1
  have hf := front_eq hl
  have hb := back_eq hl
  by_cases hne : nvs = []
  · subst hne
    have h0 : s._size this = 0 := hsz
    simp [hf, hb, size, h0, pop_front, pop_back, empty]
  · have hlen : nvs.length ≠ 0 := fun e => hne (List.length_eq_zero.1 e)
    have hs0 : size this s ≠ 0 := by simp only [size]; rw [hsz]; exact hlen
    obtain ⟨hpf, hlf⟩ := pop_front_eq hl hne
    obtain ⟨hpb, hlb⟩ := pop_back_eq hl hne
    obtain ⟨p, rest, rfl⟩ := List.exists_cons_of_ne_nil hne
    have hlast : ∃ y, (List.map Prod.snd (p :: rest)).getLast? = some y := by
      rw [List.getLast?_eq_getLast _ (by simp)]; exact ⟨_, rfl⟩
    obtain ⟨y, hy⟩ := hlast
    rw [hy] at hb
    refine ⟨?_, ?_, ?_, ?_, ?_, ?_, ?_, ?_, ?_⟩
    · rw [hf]; simp [hs0]
    · rw [hb]; simp [hs0]
    · intro x hx; rw [hf, hx]
    · intro x hx
      rw [hy] at hx
      rw [hb, ← Option.some.inj hx]
    · rw [hf]
    · rw [hb]
    · rw [hpf]; simp [hs0]
    · rw [hpb]; simp [hs0]
    · intro _
      refine ⟨hpf, hlf, ?_, hpb, hlb, ?_⟩
      · rw [hlf.values_eq, List.map_tail]
      · rw [hlb.values_eq, List.map_dropLast]

/-- C15 at a concrete input: on `[3, 1, 2]`, `front()` is `3`, `back()` is `2`,
`pop_front()` leaves `[1, 2]` and `pop_back()` leaves `[3, 1]`; on the empty list `front()`
throws `container_is_empty`. -/
theorem front_back_pop_witness :
    IsList ex312 1 [(11, 3), (12, 1), (13, 2)] ∧
    (front 1 ex312).1 = .ok 3 ∧ (back 1 ex312).1 = .ok 2 ∧
    values 1 (pop_front 1 ex312).2 = [some 1, some 2] ∧
    values 1 (pop_back 1 ex312).2 = [some 3, some 1] ∧
    (front 1 exEmpty).1 = .error .container_is_empty :=
  have h := front_back_pop ex312 1 [(11, 3), (12, 1), (13, 2)] (by decide)
  have h0 := front_back_pop exEmpty 1 [] (by decide)
  ⟨by decide, h.2.2.1 3 rfl, h.2.2.2.1 2 rfl, (h.2.2.2.2.2.2.2.2 (by decide)).2.2.1,
    (h.2.2.2.2.2.2.2.2 (by decide)).2.2.2.2.2, h0.1.2 (by decide)⟩

/-! ### `push_back` then `pop_front` -/

/-- C16: for every value `v`, on an empty list `push_back(v)` succeeds and gives a
single-element container, and `pop_front()` then succeeds and returns the list to the empty
state: `size()` is `0`, the sentinel is self-looped and `begin() == end()`. -/
theorem push_pop_empty (s : State α) (this : Nat) (v : α) (a : Nat)
    (hl : IsList s this []) (ha : Fresh s a) :
    (push_back this v a s).1 = .ok () ∧
    IsList (push_back this v a s).2 this [(a, v)] ∧
    size this (push_back this v a s).2 = 1 ∧
    (pop_front this (push_back this v a s).2).1 = .ok () ∧
    IsList (pop_front this (push_back this v a s).2).2 this [] ∧
    size this (pop_front this (push_back this v a s).2).2 = 0 ∧
    values this (pop_front this (push_back this v a s).2).2 = [] ∧
    (pop_front this (push_back this v a s).2).2.next
        ((pop_front this (push_back this v a s).2).2.head this) =
      (pop_front this (push_back this v a s).2).2.head this ∧
    (pop_front this (push_back this v a s).2).2.prev
        ((pop_front this (push_back this v a s).2).2.head this) =
      (pop_front this (push_back this v a s).2).2.head this ∧
    iterEq (begin this (pop_front this (push_back this v a s).2).2)
      (end_ this (pop_front this (push_back this v a s).2).2) = true := by
  have hp : (([] : List (Nat × α)).map Prod.fst ++ [s.head this])[0]? =
      some (end_ this s).current := rfl
  obtain ⟨hr, hl1⟩ := insert_isList 0 v hl rfl hp ha
  have hl1b : IsList (push_back this v a s).2 this [(a, v)] := by
    simp only [push_back, hr]; exact hl1
  have hpb : (push_back this v a s).1 = .ok () := by
    simp only [push_back, hr]; rfl
  obtain ⟨hpf, hl2⟩ := pop_front_eq hl1b (by simp)
  have hl3 : IsList (pop_front this (push_back this v a s).2).2 this [] := hl2
  have hpath := (isList_iff.1 hl3).1
  simp only [List.map_nil, List.nil_append, List.chain'_cons, Link] at hpath
  refine ⟨hpb, hl1b, ?_, hpf, hl3, ?_, ?_, hpath.1.1, hpath.1.2, ?_⟩
  · simp only [size]; rw [hl1b.2.2.1]; rfl
  · simp only [size]; rw [hl3.2.2.1]; rfl
  · rw [hl3.values_eq]; rfl
  · simp only [iterEq, begin, end_, hpath.1.1, beq_self_eq_true]

/-- C16 at a concrete input: `push_back(7)` then `pop_front()` on a fresh list. -/
theorem push_pop_empty_witness :
    IsList exEmpty 1 [] ∧ Fresh exEmpty 11 ∧
    size 1 (pop_front 1 (push_back 1 7 11 exEmpty).2).2 = 0 ∧
    iterEq (begin 1 (pop_front 1 (push_back 1 7 11 exEmpty).2).2)
      (end_ 1 (pop_front 1 (push_back 1 7 11 exEmpty).2).2) = true :=
  have h := push_pop_empty exEmpty 1 7 11 (by decide) (by decide)
  ⟨by decide, by decide, h.2.2.2.2.2.1, h.2.2.2.2.2.2.2.2.2⟩

/-! ### Position handles on a list satisfying the invariant -/

theorem chain_succ {R : Nat → Nat → Prop} :
    ∀ {l : List Nat}, List.Chain' R l → ∀ {x : Nat}, x ∈ l.dropLast → ∃ y ∈ l.tail, R x y := by
  intro l
  induction l with
  | nil => intro _ x hx; simp at hx
  | cons a l ih =>
    cases l with
    | nil => intro _ x hx; simp at hx
    | cons b rest =>
      intro h x hx
      rw [List.chain'_cons] at h
      simp only [List.dropLast_cons₂, List.mem_cons] at hx
      rcases hx with rfl | hx
      · exact ⟨b, by simp, h.1⟩
      · obtain ⟨y, hy, hr⟩ := ih h.2 hx
        exact ⟨y, by simp only [List.tail_cons] at hy ⊢; exact List.mem_cons_of_mem _ hy, hr⟩

theorem chain_pred {R : Nat → Nat → Prop} :
    ∀ {l : List Nat}, List.Chain' R l → ∀ {y : Nat}, y ∈ l.tail → ∃ x ∈ l.dropLast, R x y := by
  intro l
  induction l with
  | nil => intro _ y hy; simp at hy
  | cons a l ih =>
    cases l with
    | nil => intro _ y hy; simp at hy
    | cons b rest =>
      intro h y hy
      rw [List.chain'_cons] at h
      simp only [List.tail_cons, List.mem_cons] at hy
      rcases hy with rfl | hy
      · exact ⟨a, by simp, h.1⟩
      · obtain ⟨x, hx, hr⟩ := ih h.2 (by simpa using hy)
        exact ⟨x, by simp only [List.dropLast_cons₂]; exact List.mem_cons_of_mem _ hx, hr⟩

theorem IsList.succ_mem {s : State α} {this x : Nat} {nvs : List (Nat × α)}
    (hl : IsList s this nvs) (hx : x ∈ s.head this :: nvs.map Prod.fst) :
    s.next x ∈ s.head this :: nvs.map Prod.fst ∧ s.prev (s.next x) = x := by
  have hpath := (isList_iff.1 hl).1
  have hx2 : x ∈ (s.head this :: (nvs.map Prod.fst ++ [s.head this])).dropLast := by
    rw [← List.cons_append, List.dropLast_concat]; exact hx
  obtain ⟨y, hy, hlk⟩ := chain_succ hpath hx2
  rw [hlk.1]
  refine ⟨?_, hlk.2⟩
  simp only [List.tail_cons, List.mem_append, List.mem_singleton, List.mem_cons] at hy ⊢
  tauto

theorem IsList.pred_mem {s : State α} {this y : Nat} {nvs : List (Nat × α)}
    (hl : IsList s this nvs) (hy : y ∈ s.head this :: nvs.map Prod.fst) :
    s.prev y ∈ s.head this :: nvs.map Prod.fst ∧ s.next (s.prev y) = y := by
  have hpath := (isList_iff.1 hl).1
  have hy2 : y ∈ (s.head this :: (nvs.map Prod.fst ++ [s.head this])).tail := by
    simp only [List.tail_cons, List.mem_append, List.mem_singleton, List.mem_cons] at hy ⊢
    tauto
  obtain ⟨x, hx, hlk⟩ := chain_pred hpath hy2
  rw [hlk.2]
  refine ⟨?_, hlk.1⟩
  rw [← List.cons_append, List.dropLast_concat] at hx
  exact hx

theorem IsList.next_index {s : State α} {this c : Nat} {nvs : List (Nat × α)}
    (hl : IsList s this nvs) {i : Nat} (hi : (nvs.map Prod.fst)[i]? = some c) :
    (nvs.map Prod.fst ++ [s.head this])[i + 1]? = some (s.next c) := by
  have hpos : (⟨c, this⟩ : iterator).container = this := rfl
  exact (erase_isList i hl hpos hi).2.2

theorem IsList.prev_index {s : State α} {this c : Nat} {nvs : List (Nat × α)}
    (hl : IsList s this nvs) {i : Nat}
    (hi : (nvs.map Prod.fst ++ [s.head this])[i + 1]? = some c) :
    (nvs.map Prod.fst)[i]? = some (s.prev c) := by
  have hlt : i + 1 < (nvs.map Prod.fst ++ [s.head this]).length :=
    (List.getElem?_eq_some.1 hi).1
  have hlt2 : i < (nvs.map Prod.fst).length := by
    simp only [List.length_append, List.length_singleton] at hlt; omega
  have hx : (nvs.map Prod.fst)[i]? = some ((nvs.map Prod.fst)[i]) :=
    List.getElem?_eq_getElem hlt2
  have hn := hl.next_index hx
  rw [hi] at hn
  have hc : c = s.next ((nvs.map Prod.fst)[i]) := Option.some.inj hn
  have hm : (nvs.map Prod.fst)[i] ∈ s.head this :: nvs.map Prod.fst :=
    List.mem_cons_of_mem _ (List.getElem_mem _)
  rw [hx, hc, (hl.succ_mem hm).2]

theorem IsList.prev_eq_head_iff {s : State α} {this c : Nat} {nvs : List (Nat × α)}
    (hl : IsList s this nvs) (hc : c ∈ s.head this :: nvs.map Prod.fst) :
    s.prev c = s.head this ↔ c = s.next (s.head this) := by
  constructor
  · intro h
    have h2 := (hl.pred_mem hc).2
    rw [h] at h2
    exact h2.symm
  · intro h
    have h2 := (hl.succ_mem (List.mem_cons_self _ _)).2
    rw [h]; exact h2

/-- C13: for a handle `⟨c, L⟩` of a list `L` (a non-null object) satisfying the invariant,
whose node `c` is in the ring of `L`: dereference throws `invalid_iterator` iff `c` is the
sentinel and otherwise returns the element of `c`; increment throws iff `c` is the sentinel
and otherwise moves to the successor of `c`; decrement throws iff the predecessor of `c` is
the sentinel, which is the case exactly at `begin()` (also of an empty list), and otherwise
moves to the predecessor, so that decrementing `end()` of a non-empty list reaches the tail;
a throwing call leaves the handle unchanged; a default-constructed handle fails all three.
The operators of `const_iterator` are the same definitions. -/
theorem handle_ops (s : State α) (this : Nat) (nvs : List (Nat × α)) (c : Nat)
    (hl : IsList s this nvs) (h0 : this ≠ 0) (hc : c ∈ s.head this :: nvs.map Prod.fst) :
    (dereference ⟨c, this⟩ s = .error .invalid_iterator ↔ c = s.head this) ∧
    (∀ x, (c, x) ∈ nvs → dereference ⟨c, this⟩ s = .ok x) ∧
    ((increment ⟨c, this⟩ s).1 = .error .invalid_iterator ↔ c = s.head this) ∧
    (c ≠ s.head this → increment ⟨c, this⟩ s = (.ok (), ⟨s.next c, this⟩)) ∧
    (∀ i : Nat, (nvs.map Prod.fst)[i]? = some c →
      (nvs.map Prod.fst ++ [s.head this])[i + 1]? = some (s.next c)) ∧
    ((decrement ⟨c, this⟩ s).1 = .error .invalid_iterator ↔ s.prev c = s.head this) ∧
    (s.prev c = s.head this ↔ c = (begin this s).current) ∧
    (s.prev c ≠ s.head this → decrement ⟨c, this⟩ s = (.ok (), ⟨s.prev c, this⟩)) ∧
    (∀ i : Nat, (nvs.map Prod.fst ++ [s.head this])[i + 1]? = some c →
      (nvs.map Prod.fst)[i]? = some (s.prev c)) ∧
    (∀ e, (increment ⟨c, this⟩ s).1 = .error e → (increment ⟨c, this⟩ s).2 = ⟨c, this⟩) ∧
    (∀ e, (decrement ⟨c, this⟩ s).1 = .error e → (decrement ⟨c, this⟩ s).2 = ⟨c, this⟩) ∧
    (∀ c2 : const_iterator, increment c2 s = increment (iterator.mk c2.current c2.container) s ∧
      decrement c2 s = decrement (iterator.mk c2.current c2.container) s ∧
      dereference c2 s = dereference (iterator.mk c2.current c2.container) s) ∧
    dereference defaultIterator s = .error .invalid_iterator ∧
    increment defaultIterator s = (.error .invalid_iterator, defaultIterator) ∧
    decrement defaultIterator s = (.error .invalid_iterator, defaultIterator) := by
  have hc0 : c ≠ 0 := (hl.2.2.2.2.2 c hc).2
  refine ⟨?_, ?_, ?_, ?_, ?_, ?_, ?_, ?_, ?_, ?_, ?_, ?_, ?_, ?_, ?_⟩
  · by_cases hch : c = s.head this
    · simp [dereference, hch]
    · have hm : c ∈ nvs.map Prod.fst := by
        rcases List.mem_cons.1 hc with e | e
        · exact absurd e hch
        · exact e
      obtain ⟨p, hp, rfl⟩ := List.mem_map.1 hm
      have hd := hl.2.2.2.1 p hp
      simp [dereference, hch, hc0, h0, hd]
  · intro x hx
    have hch : c ≠ s.head this := hl.ne_head (List.mem_map_of_mem Prod.fst hx)
    have hd := hl.2.2.2.1 (c, x) hx
    simp only at hd
    simp [dereference, hch, hc0, h0, hd]
  · by_cases hch : c = s.head this
    · simp [increment, hch]
    · simp [increment, hch, hc0, h0]
  · intro hch
    simp [increment, hch, hc0, h0]
  · intro i hi
    exact hl.next_index hi
  · by_cases hch : s.prev c = s.head this
    · simp [decrement, hch]
    · simp [decrement, hch, hc0, h0]
  · exact hl.prev_eq_head_iff hc
  · intro hch
    simp [decrement, hch, hc0, h0]
  · intro i hi
    exact hl.prev_index hi
  · intro e he
    unfold increment at he ⊢
    split at he
    · next hcond => rw [if_pos hcond]
    · exact Except.noConfusion he
  · intro e he
    unfold decrement at he ⊢
    split at he
    · next hcond => rw [if_pos hcond]
    · exact Except.noConfusion he
  · intro c2
    exact ⟨rfl, rfl, rfl⟩
  · simp [dereference, defaultIterator]
  · simp [increment, defaultIterator]
  · simp [decrement, defaultIterator]

/-- C13 at concrete inputs on `[3, 1, 2]` (sentinel `10`, nodes `11, 12, 13`):
dereferencing `end()` throws and dereferencing the head gives `3`; incrementing the tail
reaches `end()`; decrementing `end()` reaches the tail; decrementing `begin()` throws. -/
theorem handle_ops_witness :
    IsList ex312 1 [(11, 3), (12, 1), (13, 2)] ∧
    dereference ⟨10, 1⟩ ex312 = .error .invalid_iterator ∧
    dereference ⟨11, 1⟩ ex312 = .ok 3 ∧
    increment ⟨13, 1⟩ ex312 = (.ok (), ⟨10, 1⟩) ∧
    decrement ⟨10, 1⟩ ex312 = (.ok (), ⟨13, 1⟩) ∧
    (decrement ⟨11, 1⟩ ex312).1 = .error .invalid_iterator :=
  have hs := handle_ops ex312 1 [(11, 3), (12, 1), (13, 2)] 10 (by decide) (by decide)
    (by decide)
  have hb := handle_ops ex312 1 [(11, 3), (12, 1), (13, 2)] 11 (by decide) (by decide)
    (by decide)
  have ht := handle_ops ex312 1 [(11, 3), (12, 1), (13, 2)] 13 (by decide) (by decide)
    (by decide)
  ⟨by decide, hs.1.2 rfl, hb.2.1 3 (by decide), ht.2.2.2.1 (by decide),
    hs.2.2.2.2.2.2.2.1 (by decide), hb.2.2.2.2.2.1.2 rfl⟩

/-- C20: on a list `L` (a non-null object) satisfying the invariant, for a handle `⟨c, L⟩`
whose node `c` is in the ring: if `c` is an element node then `++` followed by `--` both
succeed and return the handle to `c` (through `end()` when `c` is the tail); if the
predecessor of `c` is not the sentinel then `--` followed by `++` both succeed and return
the handle to `c`. -/
theorem incr_decr_inverse (s : State α) (this : Nat) (nvs : List (Nat × α)) (c : Nat)
    (hl : IsList s this nvs) (h0 : this ≠ 0) (hc : c ∈ s.head this :: nvs.map Prod.fst) :
    (c ≠ s.head this →
      (increment ⟨c, this⟩ s).1 = .ok () ∧
      decrement (increment ⟨c, this⟩ s).2 s = (.ok (), ⟨c, this⟩)) ∧
    (s.prev c ≠ s.head this →
      (decrement ⟨c, this⟩ s).1 = .ok () ∧
      increment (decrement ⟨c, this⟩ s).2 s = (.ok (), ⟨c, this⟩)) := by
  have hc0 : c ≠ 0 := (hl.2.2.2.2.2 c hc).2
  obtain ⟨hsm, hsp⟩ := hl.succ_mem hc
  obtain ⟨hpm, hpn⟩ := hl.pred_mem hc
  have hn0 : s.next c ≠ 0 := (hl.2.2.2.2.2 _ hsm).2
  have hp0 : s.prev c ≠ 0 := (hl.2.2.2.2.2 _ hpm).2
  constructor
  · intro hch
    have e : increment ⟨c, this⟩ s = (.ok (), ⟨s.next c, this⟩) := by
      simp [increment, hch, hc0, h0]
    rw [e]
    refine ⟨rfl, ?_⟩
    simp [decrement, hn0, h0, hsp, hch]
  · intro hch
    have e : decrement ⟨c, this⟩ s = (.ok (), ⟨s.prev c, this⟩) := by
      simp [decrement, hch, hc0, h0]
    rw [e]
    refine ⟨rfl, ?_⟩
    simp [increment, hp0, h0, hpn, hch]

/-- C20 at concrete inputs on `[3, 1, 2]`: from the tail `13`, `++` then `--` passes
through `end()` and returns to `13`; from `end()`, `--` then `++` returns to `end()`. -/
theorem incr_decr_inverse_witness :
    IsList ex312 1 [(11, 3), (12, 1), (13, 2)] ∧
    (increment ⟨13, 1⟩ ex312).2 = ⟨10, 1⟩ ∧
    decrement (increment ⟨13, 1⟩ ex312).2 ex312 = (.ok (), ⟨13, 1⟩) ∧
    increment (decrement ⟨10, 1⟩ ex312).2 ex312 = (.ok (), ⟨10, 1⟩) :=
  ⟨by decide, rfl,
    ((incr_decr_inverse ex312 1 [(11, 3), (12, 1), (13, 2)] 13 (by decide) (by decide)
      (by decide)).1 (by decide)).2,
    ((incr_decr_inverse ex312 1 [(11, 3), (12, 1), (13, 2)] 10 (by decide) (by decide)
      (by decide)).2 (by decide)).2⟩

/-! ### `merge` as a refinement of the reference merge -/

theorem refMerge_nil_left {β : Type} (lt : β → β → Bool) (ys : List β) :
    refMerge lt [] ys = ys := rfl

/-- C17: for two distinct lists `A` and `B` of one heap satisfying the invariant, with
element sequences `xs` and `ys`, sorted or not, `A.merge(B)` (given a loop budget of at
least `A.size() + B.size() + 1` steps) returns, the element sequence of `A` becomes the
reference two-pointer merge `m(xs, ys)`, and `B` is empty; `m` satisfies the three defining
equations; the fast path for an empty `A` and the early return for an empty `B` agree with
it. -/
theorem merge_refines [LT α] [DecidableRel (fun a b : α => a < b)] (s : State α)
    (this other : Nat) (A B : List (Nat × α)) (fuel : Nat)
    (hA : IsList s this A) (hB : IsList s other B) (hsep : Separate s this other A B)
    (hf : A.length + B.length + 1 ≤ fuel) :
    ∃ t : State α, merge fuel this other s = .ok t ∧
      values this s = (A.map Prod.snd).map some ∧
      values other s = (B.map Prod.snd).map some ∧
      values this t = (refMerge ltb (A.map Prod.snd) (B.map Prod.snd)).map some ∧
      values other t = [] ∧ size other t = 0 ∧
      (∀ xs : List α, refMerge ltb xs [] = xs) ∧
      (∀ ys : List α, refMerge ltb [] ys = ys) ∧
      (∀ (x y : α) (xs ys : List α), refMerge ltb (x :: xs) (y :: ys) =
        if y < x then y :: refMerge ltb (x :: xs) ys else x :: refMerge ltb xs (y :: ys)) ∧
      (A = [] → values this t = values other s) ∧
      (B = [] → t = s) := by
  obtain ⟨t, ht, hlA, hlB, _, _, _, _⟩ := merge_isList hA hB hsep hf
  have hne := hsep.1
  refine ⟨t, ht, hA.values_eq, hB.values_eq, ?_, ?_, ?_, refMerge_nil_right ltb,
    refMerge_nil_left ltb, ?_, ?_, ?_⟩
  · rw [hlA.values_eq, refMerge_map]
  · rw [hlB.values_eq]; rfl
  · simp only [size]; rw [hlB.2.2.1]; rfl
  · intro x y xs ys
    rw [refMerge_cons_cons]
    by_cases hlt : y < x
    · simp [ltb, hlt]
    · simp [ltb, hlt]
  · intro hAe
    subst hAe
    rw [hlA.values_eq, hB.values_eq]; rfl
  · intro hBe
    subst hBe
    have h0 : s._size other = 0 := hB.2.2.1
    have hm : merge fuel this other s = .ok s := by
      simp [merge, hne, empty, h0]
    rw [hm] at ht
    cases ht
    rfl

/-- C17 at a concrete unsorted input: `A = [3, 1, 2]`, `B = [2, 0]` yields
`A = [2, 0, 3, 1, 2]`, the reference merge of the two sequences, and `B = []`. -/
theorem merge_refines_witness :
    IsList exUnsorted 1 [(11, 3), (12, 1), (13, 2)] ∧ IsList exUnsorted 2 [(21, 2), (22, 0)] ∧
    ∃ t, merge 6 1 2 exUnsorted = .ok t ∧
      values 1 t = [some 2, some 0, some 3, some 1, some 2] ∧ values 2 t = [] :=
  have h := merge_refines exUnsorted 1 2 [(11, 3), (12, 1), (13, 2)] [(21, 2), (22, 0)] 6
    (by decide) (by decide) (by decide) (by decide)
  ⟨by decide, by decide, h.elim fun t h2 => ⟨t, h2.1, h2.2.2.2.1, h2.2.2.2.2.1⟩⟩

/-! ### The structural algorithms restore the invariant -/

theorem sort_ring [LT α] [DecidableRel (fun a b : α => a < b)]
    (sortPrim : (Nat → Nat → Bool) → List Nat → List Nat) {s : State α} {this : Nat}
    {nvs : List (Nat × α)} (hl : IsList s this nvs)
    (hperm : (sortPrim (cmp s) (nodes this s)).Perm (nodes this s)) :
    ∃ sorted : List (Nat × α), IsList (sort sortPrim this s) this sorted ∧
      sorted.Perm nvs ∧
      sort sortPrim this s =
        (if nvs.length ≤ 1 then s
         else linkPath s (s.head this ::
           (sortPrim (cmp s) (nvs.map Prod.fst) ++ [s.head this]))) := by
  have hsz := hl.2.2.1
  by_cases h1 : nvs.length ≤ 1
  · have e : sort sortPrim this s = s := by
      simp [sort, hsz, h1]
    rw [e, if_pos h1]
    exact ⟨nvs, hl, List.Perm.refl _, rfl⟩
  · have hn := hl.nodes_eq
    rw [hn] at hperm
    have hlen : (sortPrim (cmp s) (nvs.map Prod.fst)).length = nvs.length := by
      rw [hperm.length_eq, List.length_map]
    have harr : sortPrim (cmp s) (walk s.next (s._size this) (s.next (s.head this))) =
        sortPrim (cmp s) (nvs.map Prod.fst) := by
      have hn2 := hn
      unfold nodes at hn2
      rw [hn2]
    have e := sort_eq sortPrim this s _ harr (by rw [hsz, hlen]) (by omega)
    obtain ⟨hl2, hpm, _⟩ := linkPath_isList hl hperm
    rw [e, if_neg h1]
    exact ⟨_, hl2, hpm, rfl⟩

/-- C18: each structural algorithm restores the ring invariant.  For a list `A` satisfying
it: after `A.sort()` (the sort primitive returning a permutation of its array), after
`A.reverse()` and after `A.unique()` (given their loop budgets) `A` satisfies it again,
with `size()` the number of element nodes of its ring; and for a distinct list `B` of the
same heap satisfying it, after `A.merge(B)` both do, with `A.size()` the sum of the old
sizes and `B.size()` zero. -/
theorem algorithms_restore [LT α] [DecidableRel (fun a b : α => a < b)] [BEq α]
    (sortPrim : (Nat → Nat → Bool) → List Nat → List Nat)
    (s : State α) (this other : Nat) (A B : List (Nat × α)) (fuel : Nat)
    (hA : IsList s this A) (hf : A.length + B.length + 1 ≤ fuel) :
    ((sortPrim (cmp s) (nodes this s)).Perm (nodes this s) →
      RingInv (sort sortPrim this s) this ∧
      size this (sort sortPrim this s) = (nodes this (sort sortPrim this s)).length ∧
      size this (sort sortPrim this s) = size this s) ∧
    (∃ t : State α, reverse fuel this s = .ok t ∧ RingInv t this ∧
      size this t = (nodes this t).length ∧ size this t = size this s) ∧
    (∃ t : State α, unique fuel this s = .ok t ∧ RingInv t this ∧
      size this t = (nodes this t).length) ∧
    (IsList s other B → Separate s this other A B →
      ∃ t : State α, merge fuel this other s = .ok t ∧ RingInv t this ∧ RingInv t other ∧
        size this t = (nodes this t).length ∧ size other t = (nodes other t).length ∧
        size this t = size this s + size other s ∧ size other t = 0) := by
  have hszA := hA.2.2.1
  refine ⟨?_, ?_, ?_, ?_⟩
  · intro hperm
    obtain ⟨sorted, hl2, hpm, _⟩ := sort_ring sortPrim hA hperm
    refine ⟨⟨sorted, hl2⟩, hl2.observe.2.2.2.2.2.2.1, ?_⟩
    simp only [size]
    rw [hl2.2.2.1, hszA, hpm.length_eq]
  · have hf2 : A.length + 1 ≤ fuel := by omega
    obtain ⟨t, ht, hlt, _, _, _, hsize⟩ := reverse_isList hA hf2
    refine ⟨t, ht, ⟨_, hlt⟩, hlt.observe.2.2.2.2.2.2.1, ?_⟩
    simp only [size, hsize]
  · have hf2 : A.length ≤ fuel := by omega
    obtain ⟨t, kept, ht, hlt, _, _⟩ := unique_isList hA hf2
    exact ⟨t, ht, ⟨_, hlt⟩, hlt.observe.2.2.2.2.2.2.1⟩
  · intro hB hsep
    obtain ⟨t, ht, hlA, hlB, _, _, _, _⟩ := merge_isList hA hB hsep hf
    refine ⟨t, ht, ⟨_, hlA⟩, ⟨_, hlB⟩, hlA.observe.2.2.2.2.2.2.1,
      hlB.observe.2.2.2.2.2.2.1, ?_, ?_⟩
    · simp only [size]
      rw [hlA.2.2.1, hszA, hB.2.2.1, (refMerge_perm ltp A B).length_eq, List.length_append]
    · simp only [size]; rw [hlB.2.2.1]; rfl

/-- C18 at concrete inputs: `reverse` and `unique` on `[3, 1, 2]`, and `merge` of
`[1, 3, 5]` with `[2, 4, 6]`, leave lists satisfying the invariant. -/
theorem algorithms_restore_witness :
    IsList ex312 1 [(11, 3), (12, 1), (13, 2)] ∧
    (∃ t, reverse 4 1 ex312 = .ok t ∧ RingInv t 1) ∧
    (∃ t, unique 4 1 ex312 = .ok t ∧ RingInv t 1) ∧
    RingInv (sort exSort 1 ex312) 1 ∧
    (∃ t, merge 7 1 2 exAB = .ok t ∧ RingInv t 1 ∧ RingInv t 2 ∧ size 1 t = 6 ∧
      size 2 t = 0) :=
  have h := algorithms_restore exSort ex312 1 2 [(11, 3), (12, 1), (13, 2)] [] 4
    (by decide) (by decide)
  have h2 := algorithms_restore exSort exAB 1 2 [(11, 1), (12, 3), (13, 5)]
    [(21, 2), (22, 4), (23, 6)] 7 (by decide) (by decide)
  ⟨by decide, h.2.1.elim fun t ht => ⟨t, ht.1, ht.2.1⟩,
    h.2.2.1.elim fun t ht => ⟨t, ht.1, ht.2.1⟩, (h.1 (by decide)).1,
    (h2.2.2.2 (by decide) (by decide)).elim fun t ht =>
      ⟨t, ht.1, ht.2.1, ht.2.2.1, ht.2.2.2.2.2.1, ht.2.2.2.2.2.2⟩⟩

/-! ### `merge` keeps the order within each input and favours `this` on ties -/

theorem refMerge_sublist_left {β : Type} (lt : β → β → Bool) :
    ∀ xs ys : List β, xs.Sublist (refMerge lt xs ys) := by
  intro xs
  induction xs with
  | nil => intro ys; exact List.nil_sublist _
  | cons x xs ihx =>
    intro ys
    induction ys with
    | nil => rw [refMerge_nil_right]
    | cons y ys ihy =>
      rw [refMerge_cons_cons]
      split
      · exact List.Sublist.cons _ ihy
      · exact List.Sublist.cons₂ _ (ihx (y :: ys))

theorem refMerge_sublist_right {β : Type} (lt : β → β → Bool) :
    ∀ xs ys : List β, ys.Sublist (refMerge lt xs ys) := by
  intro xs
  induction xs with
  | nil => intro ys; exact List.Sublist.refl _
  | cons x xs ihx =>
    intro ys
    induction ys with
    | nil => exact List.nil_sublist _
    | cons y ys ihy =>
      rw [refMerge_cons_cons]
      split
      · exact List.Sublist.cons₂ _ ihy
      · exact List.Sublist.cons _ (ihx (y :: ys))

theorem refMerge_tie [LinearOrder α] :
    ∀ A B : List (Nat × α), (A.map Prod.snd).Sorted (fun x y => x ≤ y) →
      ∀ pa ∈ A, ∀ pb ∈ B, ¬ pb.2 < pa.2 → [pa, pb].Sublist (refMerge ltp A B) := by
  intro A
  induction A with
  | nil => intro B _ pa hpa; simp at hpa
  | cons p A ihx =>
    intro B
    induction B with
    | nil => intro _ pa _ pb hpb; simp at hpb
    | cons q B ihy =>
      intro hs pa hpa pb hpb hle
      rw [refMerge_cons_cons]
      have hppa : p.2 ≤ pa.2 := by
        rcases List.mem_cons.1 hpa with e | e
        · rw [e]
        · simp only [List.map_cons] at hs
          exact List.rel_of_sorted_cons hs pa.2 (List.mem_map_of_mem Prod.snd e)
      by_cases hlt : q.2 < p.2
      · have e : ltp q p = true := by simp [ltp, hlt]
        rw [e, if_pos rfl]
        have hpb2 : pb ∈ B := by
          rcases List.mem_cons.1 hpb with e2 | e2
          · exfalso
            rw [e2] at hle
            exact hle (lt_of_lt_of_le hlt hppa)
          · exact e2
        exact List.Sublist.cons _ (ihy hs pa hpa pb hpb2 hle)
      · have e : ltp q p = false := by simp [ltp, hlt]
        rw [e]
        simp only [Bool.false_eq_true, if_false]
        rcases List.mem_cons.1 hpa with e2 | e2
        · rw [e2]
          refine List.Sublist.cons₂ _ ?_
          rw [List.singleton_sublist]
          exact (refMerge_perm ltp A (q :: B)).mem_iff.2 (List.mem_append_right _ hpb)
        · simp only [List.map_cons] at hs
          exact List.Sublist.cons _ (ihx (q :: B) hs.of_cons pa e2 pb hpb hle)

/-- C19: for two distinct lists `A` and `B` of one heap satisfying the invariant, sorted
or not, after `A.merge(B)` the old node sequence of `A` and that of `B`, hence their element
sequences, are subsequences of the new sequence of `A`; and when both are ascending, an
element node of old `A` precedes every element node of old `B` that it ties with. -/
theorem merge_stable [LinearOrder α] (s : State α) (this other : Nat)
    (A B : List (Nat × α)) (fuel : Nat)
    (hA : IsList s this A) (hB : IsList s other B) (hsep : Separate s this other A B)
    (hf : A.length + B.length + 1 ≤ fuel) :
    ∃ (t : State α) (M : List (Nat × α)),
      merge fuel this other s = .ok t ∧ IsList t this M ∧
      values this t = (M.map Prod.snd).map some ∧ (M.map Prod.fst).Nodup ∧
      A.Sublist M ∧ B.Sublist M ∧
      (A.map Prod.snd).Sublist (M.map Prod.snd) ∧
      (B.map Prod.snd).Sublist (M.map Prod.snd) ∧
      ((A.map Prod.snd).Sorted (fun x y => x ≤ y) →
        (B.map Prod.snd).Sorted (fun x y => x ≤ y) →
        ∀ pa ∈ A, ∀ pb ∈ B, ¬ pa.2 < pb.2 → ¬ pb.2 < pa.2 → [pa, pb].Sublist M) := by
  obtain ⟨t, ht, hlA, _, _, _, _, _⟩ := merge_isList hA hB hsep hf
  have h1 := refMerge_sublist_left ltp A B
  have h2 := refMerge_sublist_right ltp A B
  refine ⟨t, refMerge ltp A B, ht, hlA, hlA.values_eq, (List.nodup_cons.1 hlA.2.1).2,
    h1, h2, h1.map _, h2.map _, ?_⟩
  intro hsA _ pa hpa pb hpb _ hle
  exact refMerge_tie A B hsA pa hpa pb hpb hle

/-- C19 at a concrete input with a tie: `A = [1, 2]`, `B = [2, 3]`; the node `12` of `A`
holding `2` precedes the node `21` of `B` holding `2` in the merged list. -/
theorem merge_stable_witness :
    IsList exTie 1 [(11, 1), (12, 2)] ∧ IsList exTie 2 [(21, 2), (22, 3)] ∧
    (∃ t, merge 5 1 2 exTie = .ok t ∧ nodes 1 t = [11, 12, 21, 22] ∧
      values 1 t = [some 1, some 2, some 2, some 3]) ∧
    ∃ (t : State Nat) (M : List (Nat × Nat)), merge 5 1 2 exTie = .ok t ∧ IsList t 1 M ∧
      [((12 : Nat), (2 : Nat)), (21, 2)].Sublist M :=
  have h := merge_stable exTie 1 2 [(11, 1), (12, 2)] [(21, 2), (22, 3)] 5
    (by decide) (by decide) (by decide) (by decide)
  ⟨by decide, by decide, ⟨_, rfl, by decide, by decide⟩,
    h.elim fun t h2 => h2.elim fun M h3 =>
      ⟨t, M, h3.1, h3.2.1,
        h3.2.2.2.2.2.2.2.2 (by decide) (by decide) (12, 2) (by decide) (21, 2) (by decide)
          (by decide) (by decide)⟩⟩

/-! ### What a mutator of one list leaves untouched -/

theorem FrameOn.refl (R : List Nat) (this : Nat) (s : State α) : FrameOn R this s s :=
  ⟨fun _ _ => ⟨rfl, rfl⟩, fun _ _ => ⟨rfl, rfl, rfl, rfl⟩⟩

theorem FrameOn.trans {R : List Nat} {this : Nat} {s t u : State α}
    (h1 : FrameOn R this s t) (h2 : FrameOn R this t u) : FrameOn R this s u := by
  refine ⟨fun l hl => ?_, fun x hx => ?_⟩
  · rw [(h2.1 l hl).1, (h2.1 l hl).2]; exact h1.1 l hl
  · obtain ⟨a1, a2, a3, a4⟩ := h1.2 x hx
    obtain ⟨b1, b2, b3, b4⟩ := h2.2 x hx
    exact ⟨b1.trans a1, b2.trans a2, b3.trans a3, b4.trans a4⟩

theorem FrameOn.mono {R R2 : List Nat} {this : Nat} {s t : State α}
    (h : FrameOn R this s t) (hsub : ∀ x ∈ R, x ∈ R2) : FrameOn R2 this s t :=
  ⟨h.1, fun x hx => h.2 x (fun hm => hx (hsub x hm))⟩

theorem IsList.of_frame {s t : State α} {this other : Nat} {B : List (Nat × α)}
    {R : List Nat} (hB : IsList s other B) (hfr : FrameOn R this s t) (hne : other ≠ this)
    (hd : ∀ a ∈ s.head other :: B.map Prod.fst, a ∉ R) : IsList t other B :=
  hB.frame (hfr.1 other hne).1 (hfr.1 other hne).2 (fun a ha => hfr.2 a (hd a ha))

theorem Both.step {s t : State α} {this other : Nat} {A A2 B : List (Nat × α)}
    {R : List Nat} (hb : Both s this other A B) (hA2 : IsList t this A2)
    (hfr : FrameOn R this s t)
    (hd : ∀ a ∈ s.head other :: B.map Prod.fst, a ∉ R)
    (hsub : ∀ a ∈ t.head this :: A2.map Prod.fst, a ∈ R) : Both t this other A2 B := by
  obtain ⟨_, hB, hsep⟩ := hb
  have hne : other ≠ this := fun e => hsep.1 e.symm
  refine ⟨hA2, hB.of_frame hfr hne hd, hsep.1, ?_⟩
  intro a ha hm
  rw [(hfr.1 other hne).1] at ha
  exact hd a ha (hsub a hm)

theorem Both.other_not_mem {s : State α} {this other : Nat} {A B : List (Nat × α)}
    (hb : Both s this other A B) :
    ∀ a ∈ s.head other :: B.map Prod.fst, a ∉ s.head this :: A.map Prod.fst :=
  hb.2.2.2

theorem init_frame (this a : Nat) (s : State α) : FrameOn [a] this s (init this a s) := by
  refine ⟨fun l hl => ?_, fun x hx => ?_⟩
  · simp [init, setHead, setNext, setPrev, setSize, newSentinel, hl]
  · have hxa : x ≠ a := by simpa using hx
    simp [init, setHead, setNext, setPrev, setSize, newSentinel, hxa]

theorem insert_frame {s : State α} {this : Nat} {nvs : List (Nat × α)} {i : Nat}
    {pos : iterator} (v : α) {a : Nat} (hl : IsList s this nvs)
    (hp : (nvs.map Prod.fst ++ [s.head this])[i]? = some pos.current) (ha : Fresh s a) :
    FrameOn (a :: s.head this :: nvs.map Prod.fst) this s
      (insertNode this pos.current a (newNode s a v)) := by
  have hna := hl.not_mem_of_fresh ha
  have hpm : pos.current ∈ s.head this :: nvs.map Prod.fst := by
    have hm := List.getElem?_mem hp
    simp only [List.mem_cons, List.mem_append, List.mem_singleton, List.not_mem_nil,
      or_false] at hm ⊢
    tauto
  have hpa : pos.current ≠ a := by
    rintro e; rw [e] at hpm; exact hna hpm
  have hpp := (hl.pred_mem hpm).1
  have hpp2 : (newNode s a v).prev pos.current = s.prev pos.current := by
    simp [list.newNode, hpa]
  refine ⟨fun l hl2 => ?_, fun x hx => ?_⟩
  · rw [insertNode_size, if_neg hl2]
    exact ⟨rfl, rfl⟩
  · simp only [List.mem_cons, not_or] at hx
    have hxa : x ≠ a := hx.1
    have hxr : x ∉ s.head this :: nvs.map Prod.fst := by
      simp only [List.mem_cons, not_or]; exact hx.2
    have hxpp : x ≠ s.prev pos.current := by
      rintro rfl; exact hxr hpp
    have hxpos : x ≠ pos.current := by
      rintro rfl; exact hxr hpm
    refine ⟨?_, ?_, ?_, ?_⟩
    · rw [insertNode_next this (newNode s a v) hpp2 hpa, if_neg hxpp, if_neg hxa]
      simp [list.newNode, hxa]
    · rw [insertNode_prev this (newNode s a v) a hpp2, if_neg hxpos, if_neg hxa]
      simp [list.newNode, hxa]
    · simp [list.newNode, hxa]
    · simp [list.newNode, hxa]

theorem erase_frame {s : State α} {this x : Nat} {nvs : List (Nat × α)}
    (hl : IsList s this nvs) (hx : x ∈ s.head this :: nvs.map Prod.fst) :
    FrameOn (s.head this :: nvs.map Prod.fst) this s (deleteNode (eraseNode this x s) x) := by
  have hpm := (hl.pred_mem hx).1
  have hsm := (hl.succ_mem hx).1
  refine ⟨fun l hl2 => ?_, fun y hy => ?_⟩
  · simp only [list.deleteNode, eraseNode_head, true_and]
    rw [eraseNode_size, if_neg hl2]
  · have e1 : y ≠ s.prev x := by rintro rfl; exact hy hpm
    have e2 : y ≠ s.next x := by rintro rfl; exact hy hsm
    have e3 : y ≠ x := by rintro rfl; exact hy hx
    refine ⟨?_, ?_, ?_, ?_⟩
    · show (eraseNode this x s).next y = s.next y
      rw [eraseNode_next, if_neg e1]
    · show (eraseNode this x s).prev y = s.prev y
      rw [eraseNode_prev, if_neg e2]
    · simp [list.deleteNode, e3]
    · simp [list.deleteNode, e3]

theorem swapOn_frame (R : List Nat) (this : Nat) (s : State α) :
    FrameOn R this s (swapOn R s) := by
  refine ⟨fun _ _ => ⟨rfl, rfl⟩, fun x hx => ?_⟩
  simp [swapOn, hx]

theorem linkPath_frame (this h : Nat) (arr : List Nat) (s : State α) :
    FrameOn (h :: arr) this s (linkPath s (h :: (arr ++ [h]))) := by
  obtain ⟨hhead, hsize, hdat, hlive⟩ := linkPath_fields s (h :: (arr ++ [h]))
  refine ⟨fun _ _ => ⟨by rw [hhead], by rw [hsize]⟩, fun x hx => ?_⟩
  refine ⟨?_, ?_, by rw [hdat], by rw [hlive]⟩
  · apply linkPath_next
    rw [← List.cons_append, List.dropLast_concat]
    exact hx
  · apply linkPath_prev
    simp only [List.tail_cons, List.mem_append, List.mem_singleton, not_or]
    simp only [List.mem_cons, not_or] at hx
    exact ⟨hx.2, hx.1⟩

theorem uniqueLoop_frame [BEq α] (this : Nat) :
    ∀ (rest : List (Nat × α)) (s : State α) (done : List (Nat × α)) (curr : Nat) (x : α)
      (fuel : Nat) (t : State α),
      IsList s this (done ++ (curr, x) :: rest) → uniqueLoop this fuel curr s = .ok t →
      FrameOn (s.head this :: (done ++ (curr, x) :: rest).map Prod.fst) this s t := by
  intro rest
  induction rest with
  | nil =>
    intro s done curr x fuel t hl ht
    cases fuel with
    | zero => exact Except.noConfusion ht
    | succ f =>
      have hnx := hl.next_mid
      simp only [List.map_nil, List.nil_append, List.head?_cons, Option.some.injEq] at hnx
      simp only [uniqueLoop, ← hnx, ne_eq, not_true_eq_false, and_false, if_false,
        Except.ok.injEq] at ht
      subst ht
      exact FrameOn.refl _ _ _
  | cons p rest ih =>
    intro s done curr x fuel t hl ht
    obtain ⟨n, y⟩ := p
    cases fuel with
    | zero => exact Except.noConfusion ht
    | succ f =>
      have hnx := hl.next_mid
      simp only [List.map_cons, List.cons_append, List.head?_cons, Option.some.injEq] at hnx
      have hc : curr ≠ s.head this := hl.ne_head (by simp)
      have hn : n ≠ s.head this := hl.ne_head (by simp)
      have hdc : s.data curr = some x := hl.2.2.2.1 (curr, x) (by simp)
      have hdn : s.data n = some y := hl.2.2.2.1 (n, y) (by simp)
      have e : done ++ (curr, x) :: (n, y) :: rest =
          (done ++ [(curr, x)]) ++ (n, y) :: rest := by simp
      by_cases hxy : (x == y) = true
      · simp only [uniqueLoop, ← hnx, ne_eq, hc, hn, not_false_eq_true, and_self, if_true,
          hdc, hdn, hxy] at ht
        have hnm : n ∈ s.head this :: (done ++ (curr, x) :: (n, y) :: rest).map Prod.fst := by
          simp
        have hf1 := erase_frame hl hnm
        have hl2 : IsList (deleteNode (eraseNode this n s) n) this
            (done ++ (curr, x) :: rest) := by
          have hl1 := hl
          rw [e] at hl1
          have h2 := hl1.erase_delete
          simpa using h2
        have hf2 := ih _ done curr x f t hl2 ht
        refine hf1.trans (hf2.mono ?_)
        intro z hz
        simp only [list.deleteNode, eraseNode_head, List.map_append, List.map_cons,
          List.mem_cons, List.mem_append] at hz ⊢
        tauto
      · simp only [uniqueLoop, ← hnx, ne_eq, hc, hn, not_false_eq_true, and_self, if_true,
          hdc, hdn, hxy] at ht
        have hl1 := hl
        rw [e] at hl1
        have hf2 := ih s (done ++ [(curr, x)]) n y f t hl1 ht
        rw [← e] at hf2
        exact hf2

theorem uniqueLoop_head [BEq α] (this : Nat) :
    ∀ (fuel curr : Nat) (s t : State α), uniqueLoop this fuel curr s = .ok t →
      t.head = s.head := by
  intro fuel
  induction fuel with
  | zero => intro curr s t ht; exact Except.noConfusion ht
  | succ f ih =>
    intro curr s t ht
    simp only [uniqueLoop] at ht
    split at ht
    · split at ht
      · split at ht
        · have h1 := ih _ _ _ ht
          rw [h1]; rfl
        · exact ih _ _ _ ht
      · exact Except.noConfusion ht
    · simp only [Except.ok.injEq] at ht
      rw [ht]

theorem unique_head [BEq α] {s t : State α} {this fuel : Nat}
    (ht : unique fuel this s = .ok t) : t.head = s.head := by
  simp only [unique] at ht
  split at ht
  · simp only [Except.ok.injEq] at ht
    rw [ht]
  · exact uniqueLoop_head this _ _ _ _ ht

theorem unique_frame [BEq α] {s t : State α} {this : Nat} {nvs : List (Nat × α)}
    {fuel : Nat} (hl : IsList s this nvs) (ht : unique fuel this s = .ok t) :
    FrameOn (s.head this :: nvs.map Prod.fst) this s t := by
  have hsz := hl.2.2.1
  by_cases h1 : s._size this ≤ 1
  · simp only [unique, h1, if_true, Except.ok.injEq] at ht
    subst ht
    exact FrameOn.refl _ _ _
  · simp only [unique, h1, if_false] at ht
    cases nvs with
    | nil => simp [hsz] at h1
    | cons p rest =>
      obtain ⟨c, x⟩ := p
      have hnh := hl.next_head
      simp only [List.map_cons, List.cons_append, List.getElem?_cons_zero,
        Option.some.injEq] at hnh
      rw [← hnh] at ht
      have hl2 : IsList s this ([] ++ (c, x) :: rest) := hl
      exact uniqueLoop_frame this rest s [] c x fuel t hl2 ht

/-! ### `clear` -/

theorem clearLoop_spec (this : Nat) :
    ∀ (rest : List Nat) (s : State α) (first fuel : Nat),
      List.Chain' (fun x y => s.next x = y) (rest ++ [s.head this]) →
      s.head this ∉ rest → (rest ++ [s.head this]).head? = some first →
      rest.length + 1 ≤ fuel →
      ∃ t : State α, clearLoop this fuel first s = .ok t ∧
        t.head = s.head ∧ t.next = s.next ∧ t.prev = s.prev ∧ t._size = s._size ∧
        (∀ x, x ∉ rest → t.data x = s.data x ∧ t.live x = s.live x) ∧
        (∀ x, x ∈ rest → t.live x = false) := by
  intro rest
  induction rest with
  | nil =>
    intro s first fuel _ _ hfirst hf
    obtain ⟨f, rfl⟩ : ∃ f, fuel = f + 1 := ⟨fuel - 1, by omega⟩
    simp only [List.nil_append, List.head?_cons, Option.some.injEq] at hfirst
    refine ⟨s, ?_, rfl, rfl, rfl, rfl, fun _ _ => ⟨rfl, rfl⟩, fun x hx => ?_⟩
    · simp [clearLoop, hfirst]
    · simp at hx
  | cons r rest ih =>
    intro s first fuel hch hh hfirst hf
    obtain ⟨f, rfl⟩ : ∃ f, fuel = f + 1 := ⟨fuel - 1, by omega⟩
    simp only [List.length_cons] at hf
    simp only [List.cons_append, List.head?_cons, Option.some.injEq] at hfirst
    subst hfirst
    simp only [List.mem_cons, not_or] at hh
    have hr : r ≠ s.head this := fun e => hh.1 e.symm
    rw [List.cons_append, List.chain'_cons'] at hch
    have hnx : (rest ++ [s.head this]).head? = some (s.next r) := by
      cases hd : (rest ++ [s.head this]).head? with
      | none => simp at hd
      | some z => rw [hch.1 z hd]
    have hch2 : List.Chain' (fun x y => (deleteNode s r).next x = y)
        (rest ++ [(deleteNode s r).head this]) := hch.2
    obtain ⟨t, ht, h1, h2, h3, h4, h5, h6⟩ :=
      ih (deleteNode s r) (s.next r) f hch2 hh.2 hnx (by omega)
    refine ⟨t, ?_, h1, h2, h3, h4, ?_, ?_⟩
    · simp only [clearLoop, ne_eq, hr, not_false_eq_true, if_true]
      exact ht
    · intro x hx
      simp only [List.mem_cons, not_or] at hx
      obtain ⟨a1, a2⟩ := h5 x hx.2
      rw [a1, a2]
      simp [list.deleteNode, hx.1]
    · intro x hx
      by_cases hxr : x ∈ rest
      · exact h6 x hxr
      · have hxe : x = r := by
          rcases List.mem_cons.1 hx with e | e
          · exact e
          · exact absurd e hxr
        rw [(h5 x hxr).2, hxe]
        simp [list.deleteNode]

theorem clear_spec {s : State α} {this : Nat} {nvs : List (Nat × α)} {fuel : Nat}
    (hl : IsList s this nvs) (hf : nvs.length + 1 ≤ fuel) :
    ∃ t : State α, clear fuel this s = .ok t ∧ IsList t this [] ∧
      FrameOn (s.head this :: nvs.map Prod.fst) this s t ∧ t.head = s.head ∧
      (∀ x ∈ nvs.map Prod.fst, t.live x = false) := by
  obtain ⟨hpath, hnd, hsz, hdata, hsent, hlv⟩ := isList_iff.1 hl
  have hch : List.Chain' (fun x y => s.next x = y) (nvs.map Prod.fst ++ [s.head this]) :=
    (hpath.imp (fun _ _ h => h.1)).tail
  have hh : s.head this ∉ nvs.map Prod.fst := (List.nodup_cons.1 hnd).1
  have hfirst : (nvs.map Prod.fst ++ [s.head this]).head? = some (s.next (s.head this)) := by
    rw [List.head?_eq_getElem?]; exact hl.next_head
  obtain ⟨u, hu, h1, h2, h3, h4, h5, h6⟩ :=
    clearLoop_spec this (nvs.map Prod.fst) s _ fuel hch hh hfirst (by simpa using hf)
  have hhu : u.head this = s.head this := by rw [h1]
  have hhl := hlv (s.head this) (List.mem_cons_self _ _)
  have hcl : clear fuel this s = .ok (setSize (setPrev (setNext u (u.head this) (u.head this))
      (u.head this) (u.head this)) this 0) := by
    simp only [clear, hu]
    rfl
  refine ⟨_, hcl, ?_, ?_, ?_, ?_⟩
  · refine isList_iff.2 ⟨?_, ?_, ?_, ?_, ?_, ?_⟩
    · simp [setSize, setPrev, setNext, Link]
    · simp
    · simp [setSize]
    · simp
    · simp only [setSize_data, setSize_head, setPrev_head, setNext_head]
      show u.data (u.head this) = none
      rw [hhu, (h5 _ hh).1]; exact hsent
    · intro a ha
      simp only [setSize_head, setPrev_head, setNext_head, List.map_nil,
        List.mem_singleton] at ha
      subst ha
      show u.live (u.head this) = true ∧ u.head this ≠ 0
      rw [hhu, (h5 _ hh).2]; exact hhl
  · refine ⟨fun l hl2 => ?_, fun x hx => ?_⟩
    · simp only [setSize, setPrev, setNext, if_neg hl2, h1, h4, and_self]
    · simp only [List.mem_cons, not_or] at hx
      have hxh : x ≠ u.head this := by rw [hhu]; exact hx.1
      obtain ⟨a1, a2⟩ := h5 x hx.2
      simp only [setSize, setPrev, setNext, if_neg hxh, h2, h3, a1, a2, and_self]
  · simp only [setSize_head, setPrev_head, setNext_head]; exact h1
  · intro x hx
    exact h6 x hx

/-! ### Mutators of one list and a second list of the same heap -/

theorem toOption_eq_some {β : Type} {e : Except Err β} {t : β}
    (h : e.toOption = some t) : e = .ok t := by
  cases e with
  | error _ => exact Option.noConfusion h
  | ok b =>
    simp only [Except.toOption, Option.some.injEq] at h
    rw [h]

theorem Both.fresh_not_other {s : State α} {this other a : Nat} {A B : List (Nat × α)}
    (hb : Both s this other A B) (ha : Fresh s a) :
    ∀ x ∈ s.head other :: B.map Prod.fst, x ∉ a :: s.head this :: A.map Prod.fst := by
  intro x hx hm
  rcases List.mem_cons.1 hm with e | e
  · rw [e] at hx
    exact hb.2.1.not_mem_of_fresh ha hx
  · exact hb.2.2.2 x hx e

theorem insert_both {s t : State α} {this other : Nat} {A B : List (Nat × α)}
    {pos : iterator} {v : α} {a : Nat}
    (hb : Both s this other A B) (hown : Owns this s pos) (hfresh : Fresh s a)
    (h : okState (insert this pos v a s) = some t) :
    ∃ A2 : List (Nat × α), Both t this other A2 B := by
  have hl := hb.1
  obtain ⟨hc, hmem⟩ := hown
  obtain ⟨_, ht⟩ := okState_eq_some h
  rw [hl.nodes_eq] at hmem
  have hmem2 : pos.current ∈ A.map Prod.fst ++ [s.head this] := by
    simp only [List.mem_cons, List.mem_append, List.mem_singleton] at hmem ⊢
    tauto
  obtain ⟨i, hi⟩ := mem_index hmem2
  obtain ⟨hr, hl2⟩ := insert_isList i v hl hc hi hfresh
  rw [hr] at ht
  simp only at ht
  subst ht
  refine ⟨_, hb.step hl2 (insert_frame v hl hi hfresh) (hb.fresh_not_other hfresh) ?_⟩
  intro x hx
  simp only [insertNode_head, List.map_append, List.map_cons, List.mem_cons,
    List.mem_append] at hx
  have e : (newNode s a v).head this = s.head this := rfl
  rw [e] at hx
  simp only [List.mem_cons]
  rcases hx with hx | hx | hx | hx
  · exact Or.inr (Or.inl hx)
  · exact Or.inr (Or.inr (List.mem_map.2 (by
      obtain ⟨p, hp, rfl⟩ := List.mem_map.1 hx
      exact ⟨p, List.mem_of_mem_take hp, rfl⟩)))
  · exact Or.inl hx
  · exact Or.inr (Or.inr (List.mem_map.2 (by
      obtain ⟨p, hp, rfl⟩ := List.mem_map.1 hx
      exact ⟨p, List.mem_of_mem_drop hp, rfl⟩)))

theorem erase_both {s t : State α} {this other : Nat} {A B : List (Nat × α)}
    {pos : iterator}
    (hb : Both s this other A B) (hown : Owns this s pos)
    (h : okState (erase this pos s) = some t) :
    ∃ A2 : List (Nat × α), Both t this other A2 B := by
  have hl := hb.1
  obtain ⟨hc, hmem⟩ := hown
  obtain ⟨⟨b, hbk⟩, ht⟩ := okState_eq_some h
  rw [hl.nodes_eq] at hmem
  have hne := (erase_ok hbk).2.2
  have hmem2 : pos.current ∈ A.map Prod.fst := by
    rcases List.mem_cons.1 hmem with e | e
    · exact absurd e hne
    · exact e
  obtain ⟨i, hi⟩ := mem_index hmem2
  obtain ⟨hr, hl2, _⟩ := erase_isList i hl hc hi
  rw [hr] at ht
  simp only at ht
  subst ht
  refine ⟨_, hb.step hl2 (erase_frame hl hmem) hb.2.2.2 ?_⟩
  intro x hx
  simp only [list.deleteNode, eraseNode_head, List.mem_cons] at hx ⊢
  rcases hx with hx | hx
  · exact Or.inl hx
  · obtain ⟨p, hp, rfl⟩ := List.mem_map.1 hx
    exact Or.inr (List.mem_map_of_mem _ ((List.eraseIdx_sublist A i).subset hp))

theorem applyOp_both {s t : State α} {this other : Nat} {A B : List (Nat × α)} (op : Op α)
    (hb : Both s this other A B) (h : applyOp this s op = some t) :
    ∃ A2 : List (Nat × α), Both t this other A2 B := by
  have hl := hb.1
  cases op with
  | insert pos v a =>
    simp only [applyOp] at h
    split at h
    · next hc => exact insert_both hb hc.1 hc.2 h
    · exact Option.noConfusion h
  | erase pos =>
    simp only [applyOp] at h
    split at h
    · next hc => exact erase_both hb hc h
    · exact Option.noConfusion h
  | push_back v a =>
    simp only [applyOp] at h
    split at h
    · next hc =>
      simp only [push_back, okState_map] at h
      exact insert_both hb hl.owns_end hc h
    · exact Option.noConfusion h
  | push_front v a =>
    simp only [applyOp] at h
    split at h
    · next hc =>
      simp only [push_front, okState_map] at h
      exact insert_both hb hl.owns_begin hc h
    · exact Option.noConfusion h
  | pop_back =>
    simp only [applyOp, pop_back] at h
    split at h
    · exact Option.noConfusion h
    · simp only [okState_map] at h
      exact erase_both hb hl.owns_tail h
  | pop_front =>
    simp only [applyOp, pop_front] at h
    split at h
    · exact Option.noConfusion h
    · simp only [okState_map] at h
      exact erase_both hb hl.owns_begin h

theorem applyMut_both [LT α] [DecidableRel (fun a b : α => a < b)] [BEq α]
    {s t : State α} {this other : Nat} {A B : List (Nat × α)} (m : Mut α)
    (hb : Both s this other A B) (h : applyMut this s m = some t) :
    ∃ A2 : List (Nat × α), Both t this other A2 B := by
  have hl := hb.1
  have hsz := hl.2.2.1
  cases m with
  | basic op => exact applyOp_both op hb h
  | clear =>
    simp only [applyMut] at h
    have hc := toOption_eq_some h
    obtain ⟨t2, ht2, hl2, hfr, hhd, _⟩ := @clear_spec _ s this A (s._size this + 1) hl
      (by rw [hsz])
    rw [hc] at ht2
    cases ht2
    refine ⟨[], hb.step hl2 hfr hb.2.2.2 ?_⟩
    intro x hx
    rw [hhd] at hx
    simp only [List.map_nil, List.mem_singleton] at hx
    rw [hx]; exact List.mem_cons_self _ _
  | sort sortPrim =>
    simp only [applyMut] at h
    split at h
    · next hperm =>
      simp only [Option.some.injEq] at h
      subst h
      obtain ⟨sorted, hl2, hpm, he⟩ := sort_ring sortPrim hl hperm
      have hperm2 := hperm
      rw [hl.nodes_eq] at hperm2
      have hfr : FrameOn (s.head this :: A.map Prod.fst) this s (sort sortPrim this s) := by
        rw [he]
        split
        · exact FrameOn.refl _ _ _
        · refine (linkPath_frame this (s.head this) _ s).mono ?_
          intro x hx
          rcases List.mem_cons.1 hx with e | e
          · rw [e]; exact List.mem_cons_self _ _
          · exact List.mem_cons_of_mem _ (hperm2.subset e)
      have hhd : (sort sortPrim this s).head = s.head := by
        rw [he]
        split
        · rfl
        · exact (linkPath_fields s _).1
      refine ⟨sorted, hb.step hl2 hfr hb.2.2.2 ?_⟩
      intro x hx
      rw [hhd] at hx
      rcases List.mem_cons.1 hx with e | e
      · rw [e]; exact List.mem_cons_self _ _
      · exact List.mem_cons_of_mem _ ((hpm.map Prod.fst).subset e)
    · exact Option.noConfusion h
  | reverse =>
    simp only [applyMut] at h
    have hc := toOption_eq_some h
    have hf : A.length + 1 ≤ s._size this + 1 := by rw [hsz]
    obtain ⟨t2, ht2, hl2, _, _, hhd, _⟩ := reverse_isList hl hf
    have he := reverse_eq hl hf
    rw [hc] at ht2 he
    cases ht2
    have hfr : FrameOn (s.head this :: A.map Prod.fst) this s t := by
      rw [Except.ok.inj he]
      split
      · exact FrameOn.refl _ _ _
      · exact swapOn_frame _ _ _
    refine ⟨A.reverse, hb.step hl2 hfr hb.2.2.2 ?_⟩
    intro x hx
    rw [hhd] at hx
    simpa using hx
  | unique =>
    simp only [applyMut] at h
    have hc := toOption_eq_some h
    have hf : A.length ≤ s._size this + 1 := by rw [hsz]; omega
    obtain ⟨t2, kept, ht2, hl2, hsub, _⟩ := unique_isList hl hf
    rw [hc] at ht2
    cases ht2
    have hfr := unique_frame hl hc
    have hhd : t.head this = s.head this := by rw [unique_head hc]
    refine ⟨kept, hb.step hl2 hfr hb.2.2.2 ?_⟩
    intro x hx
    rw [hhd] at hx
    rcases List.mem_cons.1 hx with e | e
    · rw [e]; exact List.mem_cons_self _ _
    · exact List.mem_cons_of_mem _ ((hsub.map Prod.fst).subset e)

theorem runMut_both [LT α] [DecidableRel (fun a b : α => a < b)] [BEq α]
    {this other : Nat} {B : List (Nat × α)} (ms : List (Mut α)) :
    ∀ {s t : State α} {A : List (Nat × α)}, Both s this other A B →
      runMut this ms s = some t → ∃ A2 : List (Nat × α), Both t this other A2 B := by
  induction ms with
  | nil =>
    intro s t A hb h
    simp only [runMut, Option.some.injEq] at h
    subst h
    exact ⟨A, hb⟩
  | cons m ms ih =>
    intro s t A hb h
    simp only [runMut] at h
    cases hm : applyMut this s m with
    | none => rw [hm] at h; exact Option.noConfusion h
    | some u =>
      rw [hm] at h
      obtain ⟨A2, hb2⟩ := applyMut_both m hb hm
      exact ih hb2 h

/-! ### Copy construction and copy assignment -/

theorem copied_snd (alloc : Nat → Nat) :
    ∀ (l : List (Nat × α)) (k : Nat), (copied alloc k l).map Prod.snd = l.map Prod.snd := by
  intro l
  induction l with
  | nil => intro k; rfl
  | cons p l ih => intro k; simp only [copied, List.map_cons, ih]

theorem push_back_both {s : State α} {this other : Nat} {C B : List (Nat × α)} (v : α)
    {a : Nat} (hb : Both s this other C B) (ha : Fresh s a) :
    push_back this v a s = (.ok (), insertNode this (s.head this) a (newNode s a v)) ∧
    Both (insertNode this (s.head this) a (newNode s a v)) this other (C ++ [(a, v)]) B := by
  have hl := hb.1
  have hp : (C.map Prod.fst ++ [s.head this])[C.length]? = some (end_ this s).current := by
    rw [List.getElem?_append_right (by simp)]
    simp [end_]
  obtain ⟨hr, hl2⟩ := insert_isList C.length v hl rfl hp ha
  have hfr := insert_frame v hl hp ha
  rw [List.take_length, List.drop_length] at hl2
  refine ⟨?_, hb.step hl2 hfr (hb.fresh_not_other ha) ?_⟩
  · simp only [push_back, hr]; rfl
  · intro x hx
    have e : (insertNode this (s.head this) a (newNode s a v)).head this =
        s.head this := rfl
    rw [e] at hx
    simp only [List.map_append, List.map_cons, List.map_nil, List.mem_cons, List.mem_append,
      List.mem_singleton, List.not_mem_nil, or_false] at hx ⊢
    tauto

theorem copyLoop_spec (this other : Nat) (alloc : Nat → Nat) (ho : other ≠ 0) :
    ∀ (rest done C : List (Nat × α)) (s : State α) (k fuel : Nat) (it : iterator),
      Both s this other C (done ++ rest) → it.container = other →
      (rest.map Prod.fst ++ [s.head other]).head? = some it.current →
      AllocOK s alloc k rest.length → rest.length + 1 ≤ fuel →
      ∃ t : State α, copyLoop this other alloc fuel k it s = (.ok (), t) ∧
        Both t this other (C ++ copied alloc k rest) (done ++ rest) := by
  intro rest
  induction rest with
  | nil =>
    intro done C s k fuel it hb _ hit _ hf
    obtain ⟨f, rfl⟩ : ∃ f, fuel = f + 1 := ⟨fuel - 1, by omega⟩
    simp only [List.map_nil, List.nil_append, List.head?_cons, Option.some.injEq] at hit
    refine ⟨s, ?_, by simpa [copied] using hb⟩
    simp [copyLoop, iterNe, end_, hit]
  | cons p rest ih =>
    intro done C s k fuel it hb hitc hit hal hf
    obtain ⟨f, rfl⟩ : ∃ f, fuel = f + 1 := ⟨fuel - 1, by omega⟩
    simp only [List.length_cons] at hf hal
    simp only [List.map_cons, List.cons_append, List.head?_cons, Option.some.injEq] at hit
    obtain ⟨c, itc⟩ := it
    simp only at hitc hit
    subst hit
    have hitc2 : other = itc := hitc.symm
    subst hitc2
    have hB := hb.2.1
    have hne : other ≠ this := fun e => hb.2.2.1 e.symm
    have hpm : p.1 ∈ (done ++ p :: rest).map Prod.fst := by simp
    have hph : p.1 ≠ s.head other := hB.ne_head hpm
    have hp0 : p.1 ≠ 0 := (hB.2.2.2.2.2 p.1 (List.mem_cons_of_mem _ hpm)).2
    have hd : s.data p.1 = some p.2 := hB.2.2.2.1 p (by simp)
    have hfresh : Fresh s (alloc k) := hal.1 0 (by omega)
    obtain ⟨hpb, hb1⟩ := push_back_both p.2 hb hfresh
    have hB1 := hb1.2.1
    have hnx : (rest.map Prod.fst ++ [s.head other]).head? =
        some ((insertNode this (s.head this) (alloc k) (newNode s (alloc k) p.2)).next p.1) := by
      have hB1b : IsList (insertNode this (s.head this) (alloc k) (newNode s (alloc k) p.2))
          other (done ++ (p.1, p.2) :: rest) := hB1
      exact hB1b.next_mid
    have hal2 : AllocOK (insertNode this (s.head this) (alloc k) (newNode s (alloc k) p.2))
        alloc (k + 1) rest.length := by
      refine ⟨fun j hj => ?_, fun i hi j hj e => ?_⟩
      · have h1 := hal.1 (j + 1) (by omega)
        have e1 : k + (j + 1) = k + 1 + j := by omega
        rw [e1] at h1
        have h2 : alloc (k + 1 + j) ≠ alloc k := by
          intro e2
          have h3 := hal.2 (j + 1) (by omega) 0 (by omega) (by rw [e1]; exact e2)
          omega
        exact ⟨h1.1, by simp [list.newNode, h2, h1.2]⟩
      · have e1 : k + (i + 1) = k + 1 + i := by omega
        have e2 : k + (j + 1) = k + 1 + j := by omega
        have h3 := hal.2 (i + 1) (by omega) (j + 1) (by omega) (by rw [e1, e2]; exact e)
        omega
    have hb2 : Both (insertNode this (s.head this) (alloc k) (newNode s (alloc k) p.2))
        this other (C ++ [(alloc k, p.2)]) ((done ++ [p]) ++ rest) := by
      simpa using hb1
    obtain ⟨t, ht, hbt⟩ := ih (done ++ [p]) (C ++ [(alloc k, p.2)]) _ (k + 1) f
      ⟨(insertNode this (s.head this) (alloc k) (newNode s (alloc k) p.2)).next p.1, other⟩
      hb2 rfl hnx hal2 (by omega)
    refine ⟨t, ?_, by simpa [copied] using hbt⟩
    have hne2 : iterNe (⟨p.1, other⟩ : iterator) (end_ other s) = true := by
      simp [iterNe, end_, hph]
    have hde : dereference (⟨p.1, other⟩ : iterator) s = .ok p.2 := by
      simp [dereference, hp0, ho, hph, hd]
    have hin : increment (⟨p.1, other⟩ : iterator)
        (insertNode this (s.head this) (alloc k) (newNode s (alloc k) p.2)) =
        (.ok (), ⟨(insertNode this (s.head this) (alloc k)
          (newNode s (alloc k) p.2)).next p.1, other⟩) := by
      have e : (insertNode this (s.head this) (alloc k) (newNode s (alloc k) p.2)).head other =
          s.head other := rfl
      simp [increment, hp0, ho, e, hph]
    simp only [copyLoop, hne2, if_true, hde, hpb, hin]
    exact ht

theorem copyOf_of_both [LT α] [DecidableRel (fun a b : α => a < b)] [BEq α]
    {s t : State α} {this other : Nat} {B C : List (Nat × α)}
    (hB : IsList s other B) (hb : Both t this other C B)
    (hC : C.map Prod.snd = B.map Prod.snd) : CopyOf s t this other B C := by
  have hv : values other t = values other s := by
    rw [hb.2.1.values_eq, hB.values_eq]
  have hz : size other t = size other s := by
    simp only [size]; rw [hb.2.1.2.2.1, hB.2.2.1]
  refine ⟨hb.1, hC, ?_, ?_, hb.2.1, hv, hz, ?_⟩
  · rw [hb.1.values_eq, hB.values_eq, hC]
  · simp only [size]
    rw [hb.1.2.2.1, hB.2.2.1, ← List.length_map C Prod.snd, hC, List.length_map]
  · intro ms u hu
    obtain ⟨A2, hb2⟩ := runMut_both ms hb hu
    refine ⟨hb2.2.1, ?_, ?_⟩
    · rw [hb2.2.1.values_eq, hB.values_eq]
    · simp only [size]; rw [hb2.2.1.2.2.1, hB.2.2.1]

theorem init_head_other {s : State α} {this other a : Nat} (hne : other ≠ this) :
    (init this a s).head other = s.head other := by
  simp [init, setHead, setNext, setPrev, setSize, newSentinel, hne]

theorem copyConstruct_spec {s : State α} {this other : Nat} {B : List (Nat × α)}
    {alloc : Nat → Nat} {fuel : Nat}
    (hB : IsList s other B) (hne : this ≠ other) (ho : other ≠ 0)
    (hal : AllocOK s alloc 0 (B.length + 1)) (hf : B.length + 1 ≤ fuel) :
    ∃ t : State α, copyConstruct fuel this other alloc s = (.ok (), t) ∧
      Both t this other (copied alloc 1 B) B := by
  have hno : other ≠ this := fun e => hne e.symm
  have hf0 : Fresh s (alloc 0) := by
    have h := hal.1 0 (by omega)
    simpa using h
  have hnm := hB.not_mem_of_fresh hf0
  have hB0 : IsList (init this (alloc 0) s) other B := by
    refine hB.of_frame (init_frame this (alloc 0) s) hno ?_
    intro a ha hm
    simp only [List.mem_singleton] at hm
    rw [hm] at ha
    exact hnm ha
  have hb0 : Both (init this (alloc 0) s) this other [] B := by
    refine ⟨init_isList this hf0.1, hB0, hne, ?_⟩
    intro a ha hm
    rw [init_head_other hno] at ha
    have e : (init this (alloc 0) s).head this = alloc 0 := by
      simp [init, setHead, setNext, setPrev, setSize, newSentinel]
    rw [e] at hm
    simp only [List.map_nil, List.mem_singleton] at hm
    rw [hm] at ha
    exact hnm ha
  have hal1 : AllocOK (init this (alloc 0) s) alloc 1 B.length := by
    refine ⟨fun j hj => ?_, fun i hi j hj e => ?_⟩
    · have h1 := hal.1 (j + 1) (by omega)
      have e1 : 0 + (j + 1) = 1 + j := by omega
      rw [e1] at h1
      have h2 : alloc (1 + j) ≠ alloc 0 := by
        intro e2
        have h3 := hal.2 (j + 1) (by omega) 0 (by omega) (by rw [e1]; exact e2)
        omega
      refine ⟨h1.1, ?_⟩
      simp [init, setHead, setNext, setPrev, setSize, newSentinel, h2, h1.2]
    · have e1 : 0 + (i + 1) = 1 + i := by omega
      have e2 : 0 + (j + 1) = 1 + j := by omega
      have h3 := hal.2 (i + 1) (by omega) (j + 1) (by omega) (by rw [e1, e2]; exact e)
      omega
  have hfirst : (B.map Prod.fst ++ [(init this (alloc 0) s).head other]).head? =
      some (begin other (init this (alloc 0) s)).current := by
    rw [List.head?_eq_getElem?]; exact hB0.next_head
  have hb1 : Both (init this (alloc 0) s) this other [] ([] ++ B) := hb0
  obtain ⟨t, ht, hbt⟩ := copyLoop_spec this other alloc ho B [] [] _ 1 fuel
    (begin other (init this (alloc 0) s)) hb1 rfl hfirst hal1 hf
  exact ⟨t, ht, by simpa using hbt⟩

theorem assign_spec {s : State α} {this other : Nat} {M B : List (Nat × α)}
    {alloc : Nat → Nat} {fuel : Nat}
    (hb : Both s this other M B) (ho : other ≠ 0)
    (hal : ∀ j, j < B.length →
      alloc j ≠ 0 ∧ (s.live (alloc j) = false ∨ alloc j ∈ M.map Prod.fst))
    (hinj : ∀ i, i < B.length → ∀ j, j < B.length → alloc i = alloc j → i = j)
    (hf : M.length + B.length + 1 ≤ fuel) :
    ∃ t : State α, assign fuel this other alloc s = (.ok (), t) ∧
      Both t this other (copied alloc 0 B) B := by
  have hne := hb.2.2.1
  have hA := hb.1
  have hf1 : M.length + 1 ≤ fuel := by omega
  obtain ⟨t1, ht1, hl1, hfr, hhd, hdead⟩ := clear_spec hA hf1
  have hb1 : Both t1 this other [] B := by
    refine hb.step hl1 hfr hb.2.2.2 ?_
    intro x hx
    rw [hhd] at hx
    simp only [List.map_nil, List.mem_singleton] at hx
    rw [hx]; exact List.mem_cons_self _ _
  have hal1 : AllocOK t1 alloc 0 B.length := by
    refine ⟨fun j hj => ?_, fun i hi j hj e => ?_⟩
    · obtain ⟨h0, h1⟩ := hal j hj
      rw [Nat.zero_add]
      refine ⟨h0, ?_⟩
      by_cases hm : alloc j ∈ M.map Prod.fst
      · exact hdead _ hm
      · have hlv : s.live (alloc j) = false := by
          rcases h1 with h1 | h1
          · exact h1
          · exact absurd h1 hm
        have hnr : alloc j ∉ s.head this :: M.map Prod.fst := by
          intro hmem
          have h2 := (hA.2.2.2.2.2 _ hmem).1
          rw [hlv] at h2
          exact Bool.noConfusion h2
        rw [(hfr.2 _ hnr).2.2.2]; exact hlv
    · rw [Nat.zero_add, Nat.zero_add] at e
      exact hinj i hi j hj e
  have hfirst : (B.map Prod.fst ++ [t1.head other]).head? =
      some (begin other t1).current := by
    rw [List.head?_eq_getElem?]; exact hb1.2.1.next_head
  have hb2 : Both t1 this other [] ([] ++ B) := hb1
  obtain ⟨t, ht, hbt⟩ := copyLoop_spec this other alloc ho B [] [] t1 0 fuel
    (begin other t1) hb2 rfl hfirst hal1 (by omega)
  refine ⟨t, ?_, by simpa using hbt⟩
  simp only [assign, if_neg hne, ht1]
  exact ht

/-- C11: copy-constructing a list from `L`, or copy-assigning `L` to an existing list `M`
whatever it held, returns (given the loop budget) and produces a list with the element
sequence and size of `L`; `L` is unchanged by the copy; afterwards every sequence of
mutator calls (`insert`, `erase`, `push_*`, `pop_*`, `clear`, `sort`, `reverse`, `unique`)
on the copy leaves the element sequence and size of `L` unchanged; and the self-assignment
`L = L` leaves the heap unchanged. -/
theorem copy_independent [LT α] [DecidableRel (fun a b : α => a < b)] [BEq α]
    (s : State α) (this other : Nat) (M B : List (Nat × α)) (alloc : Nat → Nat)
    (fuel : Nat) (hB : IsList s other B) (hne : this ≠ other) (ho : other ≠ 0)
    (hf : M.length + B.length + 1 ≤ fuel) :
    (AllocOK s alloc 0 (B.length + 1) →
      ∃ (t : State α) (C : List (Nat × α)),
        copyConstruct fuel this other alloc s = (.ok (), t) ∧ CopyOf s t this other B C) ∧
    (IsList s this M → Separate s this other M B →
      (∀ j, j < B.length →
        alloc j ≠ 0 ∧ (s.live (alloc j) = false ∨ alloc j ∈ M.map Prod.fst)) →
      (∀ i, i < B.length → ∀ j, j < B.length → alloc i = alloc j → i = j) →
      ∃ (t : State α) (C : List (Nat × α)),
        assign fuel this other alloc s = (.ok (), t) ∧ CopyOf s t this other B C) ∧
    assign fuel other other alloc s = (.ok (), s) := by
  refine ⟨?_, ?_, ?_⟩
  · intro hal
    have hf2 : B.length + 1 ≤ fuel := by omega
    obtain ⟨t, ht, hb⟩ := copyConstruct_spec hB hne ho hal hf2
    exact ⟨t, _, ht, copyOf_of_both hB hb (copied_snd alloc B 1)⟩
  · intro hA hsep hal hinj
    obtain ⟨t, ht, hb⟩ := assign_spec ⟨hA, hB, hsep⟩ ho hal hinj hf
    exact ⟨t, _, ht, copyOf_of_both hB hb (copied_snd alloc B 0)⟩
  · simp [assign]

/-- C11 at concrete inputs: the list object `2` copy-constructed from `[3, 1, 2]` holds
`[3, 1, 2]`; after `reverse`, `push_back(9)`, `sort`, `unique`, `pop_front` and `clear` on the
copy the original still holds `[3, 1, 2]`; and assigning `B = [2, 4, 6]` to `A = [1, 3, 5]`
makes `A` hold `[2, 4, 6]`. -/
theorem copy_independent_witness :
    IsList ex312 1 [(11, 3), (12, 1), (13, 2)] ∧ AllocOK ex312 (exAlloc 20) 0 4 ∧
    copyConstruct 4 2 1 (exAlloc 20) ex312 = (.ok (), exCopy) ∧
    values 2 exCopy = [some 3, some 1, some 2] ∧
    (∃ u, runMut 2 [Mut.reverse, Mut.basic (Op.push_back 9 30), Mut.sort exSort,
        Mut.unique, Mut.basic Op.pop_front, Mut.clear] exCopy = some u ∧
      values 2 u = [] ∧ values 1 u = [some 3, some 1, some 2]) ∧
    (∃ (t : State Nat) (C : List (Nat × Nat)),
      copyConstruct 4 2 1 (exAlloc 20) ex312 = (.ok (), t) ∧ CopyOf ex312 t 2 1
        [(11, 3), (12, 1), (13, 2)] C) ∧
    (∃ (t : State Nat) (C : List (Nat × Nat)),
      assign 7 1 2 (exAlloc 30) exAB = (.ok (), t) ∧ CopyOf exAB t 1 2
        [(21, 2), (22, 4), (23, 6)] C) ∧
    (∃ t, assign 7 1 2 (exAlloc 30) exAB = (.ok (), t) ∧
      values 1 t = [some 2, some 4, some 6] ∧ values 2 t = [some 2, some 4, some 6]) :=
  have h := copy_independent ex312 2 1 [] [(11, 3), (12, 1), (13, 2)] (exAlloc 20) 4
    (by decide) (by decide) (by decide) (by decide)
  have h2 := copy_independent exAB 1 2 [(11, 1), (12, 3), (13, 5)]
    [(21, 2), (22, 4), (23, 6)] (exAlloc 30) 7 (by decide) (by decide) (by decide) (by decide)
  ⟨by decide, by decide, rfl, by decide, ⟨_, rfl, by decide, by decide⟩, h.1 (by decide),
    h2.2.1 (by decide) (by decide) (by decide) (by decide), ⟨_, rfl, by decide, by decide⟩⟩

end list

end sjtu
